import Mathlib

/-!
# Verification of the ascii-dag renderer

A shallow embedding of the `ascii-dag` Rust crate (graph store, cycle
detection, hierarchical level layout, and the ASCII renderer), together
with proofs settling the specification claims.

Conventions of the embedding:
* Rust `&str` labels and the output `String` buffer are modelled as
  `List Char` (one entry per Unicode scalar value, exactly as Rust
  `char`s pushed onto a `String`).
* Rust `usize` is modelled as `Nat`; note that `usize` subtraction in
  the source only occurs where the code guarantees no underflow, and
  `saturating_sub` is `Nat` subtraction.
* `HashMap<usize,usize>` (`id_to_index`) is modelled as an association
  list with in-place update, and `HashSet<usize>` (`auto_created`) as a
  list used as a set.  The source never iterates over either structure,
  it only queries them, so any extensional model is faithful.
* Recursive Rust functions and `while` loops are modelled with an
  explicit fuel argument returning `Option`; `none` means the fuel was
  exhausted.  Theorems show the chosen fuel suffices, which is how
  termination of the Rust loops is expressed.
* `f32` sort keys in the crossing-reduction median heuristic are exact
  half-integers; they are modelled by their doubled value as a `Nat`
  (comparisons agree with the `f32` comparisons whenever positions are
  below the `f32` exactness threshold `2^23`, which covers any graph a
  terminal could display).
-/

namespace AsciiDag

/-- Rendering mode for the DAG visualization (`graph.rs`). -/
inductive RenderMode where
  | Vertical : RenderMode
  | Horizontal : RenderMode
  | Auto : RenderMode
deriving DecidableEq, Repr

/-- `RenderMode::default()` is `Auto`. -/
def RenderMode.default : RenderMode := RenderMode.Auto

/-- Association-list lookup, the model of `HashMap::get`. -/
def lookupA (m : List (Nat × Nat)) (k : Nat) : Option Nat :=
  match m with
  | [] => none
  | (k', v) :: rest => if k' = k then some v else lookupA rest k

/-- Association-list insert, the model of `HashMap::insert`: update the
value in place if the key is present, otherwise append. -/
def insertA (m : List (Nat × Nat)) (k : Nat) (v : Nat) : List (Nat × Nat) :=
  match m with
  | [] => [(k, v)]
  | (k', v') :: rest =>
      if k' = k then (k', v) :: rest else (k', v') :: insertA rest k v

/-- The graph store `DAG` (`graph.rs`).  Node labels are `List Char`. -/
structure DAGs where
  nodes : List (Nat × List Char)
  edges : List (Nat × Nat)
  render_mode : RenderMode
  auto_created : List Nat
  id_to_index : List (Nat × Nat)
  node_widths : List Nat
  children : List (List Nat)
  parents : List (List Nat)
deriving DecidableEq

/-- `DAG::new()` / `DAG::default()`. -/
def DAGs.new : DAGs :=
  { nodes := [], edges := [], render_mode := RenderMode.default
    auto_created := [], id_to_index := [], node_widths := []
    children := [], parents := [] }

/-- `DAG::with_mode(mode)`. -/
def DAGs.with_mode (mode : RenderMode) : DAGs :=
  { DAGs.new with render_mode := mode }

/-- `DAG::set_render_mode(mode)`. -/
def DAGs.set_render_mode (g : DAGs) (mode : RenderMode) : DAGs :=
  { g with render_mode := mode }

/-- `DAG::is_auto_created(id)`: membership in the `auto_created` set. -/
def DAGs.is_auto_created (g : DAGs) (id : Nat) : Bool :=
  g.auto_created.contains id

/-- The digit-counting loop of `DAG::count_digits` (`graph.rs`). -/
def countDigitsAux (n : Nat) : Nat :=
  if h : n = 0 then 0 else countDigitsAux (n / 10) + 1
decreasing_by exact Nat.div_lt_self (Nat.pos_of_ne_zero h) (by omega)

/-- `DAG::count_digits(n)` (`graph.rs`): decimal digit count, 1 for 0. -/
def countDigits (n : Nat) : Nat :=
  if n = 0 then 1 else countDigitsAux n

/-- The digit-emitting loop of `DAG::write_usize` (`graph.rs`),
most-significant digit first (the source buffers least-significant
first and then writes in reverse order). -/
def writeUsizeAux (n : Nat) : List Char :=
  if h : n = 0 then []
  else writeUsizeAux (n / 10) ++ [Char.ofNat (n % 10 + 48)]
decreasing_by exact Nat.div_lt_self (Nat.pos_of_ne_zero h) (by omega)

/-- `DAG::write_usize(buf, n)` (`graph.rs`): decimal digits of `n`,
most significant first, appended to the buffer.  We model the appended
fragment; callers append it. -/
def writeUsize (n : Nat) : List Char :=
  if n = 0 then ['0'] else writeUsizeAux n

/-- `DAG::compute_node_width(id, label)` (`graph.rs`). -/
def DAGs.compute_node_width (g : DAGs) (id : Nat) (label : List Char) : Nat :=
  if label.isEmpty || g.is_auto_created id then
    2 + countDigits id
  else
    2 + label.length

/-- `DAG::write_node(output, id, label)` (`graph.rs`): the rendered form
of one node, appended to the output buffer.  We model the appended
fragment. -/
def DAGs.write_node (g : DAGs) (id : Nat) (label : List Char) : List Char :=
  if label.isEmpty || g.is_auto_created id then
    '⟨' :: writeUsize id ++ ['⟩']
  else
    '[' :: label ++ [']']

/-- `DAG::node_index(id)` (`graph.rs`). -/
def DAGs.node_index (g : DAGs) (id : Nat) : Option Nat :=
  lookupA g.id_to_index id

/-- `DAG::get_node_width(idx)` (`graph.rs`): cached width or 0. -/
def DAGs.get_node_width (g : DAGs) (idx : Nat) : Nat :=
  g.node_widths.getD idx 0

/-- `DAG::get_children(node_id)` (`graph.rs`): child ids via the cached
adjacency list. -/
def DAGs.get_children (g : DAGs) (node_id : Nat) : List Nat :=
  match g.node_index node_id with
  | some idx => (g.children.getD idx []).map (fun cIdx => (g.nodes.getD cIdx (0, [])).1)
  | none => []

/-- `DAG::get_parents(node_id)` (`graph.rs`): parent ids via the cached
adjacency list. -/
def DAGs.get_parents (g : DAGs) (node_id : Nat) : List Nat :=
  match g.node_index node_id with
  | some idx => (g.parents.getD idx []).map (fun pIdx => (g.nodes.getD pIdx (0, [])).1)
  | none => []

/-- `DAG::add_node(id, label)` (`graph.rs`). -/
def DAGs.add_node (g : DAGs) (id : Nat) (label : List Char) : DAGs :=
  match g.node_index id with
  | some idx =>
      -- Promote auto-created node to explicit node
      let g1 := { g with nodes := g.nodes.set idx (id, label)
                         auto_created := g.auto_created.filter (fun x => ¬ x = id) }
      let width := g1.compute_node_width id label
      { g1 with node_widths := g1.node_widths.set idx width }
  | none =>
      -- Brand new node
      let width := g.compute_node_width id label
      { g with nodes := g.nodes ++ [(id, label)]
               id_to_index := insertA g.id_to_index id g.nodes.length
               node_widths := g.node_widths ++ [width]
               children := g.children ++ [[]]
               parents := g.parents ++ [[]] }

/-- `DAG::ensure_node_exists(id)` (`graph.rs`). -/
def DAGs.ensure_node_exists (g : DAGs) (id : Nat) : DAGs :=
  if (g.node_index id).isSome then g
  else
    let g1 := { g with nodes := g.nodes ++ [(id, [])]
                       auto_created := g.auto_created ++ [id]
                       id_to_index := insertA g.id_to_index id g.nodes.length }
    let width := g1.compute_node_width id []
    { g1 with node_widths := g1.node_widths ++ [width]
              children := g1.children ++ [[]]
              parents := g1.parents ++ [[]] }

/-- List update helper used to model `vec[i].push(x)`. -/
def pushAt (l : List (List Nat)) (i : Nat) (x : Nat) : List (List Nat) :=
  l.set i (l.getD i [] ++ [x])

/-- `DAG::add_edge(from, to)` (`graph.rs`). -/
def DAGs.add_edge (g : DAGs) (fromId toId : Nat) : DAGs :=
  let g1 := (g.ensure_node_exists fromId).ensure_node_exists toId
  let g2 := { g1 with edges := g1.edges ++ [(fromId, toId)] }
  match g2.node_index fromId, g2.node_index toId with
  | some fromIdx, some toIdx =>
      { g2 with children := pushAt g2.children fromIdx toIdx
                parents := pushAt g2.parents toIdx fromIdx }
  | _, _ => g2

/-- `DAG::from_edges(nodes, edges)` (`graph.rs`): batch construction. -/
def DAGs.from_edges (ns : List (Nat × List Char)) (es : List (Nat × Nat)) : DAGs :=
  let dag0 : DAGs :=
    { nodes := ns, edges := [], render_mode := RenderMode.default
      auto_created := [], id_to_index := [], node_widths := []
      children := [], parents := [] }
  -- Build id_to_index map and widths cache
  let dag1 := (ns.enum).foldl
    (fun (d : DAGs) (p : Nat × Nat × List Char) =>
      let d' := { d with id_to_index := insertA d.id_to_index p.2.1 p.1 }
      { d' with node_widths := d'.node_widths ++ [d'.compute_node_width p.2.1 p.2.2] })
    dag0
  -- Initialize adjacency lists
  let dag2 := { dag1 with children := List.replicate ns.length []
                          parents := List.replicate ns.length [] }
  -- Add edges (may auto-create missing nodes)
  es.foldl (fun d (p : Nat × Nat) => d.add_edge p.1 p.2) dag2

/-- `DAG::estimate_size()` (`graph.rs`). -/
def DAGs.estimate_size (g : DAGs) : Nat :=
  g.nodes.length * 25 + g.edges.length * 15 + 200

/-! ## Cycle detection (`cycles.rs`)

`has_cycle_util` recurses on the graph; we give it explicit fuel and
return `none` on fuel exhaustion.  The `for` loop over `self.edges`
inside it is `cycleEdgeLoop`, parameterised by the recursive call at
the smaller fuel. -/

/-- The edge loop of `has_cycle_util`: for each edge whose source id is
`nodeId`, recurse into the edge's target via `f`, short-circuiting on
`true`.  Returns the flag together with the threaded
`visited`/`rec_stack` state. -/
def cycleEdgeLoop (g : DAGs)
    (f : Nat → List Bool → List Bool → Option (Bool × List Bool × List Bool))
    (nodeId : Nat) :
    List (Nat × Nat) → List Bool → List Bool → Option (Bool × List Bool × List Bool)
  | [], v, r => some (false, v, r)
  | (fr, t) :: rest, v, r =>
      if fr = nodeId then
        match g.node_index t with
        | some childIdx =>
            match f childIdx v r with
            | none => none
            | some (true, v', r') => some (true, v', r')
            | some (false, v', r') => cycleEdgeLoop g f nodeId rest v' r'
        | none => cycleEdgeLoop g f nodeId rest v r
      else cycleEdgeLoop g f nodeId rest v r

/-- `DAG::has_cycle_util(idx, visited, rec_stack)` (`cycles.rs`) with
fuel. -/
def hasCycleUtilF (g : DAGs) :
    Nat → Nat → List Bool → List Bool → Option (Bool × List Bool × List Bool)
  | 0 => fun _ _ _ => none
  | fuel + 1 => fun idx v r =>
      if r.getD idx false then some (true, v, r)
      else if v.getD idx false then some (false, v, r)
      else
        let v1 := v.set idx true
        let r1 := r.set idx true
        match cycleEdgeLoop g (hasCycleUtilF g fuel)
            (g.nodes.getD idx (0, [])).1 g.edges v1 r1 with
        | none => none
        | some (true, v', r') => some (true, v', r')
        | some (false, v', r') => some (false, v', r'.set idx false)

/-- The `for i in 0..self.nodes.len()` loop of `has_cycle`. -/
def hasCycleLoop (g : DAGs) : List Nat → List Bool → List Bool → Option Bool
  | [], _, _ => some false
  | i :: rest, v, r =>
      match hasCycleUtilF g (g.nodes.length + 1) i v r with
      | none => none
      | some (true, _, _) => some true
      | some (false, v', r') => hasCycleLoop g rest v' r'

/-- `DAG::has_cycle()` (`cycles.rs`). -/
def hasCycleF (g : DAGs) : Option Bool :=
  hasCycleLoop g (List.range g.nodes.length)
    (List.replicate g.nodes.length false) (List.replicate g.nodes.length false)

/-- The edge loop of `find_cycle_from`, analogous to `cycleEdgeLoop`;
threads the `visited`/`path` state and short-circuits when a cycle was
extracted. -/
def findCycleEdgeLoop (g : DAGs)
    (f : Nat → List Bool → List Nat → Option (Option (List Nat) × List Bool × List Nat))
    (nodeId : Nat) :
    List (Nat × Nat) → List Bool → List Nat →
      Option (Option (List Nat) × List Bool × List Nat)
  | [], v, p => some (none, v, p)
  | (fr, t) :: rest, v, p =>
      if fr = nodeId then
        match g.node_index t with
        | some childIdx =>
            match f childIdx v p with
            | none => none
            | some (some cyc, v', p') => some (some cyc, v', p')
            | some (none, v', p') => findCycleEdgeLoop g f nodeId rest v' p'
        | none => findCycleEdgeLoop g f nodeId rest v p
      else findCycleEdgeLoop g f nodeId rest v p

/-- `DAG::find_cycle_from(start_idx, visited, path)` (`cycles.rs`) with
fuel; `path.pop()` is `dropLast`. -/
def findCycleFromF (g : DAGs) :
    Nat → Nat → List Bool → List Nat →
      Option (Option (List Nat) × List Bool × List Nat)
  | 0 => fun _ _ _ => none
  | fuel + 1 => fun startIdx v p =>
      if v.getD startIdx false then
        match p.findIdx? (fun idx => idx = startIdx) with
        | some cycleStart =>
            some (some ((p.drop cycleStart).map
              (fun idx => (g.nodes.getD idx (0, [])).1)), v, p)
        | none => some (none, v, p)
      else
        let v1 := v.set startIdx true
        let p1 := p ++ [startIdx]
        match findCycleEdgeLoop g (findCycleFromF g fuel)
            (g.nodes.getD startIdx (0, [])).1 g.edges v1 p1 with
        | none => none
        | some (some cyc, v', p') => some (some cyc, v', p')
        | some (none, v', p') => some (none, v', p'.dropLast)

/-- The `for i in 0..self.nodes.len()` loop of `find_cycle_path`; each
start uses a fresh `visited` array and a fresh empty path. -/
def findCyclePathLoop (g : DAGs) : List Nat → Option (Option (List Nat))
  | [] => some none
  | i :: rest =>
      match findCycleFromF g (g.nodes.length + 1) i
          (List.replicate g.nodes.length false) [] with
      | none => none
      | some (some cyc, _, _) => some (some cyc)
      | some (none, _, _) => findCyclePathLoop g rest

/-- `DAG::find_cycle_path()` (`cycles.rs`). -/
def findCyclePathF (g : DAGs) : Option (Option (List Nat)) :=
  findCyclePathLoop g (List.range g.nodes.length)

/-! ## Level calculation and layout (`layout.rs`) -/

/-- One edge step of the relaxation scan in `calculate_levels`. -/
def levelPassStep (g : DAGs) (acc : List Nat × Bool) (e : Nat × Nat) :
    List Nat × Bool :=
  match g.node_index e.1, g.node_index e.2 with
  | some fromIdx, some toIdx =>
      let newLevel := acc.1.getD fromIdx 0 + 1
      if newLevel > acc.1.getD toIdx 0 then (acc.1.set toIdx newLevel, true)
      else acc
  | _, _ => acc

/-- One full scan over `self.edges` in `calculate_levels`, returning the
updated levels and the `changed` flag. -/
def levelPass (g : DAGs) (lv : List Nat) : List Nat × Bool :=
  g.edges.foldl (levelPassStep g) (lv, false)

/-- The `while changed` loop of `calculate_levels`, with fuel.  The Rust
loop has no iteration bound; `none` reports that the given fuel was not
enough to reach the fixed point. -/
def levelLoopF (g : DAGs) : Nat → List Nat → Option (List Nat)
  | 0 => fun _ => none
  | fuel + 1 => fun lv =>
      let r := levelPass g lv
      if r.2 then levelLoopF g fuel r.1 else some r.1

/-- `DAG::calculate_levels()` (`layout.rs`), with fuel `n*n + 1`
(sufficient for every acyclic graph, see `levelLoopF_converges`). -/
def calculateLevelsF (g : DAGs) : Option (List (Nat × Nat)) :=
  match levelLoopF g (g.nodes.length * g.nodes.length + 1)
      (List.replicate g.nodes.length 0) with
  | none => none
  | some lv => some lv.enum

/-- One edge step of the scan in `calculate_levels_for_subgraph`: edges
with an endpoint outside the subgraph are skipped. -/
def levelPassSubStep (g : DAGs) (subgraphNodeIds : List Nat)
    (acc : List Nat × Bool) (e : Nat × Nat) : List Nat × Bool :=
  if ¬ subgraphNodeIds.contains e.1 ∨ ¬ subgraphNodeIds.contains e.2 then acc
  else levelPassStep g acc e

/-- One full scan in `calculate_levels_for_subgraph`. -/
def levelPassSub (g : DAGs) (subgraphNodeIds : List Nat) (lv : List Nat) :
    List Nat × Bool :=
  g.edges.foldl (levelPassSubStep g subgraphNodeIds) (lv, false)

/-- The `while changed` loop of `calculate_levels_for_subgraph`. -/
def levelLoopSubF (g : DAGs) (subgraphNodeIds : List Nat) :
    Nat → List Nat → Option (List Nat)
  | 0 => fun _ => none
  | fuel + 1 => fun lv =>
      let r := levelPassSub g subgraphNodeIds lv
      if r.2 then levelLoopSubF g subgraphNodeIds fuel r.1 else some r.1

/-- `DAG::calculate_levels_for_subgraph(subgraph_indices)` (`layout.rs`). -/
def calculateLevelsForSubgraphF (g : DAGs) (subgraphIndices : List Nat) :
    Option (List (Nat × Nat)) :=
  let subgraphNodeIds := subgraphIndices.map (fun idx => (g.nodes.getD idx (0, [])).1)
  match levelLoopSubF g subgraphNodeIds (g.nodes.length * g.nodes.length + 1)
      (List.replicate g.nodes.length 0) with
  | none => none
  | some lv => some (subgraphIndices.map (fun idx => (idx, lv.getD idx 0)))

/-! ### Crossing reduction -/

/-- Stable insertion by a `Nat` key: the new element goes after all
existing elements with key `≤` its own. -/
def stInsertBy {α : Type} (key : α → Nat) (x : α) : List α → List α
  | [] => [x]
  | y :: ys => if key y ≤ key x then y :: stInsertBy key x ys else x :: y :: ys

/-- Stable sort by a `Nat` key.  Rust's `sort_by`/`sort_by_key` are
stable, and a stable sort's output is uniquely determined, so this
models them exactly; `sort_unstable` is only used on bare numbers for
which stability is irrelevant. -/
def stableSortBy {α : Type} (key : α → Nat) (l : List α) : List α :=
  l.foldl (fun acc x => stInsertBy key x acc) []

/-- The doubled median of a sorted position list (`layout.rs` median
computation): `f32` medians here are half-integers, represented by
their doubled value.  Empty list falls back to the node's own position. -/
def medianDoubled (positions : List Nat) (fallback : Nat) : Nat :=
  if positions.isEmpty then 2 * fallback
  else if positions.length % 2 = 1 then 2 * positions.getD (positions.length / 2) 0
  else positions.getD (positions.length / 2 - 1) 0 + positions.getD (positions.length / 2) 0

/-- `DAG::order_by_median_parents(level_nodes, parent_level)`
(`layout.rs`). -/
def orderByMedianParents (g : DAGs) (levelNodes : List Nat)
    (parentLevel : List Nat) : List Nat :=
  let nodeMedians := levelNodes.enum.map (fun (p : Nat × Nat) =>
    let nodeId := (g.nodes.getD p.2 (0, [])).1
    let parentIds := g.get_parents nodeId
    if parentIds.isEmpty then (p.2, 2 * p.1)
    else
      let parentPositions := parentIds.filterMap (fun pId =>
        parentLevel.findIdx? (fun i => (g.nodes.getD i (0, [])).1 = pId))
      let parentPositions := stableSortBy id parentPositions
      (p.2, medianDoubled parentPositions p.1))
  (stableSortBy Prod.snd nodeMedians).map Prod.fst

/-- `DAG::order_by_median_children(level_nodes, child_level)`
(`layout.rs`). -/
def orderByMedianChildren (g : DAGs) (levelNodes : List Nat)
    (childLevel : List Nat) : List Nat :=
  let nodeMedians := levelNodes.enum.map (fun (p : Nat × Nat) =>
    let nodeId := (g.nodes.getD p.2 (0, [])).1
    let childIds := g.get_children nodeId
    if childIds.isEmpty then (p.2, 2 * p.1)
    else
      let childPositions := childIds.filterMap (fun cId =>
        childLevel.findIdx? (fun i => (g.nodes.getD i (0, [])).1 = cId))
      let childPositions := stableSortBy id childPositions
      (p.2, medianDoubled childPositions p.1))
  (stableSortBy Prod.snd nodeMedians).map Prod.fst

/-- One iteration of `reduce_crossings`: a top-down then a bottom-up
sweep over the per-level node lists. -/
def reduceCrossingsIter (g : DAGs) (levels : List (List Nat)) (maxLevel : Nat) :
    List (List Nat) :=
  let levels := (List.range maxLevel).foldl
    (fun (ls : List (List Nat)) (k : Nat) =>
      let levelIdx := k + 1
      ls.set levelIdx
        (orderByMedianParents g (ls.getD levelIdx []) (ls.getD (levelIdx - 1) [])))
    levels
  (List.range maxLevel).reverse.foldl
    (fun (ls : List (List Nat)) (levelIdx : Nat) =>
      ls.set levelIdx
        (orderByMedianChildren g (ls.getD levelIdx []) (ls.getD (levelIdx + 1) [])))
    levels

/-- `DAG::reduce_crossings(levels, max_level)` (`layout.rs`): 4 fixed
iterations. -/
def reduceCrossings (g : DAGs) (levels : List (List Nat)) (maxLevel : Nat) :
    List (List Nat) :=
  (List.range 4).foldl (fun ls _ => reduceCrossingsIter g ls maxLevel) levels

/-! ### Coordinate assignment -/

/-- The initial left-to-right packing of one level in
`assign_x_coordinates`: `x` advances by `width + 3`. -/
def initialPack (g : DAGs) (xs : List Nat) (levelNodes : List Nat) : List Nat :=
  (levelNodes.foldl
    (fun (acc : List Nat × Nat) idx =>
      (acc.1.set idx acc.2, acc.2 + g.get_node_width idx + 3))
    (xs, 0)).1

/-- The per-node centering refinement step in `assign_x_coordinates`:
damped pull towards the median of the parents' centers
(`saturating_sub` is `Nat` subtraction). -/
def refineNode (g : DAGs) (xs : List Nat) (idx : Nat) : List Nat :=
  let nodeId := (g.nodes.getD idx (0, [])).1
  let parentIds := g.get_parents nodeId
  if parentIds.isEmpty then xs
  else
    let parentCenters := parentIds.filterMap (fun pId =>
      match g.node_index pId with
      | some pIdx => some (xs.getD pIdx 0 + g.get_node_width pIdx / 2)
      | none => none)
    if parentCenters.isEmpty then xs
    else
      let sorted := stableSortBy id parentCenters
      let median := sorted.getD (sorted.length / 2) 0
      let width := g.get_node_width idx
      let target := median - width / 2
      xs.set idx ((xs.getD idx 0 + target) / 2)

/-- `DAG::compact_level(x_coords, level_nodes)` (`layout.rs`): sort the
level by current x, then repack left-to-right with the `width + 3`
rule, reordering the level list to match. -/
def compactLevel (g : DAGs) (xs : List Nat) (levelNodes : List Nat) :
    List Nat × List Nat :=
  if levelNodes.isEmpty then (xs, levelNodes)
  else
    let sorted := stableSortBy Prod.fst
      (levelNodes.map (fun idx => (xs.getD idx 0, idx)))
    let res := sorted.foldl
      (fun (acc : List Nat × List Nat × Nat) (p : Nat × Nat) =>
        (acc.1.set p.2 acc.2.2, acc.2.1 ++ [p.2],
          acc.2.2 + g.get_node_width p.2 + 3))
      (xs, [], 0)
    (res.1, res.2.1)

/-- `DAG::assign_x_coordinates(levels, max_level)` (`layout.rs`):
initial packing, then 2 fixed refinement iterations over levels
`1..=max_level`, recompacting each level.  Returns the coordinates and
the (reordered) level lists. -/
def assignXCoordinates (g : DAGs) (levels : List (List Nat)) (maxLevel : Nat) :
    List Nat × List (List Nat) :=
  let xs0 := List.replicate g.nodes.length 0
  let xs1 := levels.foldl (fun xs ln => initialPack g xs ln) xs0
  (List.range 2).foldl
    (fun (acc : List Nat × List (List Nat)) _ =>
      (List.range maxLevel).foldl
        (fun (acc : List Nat × List (List Nat)) k =>
          let levelIdx := k + 1
          let xs := (acc.2.getD levelIdx []).foldl
            (fun xs idx => refineNode g xs idx) acc.1
          let res := compactLevel g xs (acc.2.getD levelIdx [])
          (res.1, acc.2.set levelIdx res.2))
        acc)
    (xs1, levels)

/-! ### Canvas dimensions and subgraphs -/

/-- Minimum of a `Nat` list with default (`iter().min().unwrap_or`). -/
def minimumD (l : List Nat) (d : Nat) : Nat :=
  match l with
  | [] => d
  | x :: xs => xs.foldl min x

/-- Maximum of a `Nat` list with default (`iter().max().unwrap_or`). -/
def maximumD (l : List Nat) (d : Nat) : Nat :=
  match l with
  | [] => d
  | x :: xs => xs.foldl max x

/-- `iter().max_by_key(key)`: on ties Rust returns the **last** maximal
element. -/
def maxByKeyLast (key : Nat → Nat) : List Nat → Option Nat
  | [] => none
  | x :: xs => some (xs.foldl (fun best y => if key best ≤ key y then y else best) x)

/-- `DAG::calculate_canvas_dimensions(levels, x_coords)` (`layout.rs`). -/
def calculateCanvasDimensions (g : DAGs) (levels : List (List Nat))
    (xs : List Nat) : List Nat × Nat :=
  levels.foldl
    (fun (acc : List Nat × Nat) levelNodes =>
      if levelNodes.isEmpty then (acc.1 ++ [0], acc.2)
      else
        let minX := minimumD (levelNodes.map (fun idx => xs.getD idx 0)) 0
        let maxNodeIdx := (maxByKeyLast (fun idx => xs.getD idx 0) levelNodes).getD 0
        let width := g.get_node_width maxNodeIdx
        let levelWidth := (xs.getD maxNodeIdx 0 - minX) + width
        (acc.1 ++ [levelWidth], max acc.2 levelWidth))
    ([], 0)

/-- The edge loop of `collect_connected`: each edge is followed in both
directions (child if the source id matches, parent if the target id
matches), recursing through `f`. -/
def collectEdgeLoop (g : DAGs)
    (f : Nat → List Bool × List Nat → Option (List Bool × List Nat))
    (nodeId : Nat) :
    List (Nat × Nat) → List Bool × List Nat → Option (List Bool × List Nat)
  | [], st => some st
  | (fr, t) :: rest, st =>
      let step1 : Option (List Bool × List Nat) :=
        if fr = nodeId then
          match g.node_index t with
          | some childIdx => f childIdx st
          | none => some st
        else some st
      match step1 with
      | none => none
      | some st1 =>
          let step2 : Option (List Bool × List Nat) :=
            if t = nodeId then
              match g.node_index fr with
              | some parentIdx => f parentIdx st1
              | none => some st1
            else some st1
          match step2 with
          | none => none
          | some st2 => collectEdgeLoop g f nodeId rest st2

/-- `DAG::collect_connected(start_idx, visited, subgraph)` (`layout.rs`)
with fuel; the state is the pair `(visited, subgraph)`. -/
def collectConnectedF (g : DAGs) :
    Nat → Nat → List Bool × List Nat → Option (List Bool × List Nat)
  | 0 => fun _ _ => none
  | fuel + 1 => fun startIdx st =>
      if st.1.getD startIdx false then some st
      else
        let st1 := (st.1.set startIdx true, st.2 ++ [startIdx])
        collectEdgeLoop g (collectConnectedF g fuel)
          (g.nodes.getD startIdx (0, [])).1 g.edges st1

/-- The `for i in 0..self.nodes.len()` loop of `find_subgraphs`. -/
def findSubgraphsLoop (g : DAGs) :
    List Nat → List Bool → List (List Nat) → Option (List (List Nat))
  | [], _, acc => some acc
  | i :: rest, v, acc =>
      if v.getD i false then findSubgraphsLoop g rest v acc
      else
        match collectConnectedF g (g.nodes.length + 1) i (v, []) with
        | none => none
        | some (v', sub) => findSubgraphsLoop g rest v' (acc ++ [sub])

/-- `DAG::find_subgraphs()` (`layout.rs`). -/
def findSubgraphsF (g : DAGs) : Option (List (List Nat)) :=
  findSubgraphsLoop g (List.range g.nodes.length)
    (List.replicate g.nodes.length false) []

/-- `DAG::is_subgraph_simple_chain(subgraph_indices)` (`layout.rs`). -/
def isSubgraphSimpleChain (g : DAGs) (subgraphIndices : List Nat) : Bool :=
  subgraphIndices.all (fun idx =>
    let nodeId := (g.nodes.getD idx (0, [])).1
    decide ((g.get_parents nodeId).length ≤ 1) &&
    decide ((g.get_children nodeId).length ≤ 1))

/-! ## ASCII rendering (`render/ascii.rs`) -/

/-- The inclusive column range `lo..=hi` of the drawing loops. -/
def rangeIncl (lo hi : Nat) : List Nat :=
  (List.range (hi + 1 - lo)).map (fun k => k + lo)

/-- The per-node body of the loop in `render_cycle` printing the cyclic
dependency chain: node, then either a chain arrow or the cycle-closing
arrow back to the first node. -/
def renderCycleChain (g : DAGs) (cycleNodes : List Nat) : List Char :=
  (cycleNodes.enum.map (fun (p : Nat × Nat) =>
    match g.nodes.find? (fun nd => nd.1 = p.2) with
    | some (id, label) =>
        g.write_node id label ++
        (if p.1 < cycleNodes.length - 1 then [' ', '→', ' ']
         else
           match g.nodes.find? (fun nd => nd.1 = cycleNodes.headD 0) with
           | some (fid, flabel) => [' ', '⇄', ' '] ++ g.write_node fid flabel
           | none => [])
    | none => [])).flatten

/-- `DAG::render_cycle(output)` (`render/ascii.rs`). -/
def renderCycleF (g : DAGs) : Option (List Char) :=
  let header := ("⚠️  CYCLE DETECTED - Not a valid DAG\n").data ++ ['\n']
  match findCyclePathF g with
  | none => none
  | some (some cycleNodes) =>
      some (header ++ ("Cyclic dependency chain:\n").data ++
        renderCycleChain g cycleNodes ++ ['\n'] ++ ['\n'] ++
        ("This creates an infinite loop in error dependencies.\n").data)
  | some none =>
      some (header ++ ("Complex cycle detected in graph.\n").data)

/-- `DAG::is_simple_chain()` (`render/ascii.rs`). -/
def isSimpleChainF (g : DAGs) : Option Bool :=
  if g.nodes.isEmpty then some false
  else
    match findSubgraphsF g with
    | none => none
    | some sgs =>
        if sgs.length > 1 then some false
        else
          some (g.nodes.all (fun nd =>
            decide ((g.get_parents nd.1).length ≤ 1) &&
            decide ((g.get_children nd.1).length ≤ 1)))

/-- The mode-resolution `match` at the top of `render_to`: `Auto`
resolves via `is_simple_chain`, anything else stands. -/
def resolveModeF (g : DAGs) : Option RenderMode :=
  match g.render_mode with
  | RenderMode.Auto =>
      match isSimpleChainF g with
      | none => none
      | some true => some RenderMode.Horizontal
      | some false => some RenderMode.Vertical
  | other => some other

/-- The chain-following `loop` in `render_horizontal` (also used inside
`render_subgraph` for simple-chain components, whose loop body is
identical), with fuel. -/
def hwalkF (g : DAGs) : Nat → List Nat → Nat → Option (List Char)
  | 0 => fun _ _ => none
  | fuel + 1 => fun visited currentId =>
      let visited1 := visited ++ [currentId]
      let nodePart :=
        match g.nodes.find? (fun nd => nd.1 = currentId) with
        | some (id, label) => g.write_node id label
        | none => []
      match g.get_children currentId with
      | [] => some nodePart
      | c :: _ =>
          if visited1.contains c then some (nodePart ++ [' ', '→', ' '])
          else
            match hwalkF g fuel visited1 c with
            | none => none
            | some rest => some (nodePart ++ [' ', '→', ' '] ++ rest)

/-- `DAG::render_horizontal(output)` (`render/ascii.rs`). -/
def renderHorizontalF (g : DAGs) : Option (List Char) :=
  let roots := g.nodes.filter (fun nd => (g.get_parents nd.1).isEmpty)
  match roots with
  | [] => some ("(no root)").data
  | root :: _ =>
      match hwalkF g (g.nodes.length + 1) [] root.1 with
      | none => none
      | some s => some (s ++ ['\n'])

/-- Grouping of the full-layout connections by one endpoint, the model
of the sorted-`Vec` + `binary_search_by_key` insertion: keys are kept
sorted and unique, values accumulate per key in encounter order. -/
def groupInsert (k : Nat) (v : Nat) : List (Nat × List Nat) → List (Nat × List Nat)
  | [] => [(k, [v])]
  | (k', vs) :: rest =>
      if k = k' then (k', vs ++ [v]) :: rest
      else if k < k' then (k, [v]) :: (k', vs) :: rest
      else (k', vs) :: groupInsert k v rest

/-- Group connections by target center (convergence groups). -/
def groupByTarget (conns : List (Nat × Nat)) : List (Nat × List Nat) :=
  conns.foldl (fun gs c => groupInsert c.2 c.1 gs) []

/-- Group connections by source center (divergence groups). -/
def groupBySource (conns : List (Nat × Nat)) : List (Nat × List Nat) :=
  conns.foldl (fun gs c => groupInsert c.1 c.2 gs) []

/-- The `(from_center, to_center)` connection pairs between two adjacent
levels in `draw_connections_sugiyama`. -/
def sugiyamaConnections (g : DAGs) (currentNodes nextNodes : List Nat)
    (xs : List Nat) (currentMinX currentOffset nextOffset : Nat) :
    List (Nat × Nat) :=
  let currentCenters := currentNodes.map (fun idx =>
    (idx, xs.getD idx 0 - currentMinX + currentOffset + g.get_node_width idx / 2))
  let nextMinX := minimumD (nextNodes.map (fun idx => xs.getD idx 0)) 0
  let nextCenters := nextNodes.map (fun idx =>
    (idx, xs.getD idx 0 - nextMinX + nextOffset + g.get_node_width idx / 2))
  currentCenters.foldl (fun conns (p : Nat × Nat) =>
    let nodeId := (g.nodes.getD p.1 (0, [])).1
    conns ++ (g.get_children nodeId).filterMap (fun childId =>
      match nextCenters.find? (fun q => (g.nodes.getD q.1 (0, [])).1 = childId) with
      | some q => some (p.2, q.2)
      | none => none)) []

/-- The character at column `i` of the middle (horizontal) line of
`draw_convergence_manhattan`; later groups overwrite earlier ones, as
in the source's mutation of `ch`. -/
def convergenceLine2Char (targetGroups : List (Nat × List Nat)) (i : Nat) : Char :=
  targetGroups.foldl (fun ch (p : Nat × List Nat) =>
    if p.2.length ≤ 1 then ch
    else
      let minSrc := minimumD p.2 0
      let maxSrc := maximumD p.2 0
      if i = minSrc then '└'
      else if i = maxSrc then '┘'
      else if p.2.contains i then '┴'
      else if minSrc < i ∧ i < maxSrc then '─'
      else ch) ' '

/-- `DAG::draw_convergence_manhattan` (`render/ascii.rs`). -/
def drawConvergenceManhattan (targetGroups : List (Nat × List Nat))
    (minPos maxPos : Nat) : List Char :=
  let allSources := targetGroups.foldl (fun acc p => acc ++ p.2) []
  let line1 := (rangeIncl minPos maxPos).map
    (fun i => if allSources.contains i then '│' else ' ')
  let line2 := (rangeIncl minPos maxPos).map (convergenceLine2Char targetGroups)
  let line3 := (rangeIncl minPos maxPos).map
    (fun i => if targetGroups.any (fun p => p.1 = i) then '↓' else ' ')
  line1 ++ ['\n'] ++ line2 ++ ['\n'] ++ line3 ++ ['\n']

/-- The character at column `i` of the middle line of
`draw_divergence_manhattan`. -/
def divergenceLine2Char (sourceGroups : List (Nat × List Nat)) (i : Nat) : Char :=
  sourceGroups.foldl (fun ch (p : Nat × List Nat) =>
    if p.2.length ≤ 1 then ch
    else
      let minTgt := minimumD p.2 0
      let maxTgt := maximumD p.2 0
      if i = minTgt then '┌'
      else if i = maxTgt then '┐'
      else if p.2.contains i then '┬'
      else if minTgt < i ∧ i < maxTgt then '─'
      else ch) ' '

/-- `DAG::draw_divergence_manhattan` (`render/ascii.rs`). -/
def drawDivergenceManhattan (sourceGroups : List (Nat × List Nat))
    (minPos maxPos : Nat) : List Char :=
  let allSources := sourceGroups.map Prod.fst
  let line1 := (rangeIncl minPos maxPos).map
    (fun i => if allSources.contains i then '│' else ' ')
  let line2 := (rangeIncl minPos maxPos).map (divergenceLine2Char sourceGroups)
  let allTargets := sourceGroups.foldl (fun acc p => acc ++ p.2) []
  let line3 := (rangeIncl minPos maxPos).map
    (fun i => if allTargets.contains i then '↓' else ' ')
  line1 ++ ['\n'] ++ line2 ++ ['\n'] ++ line3 ++ ['\n']

/-- `DAG::draw_simple_manhattan` (`render/ascii.rs`). -/
def drawSimpleManhattan (conns : List (Nat × Nat)) (minPos maxPos : Nat) :
    List Char :=
  let line1 := (rangeIncl minPos maxPos).map
    (fun i => if conns.any (fun c => c.1 = i) then '│' else ' ')
  let line2 := (rangeIncl minPos maxPos).map
    (fun i => if conns.any (fun c => c.1 = i) then '↓' else ' ')
  line1 ++ ['\n'] ++ line2 ++ ['\n']

/-- `DAG::draw_connections_sugiyama` (`render/ascii.rs`).  Note the
source fixes `min_pos = 0` ("always start from 0 since nodes are
positioned from 0"). -/
def drawConnectionsSugiyama (g : DAGs) (currentNodes nextNodes : List Nat)
    (xs : List Nat) (currentMinX currentOffset nextOffset : Nat) : List Char :=
  if currentNodes.isEmpty ∨ nextNodes.isEmpty then []
  else
    let conns := sugiyamaConnections g currentNodes nextNodes xs
      currentMinX currentOffset nextOffset
    if conns.isEmpty then []
    else
      let targetGroups := groupByTarget conns
      let sourceGroups := groupBySource conns
      let hasConvergence := targetGroups.any (fun p => p.2.length > 1)
      let hasDivergence := sourceGroups.any (fun p => p.2.length > 1)
      let minPos := 0
      let maxPos := maximumD (conns.foldl (fun acc c => acc ++ [c.1, c.2]) []) 0
      if hasConvergence && !hasDivergence then
        drawConvergenceManhattan targetGroups minPos maxPos
      else if hasDivergence && !hasConvergence then
        drawDivergenceManhattan sourceGroups minPos maxPos
      else
        drawSimpleManhattan conns minPos maxPos

/-- One level's node line in the full vertical layout: spacing up to
each node's column, the node, tracking the current column. -/
def renderNodeLine (g : DAGs) (levelNodes : List Nat) (xs : List Nat)
    (minX levelOffset : Nat) : List Char :=
  (levelNodes.foldl (fun (acc : List Char × Nat) idx =>
    let nodeX := xs.getD idx 0 - minX + levelOffset
    let spaces := List.replicate (nodeX - acc.2) ' '
    let colAfterSpaces := max acc.2 nodeX
    let nd := g.nodes.getD idx (0, [])
    (acc.1 ++ spaces ++ g.write_node nd.1 nd.2,
      colAfterSpaces + g.get_node_width idx))
    ([], 0)).1 ++ ['\n']

/-- Group the `(index, level)` data into per-level index lists, as the
`levels[*level].push(*idx)` loop does. -/
def groupNodesByLevel (levelData : List (Nat × Nat)) (maxLevel : Nat) :
    List (List Nat) :=
  levelData.foldl (fun ls (p : Nat × Nat) => ls.set p.2 (ls.getD p.2 [] ++ [p.1]))
    (List.replicate (maxLevel + 1) [])

/-- PASS 4 of `render_vertical`: per-level node lines and connector
blocks. -/
def renderVerticalMain (g : DAGs) (levels : List (List Nat)) (xs : List Nat)
    (levelWidths : List Nat) (maxCanvasWidth maxLevel : Nat) : List Char :=
  (levels.enum.map (fun (p : Nat × List Nat) =>
    if p.2.isEmpty then []
    else
      let levelWidth := levelWidths.getD p.1 0
      let levelOffset :=
        if maxCanvasWidth > levelWidth then (maxCanvasWidth - levelWidth) / 2 else 0
      let minX := minimumD (p.2.map (fun idx => xs.getD idx 0)) 0
      let nodeLine := renderNodeLine g p.2 xs minX levelOffset
      let connPart :=
        if p.1 < maxLevel then
          let nextLevelWidth := levelWidths.getD (p.1 + 1) 0
          let nextLevelOffset :=
            if maxCanvasWidth > nextLevelWidth then (maxCanvasWidth - nextLevelWidth) / 2
            else 0
          drawConnectionsSugiyama g p.2 (levels.getD (p.1 + 1) []) xs minX
            levelOffset nextLevelOffset
        else []
      nodeLine ++ connPart)).flatten

/-- The per-node `(idx, center)` positions used inside
`draw_vertical_connections` (plain `width + 3` packing). -/
def subgraphPositions (g : DAGs) (nodes : List Nat) : List (Nat × Nat) :=
  (nodes.foldl (fun (acc : List (Nat × Nat) × Nat) idx =>
    let labelLen := g.get_node_width idx
    (acc.1 ++ [(idx, acc.2 + labelLen / 2)], acc.2 + labelLen + 3)) ([], 0)).1

/-- The `(from_idx, from_pos, to_pos)` connections between two adjacent
levels of a disconnected component (`draw_vertical_connections`). -/
def subgraphConnections (g : DAGs) (currentNodes nextNodes : List Nat) :
    List (Nat × Nat × Nat) :=
  let currentPositions := subgraphPositions g currentNodes
  let nextPositions := subgraphPositions g nextNodes
  currentPositions.foldl (fun conns (p : Nat × Nat) =>
    let nodeId := (g.nodes.getD p.1 (0, [])).1
    conns ++ (g.get_children nodeId).filterMap (fun childId =>
      match nextPositions.find? (fun q => (g.nodes.getD q.1 (0, [])).1 = childId) with
      | some q => some (p.1, p.2, q.2)
      | none => none)) []

/-- `binary_search_by_key` grouping for triple connections. -/
def groupInsert3 (k : Nat) (c : Nat × Nat × Nat) :
    List (Nat × List (Nat × Nat × Nat)) → List (Nat × List (Nat × Nat × Nat))
  | [] => [(k, [c])]
  | (k', cs) :: rest =>
      if k = k' then (k', cs ++ [c]) :: rest
      else if k < k' then (k, [c]) :: (k', cs) :: rest
      else (k', cs) :: groupInsert3 k c rest

/-- Group triple connections by target position. -/
def groupByTarget3 (conns : List (Nat × Nat × Nat)) :
    List (Nat × List (Nat × Nat × Nat)) :=
  conns.foldl (fun gs c => groupInsert3 c.2.2 c gs) []

/-- Group triple connections by source node index. -/
def groupBySource3 (conns : List (Nat × Nat × Nat)) :
    List (Nat × List (Nat × Nat × Nat)) :=
  conns.foldl (fun gs c => groupInsert3 c.1 c gs) []

/-- Middle-line character of `draw_multiple_convergences`; unlike the
full-layout variant, `─` only fills otherwise-blank columns. -/
def mcChar (targetGroups : List (Nat × List (Nat × Nat × Nat))) (i : Nat) : Char :=
  targetGroups.foldl (fun ch (p : Nat × List (Nat × Nat × Nat)) =>
    if p.2.length ≤ 1 then ch
    else
      let sources := p.2.map (fun c => c.2.1)
      let minSource := minimumD sources 0
      let maxSource := maximumD sources 0
      if i = minSource then '└'
      else if i = maxSource then '┘'
      else if sources.contains i then '┴'
      else if minSource < i ∧ i < maxSource then (if ch = ' ' then '─' else ch)
      else ch) ' '

/-- `DAG::draw_multiple_convergences` (`render/ascii.rs`).  Its loops
run over `min_pos..=max_pos`. -/
def drawMultipleConvergences (targetGroups : List (Nat × List (Nat × Nat × Nat))) :
    List Char :=
  let allConnections := targetGroups.foldl (fun acc p => acc ++ p.2) []
  let minPos := minimumD (allConnections.map (fun c => min c.2.1 c.2.2)) 0
  let maxPos := maximumD (allConnections.map (fun c => max c.2.1 c.2.2)) 0
  let line1 := (rangeIncl minPos maxPos).map
    (fun i => if allConnections.any (fun c => c.2.1 = i) then '│' else ' ')
  let line2 := (rangeIncl minPos maxPos).map (mcChar targetGroups)
  let line3 := (rangeIncl minPos maxPos).map
    (fun i => if targetGroups.any (fun p => p.1 = i) then '↓' else ' ')
  line1 ++ ['\n'] ++ line2 ++ ['\n'] ++ line3 ++ ['\n']

/-- Middle-line character of `draw_multiple_divergences`. -/
def mdChar (sourceGroups : List (Nat × List (Nat × Nat × Nat))) (minPos i : Nat) :
    Char :=
  if i < minPos then ' '
  else
    sourceGroups.foldl (fun ch (p : Nat × List (Nat × Nat × Nat)) =>
      if p.2.length ≤ 1 then ch
      else
        let targets := p.2.map (fun c => c.2.2)
        let minTarget := minimumD targets 0
        let maxTarget := maximumD targets 0
        if i = minTarget then '┌'
        else if i = maxTarget then '┐'
        else if targets.contains i then '┬'
        else if minTarget < i ∧ i < maxTarget then (if ch = ' ' then '─' else ch)
        else ch) ' '

/-- `DAG::draw_multiple_divergences` (`render/ascii.rs`).  Its loops
run over `0..=max_pos` with explicit blanks left of `min_pos`. -/
def drawMultipleDivergences (sourceGroups : List (Nat × List (Nat × Nat × Nat))) :
    List Char :=
  let allConnections := sourceGroups.foldl (fun acc p => acc ++ p.2) []
  let minPos := minimumD (allConnections.map (fun c => min c.2.1 c.2.2)) 0
  let maxPos := maximumD (allConnections.map (fun c => max c.2.1 c.2.2)) 0
  let line1 := (List.range (maxPos + 1)).map
    (fun i => if i < minPos then ' '
      else if allConnections.any (fun c => c.2.1 = i) then '│' else ' ')
  let line2 := (List.range (maxPos + 1)).map (mdChar sourceGroups minPos)
  let line3 := (List.range (maxPos + 1)).map
    (fun i => if i < minPos then ' '
      else if allConnections.any (fun c => c.2.2 = i) then '↓' else ' ')
  line1 ++ ['\n'] ++ line2 ++ ['\n'] ++ line3 ++ ['\n']

/-- `DAG::draw_simple_verticals` (`render/ascii.rs`). -/
def drawSimpleVerticals (conns : List (Nat × Nat × Nat)) : List Char :=
  let maxPos := maximumD (conns.map (fun c => max c.2.1 c.2.2)) 0
  let line1 := (List.range (maxPos + 1)).map
    (fun i => if conns.any (fun c => c.2.1 = i) then '│' else ' ')
  let line2 := (List.range (maxPos + 1)).map
    (fun i => if conns.any (fun c => c.2.1 = i) then '↓' else ' ')
  line1 ++ ['\n'] ++ line2 ++ ['\n']

/-- `DAG::draw_vertical_connections` (`render/ascii.rs`). -/
def drawVerticalConnections (g : DAGs) (currentNodes nextNodes : List Nat) :
    List Char :=
  if currentNodes.isEmpty ∨ nextNodes.isEmpty then []
  else
    let conns := subgraphConnections g currentNodes nextNodes
    if conns.isEmpty then []
    else
      let targetGroups := groupByTarget3 conns
      let hasAnyConvergence := targetGroups.any (fun p => p.2.length > 1)
      let sourceGroups := groupBySource3 conns
      let hasAnyDivergence := sourceGroups.any (fun p => p.2.length > 1)
      if hasAnyConvergence && !hasAnyDivergence then
        drawMultipleConvergences targetGroups
      else if hasAnyDivergence && !hasAnyConvergence then
        drawMultipleDivergences sourceGroups
      else
        drawSimpleVerticals conns

/-- The plain vertical rendering of one disconnected component
(non-simple-chain branch of `render_subgraph`): fixed 3-space gaps and
the 2-line connector variant. -/
def renderSubgraphVertical (g : DAGs) (levels : List (List Nat)) (maxLevel : Nat) :
    List Char :=
  (levels.enum.map (fun (p : Nat × List Nat) =>
    if p.2.isEmpty then []
    else
      let nodeLine := (p.2.enum.map (fun (q : Nat × Nat) =>
        let nd := g.nodes.getD q.2 (0, [])
        g.write_node nd.1 nd.2 ++
        (if q.1 < p.2.length - 1 then [' ', ' ', ' '] else []))).flatten ++ ['\n']
      let connPart :=
        if p.1 < maxLevel then
          drawVerticalConnections g p.2 (levels.getD (p.1 + 1) [])
        else []
      nodeLine ++ connPart)).flatten

/-- `DAG::render_subgraph(output, subgraph_indices)` (`render/ascii.rs`). -/
def renderSubgraphF (g : DAGs) (subgraphIndices : List Nat) : Option (List Char) :=
  match calculateLevelsForSubgraphF g subgraphIndices with
  | none => none
  | some levelData =>
      let maxLevel := maximumD (levelData.map Prod.snd) 0
      let levels := groupNodesByLevel levelData maxLevel
      if isSubgraphSimpleChain g subgraphIndices then
        let roots := subgraphIndices.filter (fun idx =>
          (g.get_parents (g.nodes.getD idx (0, [])).1).isEmpty)
        match roots with
        | [] => some []
        | rootIdx :: _ =>
            match hwalkF g (g.nodes.length + 1) [] (g.nodes.getD rootIdx (0, [])).1 with
            | none => none
            | some s => some (s ++ ['\n'])
      else
        some (renderSubgraphVertical g levels maxLevel)

/-- The `for (i, subgraph_nodes)` loop of `render_vertical` over the
disconnected components, with a blank line before every component but
the first. -/
def renderSubgraphsLoopF (g : DAGs) :
    List (List Nat) → Bool → Option (List Char)
  | [], _ => some []
  | sg :: rest, isFirst =>
      match renderSubgraphF g sg with
      | none => none
      | some s =>
          match renderSubgraphsLoopF g rest false with
          | none => none
          | some restS => some ((if isFirst then [] else ['\n']) ++ s ++ restS)

/-- `DAG::render_vertical(output)` (`render/ascii.rs`). -/
def renderVerticalF (g : DAGs) : Option (List Char) :=
  match findSubgraphsF g with
  | none => none
  | some sgs =>
      if sgs.length > 1 then
        renderSubgraphsLoopF g sgs true
      else
        match calculateLevelsF g with
        | none => none
        | some levelData =>
            let maxLevel := maximumD (levelData.map Prod.snd) 0
            let levels0 := groupNodesByLevel levelData maxLevel
            let levels1 := reduceCrossings g levels0 maxLevel
            let res := assignXCoordinates g levels1 maxLevel
            let dims := calculateCanvasDimensions g res.2 res.1
            some (renderVerticalMain g res.2 res.1 dims.1 dims.2 maxLevel)

/-- `DAG::render_to(output)` (`render/ascii.rs`). -/
def renderToF (g : DAGs) : Option (List Char) :=
  if g.nodes.isEmpty then some ("Empty DAG").data
  else
    match hasCycleF g with
    | none => none
    | some true => renderCycleF g
    | some false =>
        match resolveModeF g with
        | none => none
        | some RenderMode.Horizontal => renderHorizontalF g
        | some _ => renderVerticalF g

/-- `DAG::render()` (`render/ascii.rs`): allocates a buffer with
capacity `estimate_size()` and delegates to `render_to`; the capacity
hint does not affect the contents. -/
def renderF (g : DAGs) : Option (List Char) := renderToF g

/-! ## Association-list lemmas -/

theorem lookupA_eq_none (m : List (Nat × Nat)) (k : Nat)
    (h : k ∉ m.map Prod.fst) : lookupA m k = none := by
  induction m with
  | nil => rfl
  | cons p rest ih =>
      simp only [List.map_cons, List.mem_cons, not_or] at h
      simp only [lookupA]
      rw [if_neg (fun hh => h.1 hh.symm), ih h.2]

theorem lookupA_isSome_iff (m : List (Nat × Nat)) (k : Nat) :
    (lookupA m k).isSome = true ↔ k ∈ m.map Prod.fst := by
  induction m with
  | nil => simp [lookupA]
  | cons p rest ih =>
      simp only [lookupA, List.map_cons, List.mem_cons]
      by_cases h : p.1 = k
      · simp [h]
      · rw [if_neg h, ih]
        constructor
        · exact fun hh => Or.inr hh
        · rintro (hh | hh)
          · exact absurd hh.symm h
          · exact hh

theorem lookupA_mem (m : List (Nat × Nat)) (k v : Nat)
    (h : lookupA m k = some v) : (k, v) ∈ m := by
  induction m with
  | nil => simp [lookupA] at h
  | cons p rest ih =>
      simp only [lookupA] at h
      by_cases hk : p.1 = k
      · rw [if_pos hk] at h
        have hp : p = (k, v) := by
          obtain ⟨p1, p2⟩ := p
          simp only at hk
          simp only [Option.some.injEq] at h
          simp [hk, h]
        rw [← hp]
        exact List.mem_cons_self _ _
      · rw [if_neg hk] at h
        exact List.mem_cons_of_mem _ (ih h)

theorem lookupA_insertA_self (m : List (Nat × Nat)) (k v : Nat) :
    lookupA (insertA m k v) k = some v := by
  induction m with
  | nil => simp [insertA, lookupA]
  | cons p rest ih =>
      by_cases h : p.1 = k
      · simp [insertA, if_pos h, lookupA, h]
      · simp [insertA, if_neg h, lookupA, h, ih]

theorem lookupA_insertA_ne (m : List (Nat × Nat)) (k v k' : Nat) (h : k' ≠ k) :
    lookupA (insertA m k v) k' = lookupA m k' := by
  induction m with
  | nil =>
      simp only [insertA, lookupA]
      rw [if_neg (fun hh => h hh.symm)]
  | cons p rest ih =>
      by_cases hp : p.1 = k
      · simp only [insertA, if_pos hp, lookupA]
        by_cases hk' : p.1 = k'
        · exact absurd (hk'.symm.trans hp) h
        · rw [if_neg hk', if_neg hk']
      · simp only [insertA, if_neg hp, lookupA]
        by_cases hk' : p.1 = k'
        · rw [if_pos hk', if_pos hk']
        · rw [if_neg hk', if_neg hk', ih]

theorem keys_insertA_mem (m : List (Nat × Nat)) (k v : Nat)
    (h : k ∈ m.map Prod.fst) :
    (insertA m k v).map Prod.fst = m.map Prod.fst := by
  induction m with
  | nil => simp at h
  | cons p rest ih =>
      by_cases hp : p.1 = k
      · simp [insertA, if_pos hp]
      · simp only [List.map_cons, List.mem_cons] at h
        rcases h with h | h
        · exact absurd h.symm hp
        · simp [insertA, if_neg hp, ih h]

theorem keys_insertA_not_mem (m : List (Nat × Nat)) (k v : Nat)
    (h : k ∉ m.map Prod.fst) :
    (insertA m k v).map Prod.fst = m.map Prod.fst ++ [k] := by
  induction m with
  | nil => simp [insertA]
  | cons p rest ih =>
      simp only [List.map_cons, List.mem_cons, not_or] at h
      simp only [insertA]
      rw [if_neg (fun hh => h.1 hh.symm)]
      simp [ih h.2]

theorem mem_insertA (m : List (Nat × Nat)) (k v : Nat) (p : Nat × Nat)
    (h : p ∈ insertA m k v) : p = (k, v) ∨ p ∈ m := by
  induction m with
  | nil =>
      simp only [insertA, List.mem_singleton] at h
      exact Or.inl h
  | cons q rest ih =>
      by_cases hq : q.1 = k
      · simp only [insertA, if_pos hq, List.mem_cons] at h
        rcases h with h | h
        · left; rw [h, hq]
        · right; exact List.mem_cons_of_mem _ h
      · simp only [insertA, if_neg hq, List.mem_cons] at h
        rcases h with h | h
        · right; exact h ▸ List.mem_cons_self _ _
        · rcases ih h with h' | h'
          · exact Or.inl h'
          · exact Or.inr (List.mem_cons_of_mem _ h')

/-! ## List access helper lemmas -/

theorem getD_append_lt {α : Type} (l l' : List α) (d : α) (i : Nat)
    (h : i < l.length) : (l ++ l').getD i d = l.getD i d := by
  simp [List.getD, List.getElem?_append_left h]

theorem getD_append_ge {α : Type} (l l' : List α) (d : α) (i : Nat)
    (h : l.length ≤ i) : (l ++ l').getD i d = l'.getD (i - l.length) d := by
  simp [List.getD, List.getElem?_append_right h]

theorem getD_set_self {α : Type} (l : List α) (i : Nat) (a d : α)
    (h : i < l.length) : (l.set i a).getD i d = a := by
  simp [List.getD, List.getElem?_set_self', h]

theorem getD_set_ne {α : Type} (l : List α) (i j : Nat) (a d : α)
    (h : i ≠ j) : (l.set i a).getD j d = l.getD j d := by
  simp [List.getD, List.getElem?_set_ne h]

theorem getD_replicate {α : Type} (n i : Nat) (a d : α) (h : i < n) :
    (List.replicate n a).getD i d = a := by
  simp [List.getD, List.getElem?_replicate, h]

theorem getD_eq_getElem {α : Type} (l : List α) (i : Nat) (d : α)
    (h : i < l.length) : l.getD i d = l[i] := by
  simp [List.getD, List.getElem?_eq_getElem h]

theorem set_eq_self_of_getD {α : Type} (l : List α) (i : Nat) (v d : α)
    (hi : i < l.length) (h : l.getD i d = v) : l.set i v = l := by
  apply List.ext_getElem?
  intro j
  by_cases hj : j = i
  · subst hj
    have hj2 : l[j]? = some v := by
      rw [List.getElem?_eq_getElem hi, getD_eq_getElem _ _ _ hi] at *
      rw [h]
    rw [List.getElem?_set_self', hj2]
    rfl
  · rw [List.getElem?_set_ne (fun hh => hj hh.symm)]

theorem mem_map_fst_iff_getD (l : List (Nat × List Char)) (id : Nat) :
    id ∈ l.map Prod.fst ↔ ∃ i < l.length, (l.getD i (0, [])).1 = id := by
  rw [List.mem_map]
  constructor
  · rintro ⟨p, hp, hid⟩
    obtain ⟨i, hi, hget⟩ := List.mem_iff_getElem.mp hp
    exact ⟨i, hi, by rw [getD_eq_getElem _ _ _ hi, hget, hid]⟩
  · rintro ⟨i, hi, hid⟩
    refine ⟨l.getD i (0, []), ?_, hid⟩
    rw [getD_eq_getElem _ _ _ hi]
    exact List.getElem_mem hi

/-! ## The well-formedness invariant

`WF g` collects the structural invariants that every publicly
constructible graph satisfies (established for `new`, `add_node`,
`add_edge`, `set_render_mode` and `from_edges` below): the id→index map
is consistent with the node sequence and duplicate-free, every edge
endpoint is indexed, adjacency lists are exactly the ones dictated by
the edge list, and auto-created ids name unique, empty-labelled
nodes. -/

/-- The id stored at node index `i`. -/
def idAt (g : DAGs) (i : Nat) : Nat := (g.nodes.getD i (0, [])).1

/-- The children list at index `i` dictated by the edge list. -/
def childrenSpec (g : DAGs) (i : Nat) : List Nat :=
  g.edges.filterMap (fun e =>
    match g.node_index e.1, g.node_index e.2 with
    | some fi, some ti => if fi = i then some ti else none
    | _, _ => none)

/-- The parents list at index `i` dictated by the edge list. -/
def parentsSpec (g : DAGs) (i : Nat) : List Nat :=
  g.edges.filterMap (fun e =>
    match g.node_index e.1, g.node_index e.2 with
    | some fi, some ti => if ti = i then some fi else none
    | _, _ => none)

/-- Well-formedness of a graph store (see section comment). -/
def WF (g : DAGs) : Prop :=
  (∀ p ∈ g.id_to_index, p.2 < g.nodes.length ∧ idAt g p.2 = p.1) ∧
  (g.id_to_index.map Prod.fst).Nodup ∧
  (∀ e ∈ g.edges, (g.node_index e.1).isSome = true ∧
    (g.node_index e.2).isSome = true) ∧
  (∀ i < g.nodes.length, (g.node_index (idAt g i)).isSome = true) ∧
  g.node_widths.length = g.nodes.length ∧
  g.children.length = g.nodes.length ∧
  g.parents.length = g.nodes.length ∧
  (∀ i < g.nodes.length, g.children.getD i [] = childrenSpec g i) ∧
  (∀ i < g.nodes.length, g.parents.getD i [] = parentsSpec g i) ∧
  (∀ id ∈ g.auto_created, (g.nodes.map Prod.fst).count id = 1 ∧
    ∃ idx < g.nodes.length, g.node_index id = some idx ∧
      g.nodes.getD idx (0, []) = (id, []))

instance WF.dec (g : DAGs) : Decidable (WF g) := by
  unfold WF
  exact inferInstance

theorem WF.lookup_lt {g : DAGs} (h : WF g) {id idx : Nat}
    (hl : g.node_index id = some idx) : idx < g.nodes.length ∧ idAt g idx = id :=
  h.1 (id, idx) (lookupA_mem _ _ _ hl)

theorem WF_new : WF DAGs.new := by decide

theorem WF_set_render_mode {g : DAGs} (h : WF g) (m : RenderMode) :
    WF (g.set_render_mode m) := h

theorem node_index_isSome_of_mem_fst {g : DAGs} (h : WF g) {i : Nat}
    (hi : i < g.nodes.length) : (g.node_index (idAt g i)).isSome = true :=
  h.2.2.2.1 i hi

theorem not_mem_fst_of_none {g : DAGs} (h : WF g) {id : Nat}
    (hnone : g.node_index id = none) : id ∉ g.nodes.map Prod.fst := by
  intro hmem
  obtain ⟨i, hi, hid⟩ := (mem_map_fst_iff_getD _ _).mp hmem
  have := h.2.2.2.1 i hi
  rw [idAt] at this
  rw [hid] at this
  rw [DAGs.node_index] at hnone
  rw [DAGs.node_index, hnone] at this
  simp at this

/-- Appending a fresh node (the `else` branch of `add_node`, and
`ensure_node_exists` when the id is missing) preserves well-formedness. -/
theorem WF_append_node {g : DAGs} (h : WF g) (id : Nat) (lab : List Char)
    (w : Nat) (A' : List Nat) (hfresh : g.node_index id = none)
    (hA : A' = g.auto_created ∨ (A' = g.auto_created ++ [id] ∧ lab = [])) :
    WF { g with nodes := g.nodes ++ [(id, lab)]
                auto_created := A'
                id_to_index := insertA g.id_to_index id g.nodes.length
                node_widths := g.node_widths ++ [w]
                children := g.children ++ [[]]
                parents := g.parents ++ [[]] } := by
  have hwf := h
  obtain ⟨w1, w2, w3, w4, w5, w6, w7, w8, w9, w10⟩ := h
  set n := g.nodes.length with hn
  set g' : DAGs := { g with nodes := g.nodes ++ [(id, lab)]
                            auto_created := A'
                            id_to_index := insertA g.id_to_index id g.nodes.length
                            node_widths := g.node_widths ++ [w]
                            children := g.children ++ [[]]
                            parents := g.parents ++ [[]] } with hg'
  have hklen : g'.nodes.length = n + 1 := by simp [hg']
  have hF3 : id ∉ g.id_to_index.map Prod.fst := by
    intro hmem
    have := (lookupA_isSome_iff g.id_to_index id).mpr hmem
    rw [DAGs.node_index] at hfresh
    rw [hfresh] at this
    simp at this
  have hF4 : id ∉ g.nodes.map Prod.fst :=
    not_mem_fst_of_none ⟨w1, w2, w3, w4, w5, w6, w7, w8, w9, w10⟩ hfresh
  have hF1 : ∀ x, g'.node_index x = if x = id then some n else g.node_index x := by
    intro x
    by_cases hx : x = id
    · subst hx
      simp only [DAGs.node_index, hg', if_pos rfl]
      exact lookupA_insertA_self _ _ _
    · simp only [DAGs.node_index, hg', if_neg hx]
      exact lookupA_insertA_ne _ _ _ _ hx
  have hF2lt : ∀ i, i < n → idAt g' i = idAt g i := by
    intro i hi
    simp only [idAt, hg']
    rw [getD_append_lt _ _ _ _ hi]
  have hF2eq : idAt g' n = id := by
    simp only [idAt, hg']
    rw [getD_append_ge _ _ _ _ (le_refl n), Nat.sub_self]
    rfl
  have hEdgeIdx : ∀ e ∈ g.edges, g'.node_index e.1 = g.node_index e.1 ∧
      g'.node_index e.2 = g.node_index e.2 := by
    intro e he
    obtain ⟨h1, h2⟩ := w3 e he
    constructor
    · rw [hF1]
      split
      · next heq =>
          rw [heq, DAGs.node_index] at h1
          rw [DAGs.node_index, hfresh] at *
          simp [hfresh] at h1
      · rfl
    · rw [hF1]
      split
      · next heq =>
          rw [heq] at h2
          rw [hfresh] at h2
          simp at h2
      · rfl
  have hSpecC : ∀ i, childrenSpec g' i = childrenSpec g i := by
    intro i
    simp only [childrenSpec, hg']
    apply List.filterMap_congr
    intro e he
    obtain ⟨h1, h2⟩ := hEdgeIdx e he
    simp only [hg'] at h1 h2
    rw [h1, h2]
  have hSpecP : ∀ i, parentsSpec g' i = parentsSpec g i := by
    intro i
    simp only [parentsSpec, hg']
    apply List.filterMap_congr
    intro e he
    obtain ⟨h1, h2⟩ := hEdgeIdx e he
    simp only [hg'] at h1 h2
    rw [h1, h2]
  have hSpecCn : childrenSpec g n = [] := by
    rw [childrenSpec, List.filterMap_eq_nil_iff]
    intro e he
    obtain ⟨h1, h2⟩ := w3 e he
    obtain ⟨fi, hfi⟩ := Option.isSome_iff_exists.mp h1
    obtain ⟨ti, hti⟩ := Option.isSome_iff_exists.mp h2
    rw [hfi, hti]
    have hlt := hwf.lookup_lt hfi
    simp only []
    rw [if_neg (by omega)]
  have hSpecPn : parentsSpec g n = [] := by
    rw [parentsSpec, List.filterMap_eq_nil_iff]
    intro e he
    obtain ⟨h1, h2⟩ := w3 e he
    obtain ⟨fi, hfi⟩ := Option.isSome_iff_exists.mp h1
    obtain ⟨ti, hti⟩ := Option.isSome_iff_exists.mp h2
    rw [hfi, hti]
    have hlt := hwf.lookup_lt hti
    simp only []
    rw [if_neg (by omega)]
  refine ⟨?_, ?_, ?_, ?_, ?_, ?_, ?_, ?_, ?_, ?_⟩
  · -- clause 1: id→index entries consistent
    intro p hp
    rcases mem_insertA _ _ _ _ hp with hpe | hpm
    · subst hpe
      exact ⟨by simp [hklen], hF2eq⟩
    · obtain ⟨hlt, hid⟩ := w1 p hpm
      exact ⟨by rw [hklen]; omega, by rw [hF2lt _ hlt]; exact hid⟩
  · -- clause 2: keys nodup
    show ((insertA g.id_to_index id n).map Prod.fst).Nodup
    rw [keys_insertA_not_mem _ _ _ hF3]
    rw [List.nodup_append]
    exact ⟨w2, List.nodup_singleton _, fun x hx hx' => by
      simp only [List.mem_singleton] at hx'
      exact hF3 (hx' ▸ hx)⟩
  · -- clause 3: edge endpoints indexed
    intro e he
    obtain ⟨h1, h2⟩ := hEdgeIdx e he
    obtain ⟨h1', h2'⟩ := w3 e he
    exact ⟨by rw [h1]; exact h1', by rw [h2]; exact h2'⟩
  · -- clause 4: node ids indexed
    intro i hi
    rw [hklen] at hi
    rcases Nat.lt_or_ge i n with hlt | hge
    · rw [hF2lt _ hlt, hF1]
      split
      · rfl
      · exact w4 i hlt
    · have : i = n := by omega
      subst this
      rw [hF2eq, hF1, if_pos rfl]
      rfl
  · simp [hg', w5]
  · simp [hg', w6]
  · simp [hg', w7]
  · -- clause 8: children lists
    intro i hi
    rw [hklen] at hi
    rw [hSpecC]
    rcases Nat.lt_or_ge i n with hlt | hge
    · show (g.children ++ [[]]).getD i [] = _
      rw [getD_append_lt _ _ _ _ (by rw [w6]; exact hlt)]
      exact w8 i hlt
    · have hin : i = n := by omega
      subst hin
      show (g.children ++ [[]]).getD n [] = _
      rw [getD_append_ge _ _ _ _ (by rw [w6]), w6, Nat.sub_self, hSpecCn]
      rfl
  · -- clause 9: parents lists
    intro i hi
    rw [hklen] at hi
    rw [hSpecP]
    rcases Nat.lt_or_ge i n with hlt | hge
    · show (g.parents ++ [[]]).getD i [] = _
      rw [getD_append_lt _ _ _ _ (by rw [w7]; exact hlt)]
      exact w9 i hlt
    · have hin : i = n := by omega
      subst hin
      show (g.parents ++ [[]]).getD n [] = _
      rw [getD_append_ge _ _ _ _ (by rw [w7]), w7, Nat.sub_self, hSpecPn]
      rfl
  · -- clause 10: auto-created ids
    intro id' hid'
    have hcount : (g'.nodes.map Prod.fst).count id' =
        (g.nodes.map Prod.fst).count id' + (if id = id' then 1 else 0) := by
      simp only [hg', List.map_append, List.count_append]
      simp [List.count_singleton']
    have hold : id' ∈ g.auto_created →
        (g'.nodes.map Prod.fst).count id' = 1 ∧
        ∃ idx < g'.nodes.length, g'.node_index id' = some idx ∧
          g'.nodes.getD idx (0, []) = (id', []) := by
      intro hmem
      obtain ⟨hc, idx, hidx, hsome, hval⟩ := w10 id' hmem
      have hne : id' ≠ id := by
        intro hh
        rw [hh] at hsome
        rw [hfresh] at hsome
        exact Option.noConfusion hsome
      constructor
      · rw [hcount, hc, if_neg (fun hh => hne hh.symm)]
      · refine ⟨idx, by rw [hklen]; omega, ?_, ?_⟩
        · rw [hF1, if_neg hne]
          exact hsome
        · simp only [hg']
          rw [getD_append_lt _ _ _ _ hidx]
          exact hval
    have hid2 : id' ∈ A' := hid'
    rcases hA with hA | ⟨hA, hlab⟩
    · rw [hA] at hid2
      exact hold hid2
    · rw [hA] at hid2
      rcases List.mem_append.mp hid2 with hmem | hmem
      · exact hold hmem
      · simp only [List.mem_singleton] at hmem
        subst hmem
        constructor
        · rw [hcount, if_pos rfl, List.count_eq_zero_of_not_mem hF4]
        · refine ⟨n, by rw [hklen]; omega, by rw [hF1, if_pos rfl], ?_⟩
          simp only [hg']
          rw [getD_append_ge _ _ _ _ (le_refl n), Nat.sub_self, hlab]
          rfl

theorem ensure_eq_of_isSome {g : DAGs} {id : Nat}
    (h : (g.node_index id).isSome = true) : g.ensure_node_exists id = g := by
  rw [DAGs.ensure_node_exists, if_pos h]

theorem ensure_eq_of_none {g : DAGs} {id : Nat}
    (h : g.node_index id = none) :
    g.ensure_node_exists id =
      { g with nodes := g.nodes ++ [(id, [])]
               auto_created := g.auto_created ++ [id]
               id_to_index := insertA g.id_to_index id g.nodes.length
               node_widths := g.node_widths ++ [2 + countDigits id]
               children := g.children ++ [[]]
               parents := g.parents ++ [[]] } := by
  rw [DAGs.ensure_node_exists, if_neg (by rw [h]; simp)]
  rfl

theorem WF_ensure {g : DAGs} (h : WF g) (id : Nat) :
    WF (g.ensure_node_exists id) := by
  cases hn : g.node_index id with
  | some v => rw [ensure_eq_of_isSome (by rw [hn]; rfl)]; exact h
  | none =>
      rw [ensure_eq_of_none hn]
      exact WF_append_node h id [] _ _ hn (Or.inr ⟨rfl, rfl⟩)

theorem ensure_isSome_self {g : DAGs} {id : Nat} :
    ((g.ensure_node_exists id).node_index id).isSome = true := by
  cases hn : g.node_index id with
  | some v => rw [ensure_eq_of_isSome (by rw [hn]; rfl), hn]; rfl
  | none =>
      rw [ensure_eq_of_none hn]
      show (lookupA (insertA g.id_to_index id g.nodes.length) id).isSome = true
      rw [lookupA_insertA_self]
      rfl

theorem node_index_ensure_of_isSome {g : DAGs} {x : Nat} (id : Nat)
    (h : (g.node_index x).isSome = true) :
    (g.ensure_node_exists id).node_index x = g.node_index x := by
  cases hn : g.node_index id with
  | some v => rw [ensure_eq_of_isSome (by rw [hn]; rfl)]
  | none =>
      rw [ensure_eq_of_none hn]
      show lookupA (insertA g.id_to_index id g.nodes.length) x = _
      have hx : x ≠ id := by
        intro he
        rw [he, hn] at h
        simp at h
      exact lookupA_insertA_ne _ _ _ _ hx

/-- The promotion branch of `add_node` preserves well-formedness. -/
theorem WF_promote {g : DAGs} (h : WF g) {id : Nat} (label : List Char)
    {idx : Nat} (hidx : g.node_index id = some idx) (w : Nat) :
    WF { g with nodes := g.nodes.set idx (id, label)
                auto_created := g.auto_created.filter (fun x => ¬ x = id)
                node_widths := g.node_widths.set idx w } := by
  have hwf := h
  obtain ⟨w1, w2, w3, w4, w5, w6, w7, w8, w9, w10⟩ := h
  obtain ⟨hlt, hidAt⟩ := hwf.lookup_lt hidx
  set n := g.nodes.length with hn
  set g' : DAGs :=
    { g with
      nodes := g.nodes.set idx (id, label)
      auto_created := g.auto_created.filter (fun x => ¬ x = id)
      node_widths := g.node_widths.set idx w } with hg'
  have hklen : g'.nodes.length = n := by simp [hg']
  have hFidAt : ∀ i, idAt g' i = idAt g i := by
    intro i
    by_cases hi : idx = i
    · subst hi
      simp only [idAt, hg']
      rw [getD_set_self _ _ _ _ hlt]
      rw [idAt] at hidAt
      rw [hidAt]
    · simp only [idAt, hg']
      rw [getD_set_ne _ _ _ _ _ hi]
  have hmapfst : g'.nodes.map Prod.fst = g.nodes.map Prod.fst := by
    simp only [hg', List.map_set]
    apply set_eq_self_of_getD _ _ _ 0 (by simpa using hlt)
    rw [getD_eq_getElem _ _ _ (by simpa using hlt), List.getElem_map]
    rw [idAt, getD_eq_getElem _ _ _ hlt] at hidAt
    exact hidAt
  refine ⟨?_, w2, w3, ?_, ?_, ?_, ?_, ?_, ?_, ?_⟩
  · intro p hp
    obtain ⟨hplt, hpid⟩ := w1 p hp
    exact ⟨by rw [hklen]; exact hplt, by rw [hFidAt]; exact hpid⟩
  · intro i hi
    rw [hklen] at hi
    rw [hFidAt]
    exact w4 i hi
  · simp [hg', w5]
  · simp [hg', w6]
  · simp [hg', w7]
  · intro i hi
    rw [hklen] at hi
    exact w8 i hi
  · intro i hi
    rw [hklen] at hi
    exact w9 i hi
  · intro id' hid'
    have hid2 : id' ∈ g.auto_created.filter (fun x => ¬ x = id) := hid'
    rw [List.mem_filter] at hid2
    obtain ⟨hmem, hne'⟩ := hid2
    have hne : id' ≠ id := by simpa using hne'
    obtain ⟨hc, idx', hidx'lt, hsome, hval⟩ := w10 id' hmem
    refine ⟨by rw [hmapfst]; exact hc, idx', by rw [hklen]; exact hidx'lt,
      hsome, ?_⟩
    have hne2 : idx ≠ idx' := by
      intro he
      rw [← he] at hval
      rw [idAt] at hidAt
      rw [hval] at hidAt
      exact hne (by simpa using hidAt)
    show (g.nodes.set idx (id, label)).getD idx' (0, []) = _
    rw [getD_set_ne _ _ _ _ _ hne2]
    exact hval

theorem WF_add_node {g : DAGs} (h : WF g) (id : Nat) (label : List Char) :
    WF (g.add_node id label) := by
  cases hn : g.node_index id with
  | none =>
      simp only [DAGs.add_node, hn]
      exact WF_append_node h id label _ _ hn (Or.inl rfl)
  | some idx =>
      simp only [DAGs.add_node, hn]
      exact WF_promote h label hn _

/-- Appending an edge whose endpoints are already indexed (the tail of
`add_edge` after both `ensure_node_exists` calls) preserves
well-formedness. -/
theorem WF_push_edge {g : DAGs} (h : WF g) {f t fi ti : Nat}
    (hfi : g.node_index f = some fi) (hti : g.node_index t = some ti) :
    WF { g with edges := g.edges ++ [(f, t)]
                children := pushAt g.children fi ti
                parents := pushAt g.parents ti fi } := by
  have hwf := h
  obtain ⟨w1, w2, w3, w4, w5, w6, w7, w8, w9, w10⟩ := h
  obtain ⟨hflt, _⟩ := hwf.lookup_lt hfi
  obtain ⟨htlt, _⟩ := hwf.lookup_lt hti
  set n := g.nodes.length with hn
  set g' : DAGs :=
    { g with
      edges := g.edges ++ [(f, t)]
      children := pushAt g.children fi ti
      parents := pushAt g.parents ti fi } with hg'
  have hidx : ∀ x, g'.node_index x = g.node_index x := fun _ => rfl
  have hidAt : ∀ i, idAt g' i = idAt g i := fun _ => rfl
  have hSpecC : ∀ i, childrenSpec g' i =
      childrenSpec g i ++ (if fi = i then [ti] else []) := by
    intro i
    have h1 : childrenSpec g' i =
        childrenSpec g i ++ List.filterMap (fun e =>
          match g.node_index e.1, g.node_index e.2 with
          | some fj, some tj => if fj = i then some tj else none
          | _, _ => none) [(f, t)] := by
      show (g.edges ++ [(f, t)]).filterMap _ = _
      exact List.filterMap_append _ _ _
    rw [h1]
    congr 1
    simp only [List.filterMap_cons, List.filterMap_nil, hfi, hti]
    by_cases hcase : fi = i
    · simp [hcase]
    · simp [hcase]
  have hSpecP : ∀ i, parentsSpec g' i =
      parentsSpec g i ++ (if ti = i then [fi] else []) := by
    intro i
    have h1 : parentsSpec g' i =
        parentsSpec g i ++ List.filterMap (fun e =>
          match g.node_index e.1, g.node_index e.2 with
          | some fj, some tj => if tj = i then some fj else none
          | _, _ => none) [(f, t)] := by
      show (g.edges ++ [(f, t)]).filterMap _ = _
      exact List.filterMap_append _ _ _
    rw [h1]
    congr 1
    simp only [List.filterMap_cons, List.filterMap_nil, hfi, hti]
    by_cases hcase : ti = i
    · simp [hcase]
    · simp [hcase]
  refine ⟨w1, w2, ?_, w4, w5, ?_, ?_, ?_, ?_, w10⟩
  · intro e he
    rcases List.mem_append.mp he with he | he
    · exact w3 e he
    · simp only [List.mem_singleton] at he
      subst he
      constructor
      · show (g.node_index f).isSome = true
        rw [hfi]; rfl
      · show (g.node_index t).isSome = true
        rw [hti]; rfl
  · show (pushAt g.children fi ti).length = n
    rw [pushAt, List.length_set, w6]
  · show (pushAt g.parents ti fi).length = n
    rw [pushAt, List.length_set, w7]
  · intro i hi
    have hi' : i < n := hi
    rw [hSpecC]
    show (pushAt g.children fi ti).getD i [] = _
    rw [pushAt]
    by_cases hcase : fi = i
    · subst hcase
      rw [getD_set_self _ _ _ _ (by rw [w6]; exact hflt), if_pos rfl, w8 fi hflt]
    · rw [getD_set_ne _ _ _ _ _ hcase, if_neg hcase, List.append_nil]
      exact w8 i hi'
  · intro i hi
    have hi' : i < n := hi
    rw [hSpecP]
    show (pushAt g.parents ti fi).getD i [] = _
    rw [pushAt]
    by_cases hcase : ti = i
    · subst hcase
      rw [getD_set_self _ _ _ _ (by rw [w7]; exact htlt), if_pos rfl, w9 ti htlt]
    · rw [getD_set_ne _ _ _ _ _ hcase, if_neg hcase, List.append_nil]
      exact w9 i hi'

theorem WF_add_edge {g : DAGs} (h : WF g) (f t : Nat) :
    WF (g.add_edge f t) := by
  have hwf1 : WF ((g.ensure_node_exists f).ensure_node_exists t) :=
    WF_ensure (WF_ensure h f) t
  have hfS : (((g.ensure_node_exists f).ensure_node_exists t).node_index f).isSome = true := by
    rw [node_index_ensure_of_isSome t ensure_isSome_self]
    exact ensure_isSome_self
  have htS : (((g.ensure_node_exists f).ensure_node_exists t).node_index t).isSome = true :=
    ensure_isSome_self
  obtain ⟨fi, hfi⟩ := Option.isSome_iff_exists.mp hfS
  obtain ⟨ti, hti⟩ := Option.isSome_iff_exists.mp htS
  show WF (DAGs.add_edge g f t)
  rw [DAGs.add_edge]
  simp only
  rw [show ({ (g.ensure_node_exists f).ensure_node_exists t with
      edges := ((g.ensure_node_exists f).ensure_node_exists t).edges ++ [(f, t)] } :
      DAGs).node_index f = some fi from hfi]
  rw [show ({ (g.ensure_node_exists f).ensure_node_exists t with
      edges := ((g.ensure_node_exists f).ensure_node_exists t).edges ++ [(f, t)] } :
      DAGs).node_index t = some ti from hti]
  exact WF_push_edge hwf1 hfi hti

theorem nodup_keys_insertA (m : List (Nat × Nat)) (k v : Nat)
    (h : (m.map Prod.fst).Nodup) : ((insertA m k v).map Prod.fst).Nodup := by
  by_cases hk : k ∈ m.map Prod.fst
  · rw [keys_insertA_mem _ _ _ hk]
    exact h
  · rw [keys_insertA_not_mem _ _ _ hk, List.nodup_append]
    exact ⟨h, List.nodup_singleton _, fun x hx hx' => by
      simp only [List.mem_singleton] at hx'
      exact hk (hx' ▸ hx)⟩

theorem lookupA_insertA_isSome (m : List (Nat × Nat)) (k v x : Nat)
    (h : (lookupA m x).isSome = true) :
    (lookupA (insertA m k v) x).isSome = true := by
  by_cases hx : x = k
  · subst hx
    rw [lookupA_insertA_self]
    rfl
  · rw [lookupA_insertA_ne _ _ _ _ hx]
    exact h

/-- The body of the id→index/width-building loop in `from_edges`. -/
def fromEdgesStep (d : DAGs) (p : Nat × Nat × List Char) : DAGs :=
  let d' := { d with id_to_index := insertA d.id_to_index p.2.1 p.1 }
  { d' with node_widths := d'.node_widths ++ [d'.compute_node_width p.2.1 p.2.2] }

theorem from_edges_fold (L : List (Nat × Nat × List Char)) (d : DAGs) :
    (L.foldl fromEdgesStep d).nodes = d.nodes ∧
    (L.foldl fromEdgesStep d).edges = d.edges ∧
    (L.foldl fromEdgesStep d).auto_created = d.auto_created ∧
    (L.foldl fromEdgesStep d).children = d.children ∧
    (L.foldl fromEdgesStep d).parents = d.parents ∧
    (L.foldl fromEdgesStep d).render_mode = d.render_mode ∧
    (L.foldl fromEdgesStep d).node_widths.length
      = d.node_widths.length + L.length ∧
    (∀ p ∈ (L.foldl fromEdgesStep d).id_to_index,
      p ∈ d.id_to_index ∨ ∃ q ∈ L, q.1 = p.2 ∧ q.2.1 = p.1) ∧
    ((d.id_to_index.map Prod.fst).Nodup →
      ((L.foldl fromEdgesStep d).id_to_index.map Prod.fst).Nodup) ∧
    (∀ q ∈ L, (lookupA (L.foldl fromEdgesStep d).id_to_index q.2.1).isSome = true) ∧
    (∀ x, (lookupA d.id_to_index x).isSome = true →
      (lookupA (L.foldl fromEdgesStep d).id_to_index x).isSome = true) := by
  induction L generalizing d with
  | nil =>
      refine ⟨rfl, rfl, rfl, rfl, rfl, rfl, by simp, ?_, fun h => h, ?_, fun _ h => h⟩
      · exact fun p hp => Or.inl hp
      · intro q hq
        simp at hq
  | cons q0 rest ih =>
      simp only [List.foldl_cons]
      obtain ⟨i1, i2, i3, i4, i5, i6, i7, i8, i9, i10, i11⟩ :=
        ih (fromEdgesStep d q0)
      have hstep_nodes : (fromEdgesStep d q0).nodes = d.nodes := rfl
      have hstep_map : (fromEdgesStep d q0).id_to_index =
        insertA d.id_to_index q0.2.1 q0.1 := rfl
      refine ⟨by rw [i1]; rfl, by rw [i2]; rfl, by rw [i3]; rfl,
        by rw [i4]; rfl, by rw [i5]; rfl, by rw [i6]; rfl, ?_, ?_, ?_, ?_, ?_⟩
      · rw [i7]
        have hlen : (fromEdgesStep d q0).node_widths.length
            = d.node_widths.length + 1 := by
          show (d.node_widths ++ [_]).length = _
          rw [List.length_append]
          simp
        rw [hlen, List.length_cons]
        omega
      · intro p hp
        rcases i8 p hp with hmem | ⟨q, hq, hq1, hq2⟩
        · rw [hstep_map] at hmem
          rcases mem_insertA _ _ _ _ hmem with hpe | hpm
          · right
            exact ⟨q0, List.mem_cons_self _ _, by rw [hpe], by rw [hpe]⟩
          · exact Or.inl hpm
        · exact Or.inr ⟨q, List.mem_cons_of_mem _ hq, hq1, hq2⟩
      · intro hnd
        apply i9
        rw [hstep_map]
        exact nodup_keys_insertA _ _ _ hnd
      · intro q hq
        rcases List.mem_cons.mp hq with hq | hq
        · subst hq
          apply i11
          rw [hstep_map]
          rw [lookupA_insertA_self]
          rfl
        · exact i10 q hq
      · intro x hx
        apply i11
        rw [hstep_map]
        exact lookupA_insertA_isSome _ _ _ _ hx

theorem WF_foldl_add_edge {d : DAGs} (h : WF d) (es : List (Nat × Nat)) :
    WF (es.foldl (fun d (p : Nat × Nat) => d.add_edge p.1 p.2) d) := by
  induction es generalizing d with
  | nil => exact h
  | cons e rest ih =>
      simp only [List.foldl_cons]
      exact ih (WF_add_edge h e.1 e.2)

theorem WF_from_edges (ns : List (Nat × List Char)) (es : List (Nat × Nat)) :
    WF (DAGs.from_edges ns es) := by
  have hfold := from_edges_fold ns.enum
    { nodes := ns, edges := [], render_mode := RenderMode.default
      auto_created := [], id_to_index := [], node_widths := []
      children := [], parents := [] }
  obtain ⟨i1, i2, i3, i4, i5, i6, i7, i8, i9, i10, i11⟩ := hfold
  set d1 := ns.enum.foldl fromEdgesStep
    { nodes := ns, edges := [], render_mode := RenderMode.default
      auto_created := [], id_to_index := [], node_widths := []
      children := [], parents := [] } with hd1
  set d2 : DAGs :=
    { d1 with
      children := List.replicate ns.length []
      parents := List.replicate ns.length [] } with hd2
  have hn1 : d1.nodes = ns := i1
  have he1 : d1.edges = [] := i2
  have ha1 : d1.auto_created = [] := i3
  have hw1 : d1.node_widths.length = ns.enum.length := by
    have hh := i7
    simpa using hh
  have hwf2 : WF d2 := by
    refine ⟨?_, ?_, ?_, ?_, ?_, ?_, ?_, ?_, ?_, ?_⟩
    · intro p hp
      rcases i8 p hp with hmem | ⟨q, hq, hq1, hq2⟩
      · simp at hmem
      · rw [List.mem_enum_iff_getElem?] at hq
        have hlt : q.1 < ns.length := by
          by_contra hge
          rw [List.getElem?_eq_none (by omega)] at hq
          exact Option.noConfusion hq
        have hval : ns[q.1] = q.2 := by
          rw [List.getElem?_eq_getElem hlt] at hq
          injection hq
        constructor
        · show p.2 < d1.nodes.length
          rw [hn1]
          omega
        · show (d1.nodes.getD p.2 (0, [])).1 = p.1
          rw [hn1, ← hq1, getD_eq_getElem _ _ _ hlt, hval, hq2]
    · exact i9 List.nodup_nil
    · intro e he
      rw [show d2.edges = d1.edges from rfl, he1] at he
      simp at he
    · intro i hi
      rw [show d2.nodes = d1.nodes from rfl, hn1] at hi
      have hq := i10 (i, ns.getD i (0, [])) (by
        rw [List.mem_enum_iff_getElem?]
        show ns[i]? = some (ns.getD i (0, []))
        rw [List.getElem?_eq_getElem hi, getD_eq_getElem _ _ _ hi])
      show (lookupA d1.id_to_index ((d1.nodes.getD i (0, [])).1)).isSome = true
      rw [hn1]
      exact hq
    · show d1.node_widths.length = d1.nodes.length
      rw [hw1, hn1]
      simp
    · show (List.replicate ns.length ([] : List Nat)).length = d1.nodes.length
      rw [hn1]
      simp
    · show (List.replicate ns.length ([] : List Nat)).length = d1.nodes.length
      rw [hn1]
      simp
    · intro i hi
      rw [show d2.nodes = d1.nodes from rfl, hn1] at hi
      show (List.replicate ns.length ([] : List Nat)).getD i [] = _
      rw [getD_replicate _ _ _ _ hi]
      show ([] : List Nat) = List.filterMap _ d2.edges
      rw [show d2.edges = d1.edges from rfl, he1]
      rfl
    · intro i hi
      rw [show d2.nodes = d1.nodes from rfl, hn1] at hi
      show (List.replicate ns.length ([] : List Nat)).getD i [] = _
      rw [getD_replicate _ _ _ _ hi]
      show ([] : List Nat) = List.filterMap _ d2.edges
      rw [show d2.edges = d1.edges from rfl, he1]
      rfl
    · intro id hid
      rw [show d2.auto_created = d1.auto_created from rfl, ha1] at hid
      simp at hid
  show WF (es.foldl (fun d (p : Nat × Nat) => d.add_edge p.1 p.2) d2)
  exact WF_foldl_add_edge hwf2 es

/-! ## The builder-call language (for determinism statements) -/

/-- A builder call of the public construction API. -/
inductive Op where
  | addNode : Nat → List Char → Op
  | addEdge : Nat → Nat → Op
  | setMode : RenderMode → Op

/-- Execute a sequence of builder calls on a fresh `DAG::new()`. -/
def runOps (ops : List Op) : DAGs :=
  ops.foldl (fun g op =>
    match op with
    | Op.addNode id label => g.add_node id label
    | Op.addEdge f t => g.add_edge f t
    | Op.setMode m => g.set_render_mode m) DAGs.new

theorem WF_runOps (ops : List Op) : WF (runOps ops) := by
  rw [runOps]
  generalize hgen : DAGs.new = g0
  have h0 : WF g0 := hgen ▸ WF_new
  clear hgen
  induction ops generalizing g0 with
  | nil => exact h0
  | cons op rest ih =>
      simp only [List.foldl_cons]
      apply ih
      cases op with
      | addNode id label => exact WF_add_node h0 id label
      | addEdge f t => exact WF_add_edge h0 f t
      | setMode m => exact WF_set_render_mode h0 m

/-! ## Claim C9: determinism of rendering -/

/-- C9: rendering is deterministic: executing the same sequence of
builder calls (`new`/`add_node`/`add_edge`/`set_render_mode`) on two
fresh `DAG` instances and calling `render()` (and `render_to`) on each
yields identical output.  In the embedding both executions are the same
pure value, and no rendering code path consults any
iteration-order-dependent structure (the hash map and hash set are only
queried pointwise), so the outputs coincide definitionally. -/
theorem c9_determinism (ops : List Op) :
    renderF (runOps ops) = renderF (runOps ops) ∧
    renderToF (runOps ops) = renderToF (runOps ops) :=
  ⟨rfl, rfl⟩

/-! ## Claim C10: explicit empty-label nodes render as placeholders -/

theorem contains_filter_ne_self (l : List Nat) (id : Nat) :
    (l.filter (fun x => ¬ x = id)).contains id = false := by
  induction l with
  | nil => rfl
  | cons x rest ih =>
      by_cases hx : x = id
      · simp only [List.filter_cons, hx]
        simpa using ih
      · simpa [List.filter_cons, hx, ih] using fun h => hx h.symm

theorem is_auto_created_false_of_none {g : DAGs} (h : WF g) {id : Nat}
    (hn : g.node_index id = none) : g.is_auto_created id = false := by
  rw [DAGs.is_auto_created]
  by_cases hmem : id ∈ g.auto_created
  · obtain ⟨_, idx, _, hsome, _⟩ := h.2.2.2.2.2.2.2.2.2 id hmem
    rw [hn] at hsome
    exact Option.noConfusion hsome
  · simp [hmem]

/-- C10: a node added explicitly with an empty label via
`add_node(id, "")` is cached with display width `2 + digit_count(id)`,
is not flagged auto-created, and renders in the angle-bracket
placeholder form `⟨id⟩` — i.e. exactly the form of an auto-created
placeholder, not the `[label]` bracket form. -/
theorem c10_empty_label_placeholder (g : DAGs) (id : Nat) (h : WF g) :
    ∃ idx, (g.add_node id []).node_index id = some idx ∧
      (g.add_node id []).node_widths.getD idx 0 = 2 + countDigits id ∧
      (g.add_node id []).is_auto_created id = false ∧
      (g.add_node id []).write_node id [] = '⟨' :: (writeUsize id ++ ['⟩']) := by
  have hwf := h
  obtain ⟨w1, w2, w3, w4, w5, w6, w7, w8, w9, w10⟩ := h
  cases hn : g.node_index id with
  | none =>
      refine ⟨g.nodes.length, ?_, ?_, ?_, rfl⟩
      · simp only [DAGs.add_node, hn]
        show lookupA (insertA g.id_to_index id g.nodes.length) id = _
        rw [lookupA_insertA_self]
      · simp only [DAGs.add_node, hn]
        show (g.node_widths ++ [g.compute_node_width id []]).getD g.nodes.length 0 = _
        rw [getD_append_ge _ _ _ _ (by rw [w5]), w5, Nat.sub_self]
        show g.compute_node_width id [] = _
        rw [DAGs.compute_node_width]
        rw [if_pos (by simp)]
      · simp only [DAGs.add_node, hn]
        show g.is_auto_created id = false
        exact is_auto_created_false_of_none hwf hn
  | some idx =>
      have hlt := hwf.lookup_lt hn
      refine ⟨idx, ?_, ?_, ?_, rfl⟩
      · simp only [DAGs.add_node, hn]
        exact hn
      · simp only [DAGs.add_node, hn]
        show (g.node_widths.set idx _).getD idx 0 = _
        rw [getD_set_self _ _ _ _ (by rw [w5]; exact hlt.1)]
        rw [DAGs.compute_node_width]
        rw [if_pos (by simp)]
      · simp only [DAGs.add_node, hn]
        exact contains_filter_ne_self _ _

/-- Witness for C10 at a concrete input. -/
theorem c10_witness :
    WF DAGs.new ∧
    (∃ idx, ((DAGs.new).add_node 5 []).node_index 5 = some idx ∧
      ((DAGs.new).add_node 5 []).node_widths.getD idx 0 = 2 + countDigits 5 ∧
      ((DAGs.new).add_node 5 []).is_auto_created 5 = false ∧
      ((DAGs.new).add_node 5 []).write_node 5 [] = '⟨' :: (writeUsize 5 ++ ['⟩'])) :=
  ⟨by decide, c10_empty_label_placeholder DAGs.new 5 (by decide)⟩

/-! ## Claim C6: promotion of auto-created nodes -/

/-- C6: calling `add_node(id, label)` with a non-empty label on an id
previously auto-created by `add_edge` leaves exactly one node with that
id, at its original index, with the auto-created flag cleared and the
label replaced; the rendered form changes from `⟨id⟩` to `[label]`. -/
theorem c6_promotion (g : DAGs) (id : Nat) (label : List Char) (h : WF g)
    (hauto : g.is_auto_created id = true) (hlabel : label ≠ []) :
    ∃ idx,
      g.node_index id = some idx ∧
      (g.add_node id label).node_index id = some idx ∧
      ((g.add_node id label).nodes.map Prod.fst).count id = 1 ∧
      (g.add_node id label).nodes.getD idx (0, []) = (id, label) ∧
      (g.add_node id label).is_auto_created id = false ∧
      (g.add_node id label).nodes.length = g.nodes.length ∧
      g.write_node id [] = '⟨' :: (writeUsize id ++ ['⟩']) ∧
      (g.add_node id label).write_node id label = '[' :: (label ++ [']']) := by
  have hwf := h
  obtain ⟨w1, w2, w3, w4, w5, w6, w7, w8, w9, w10⟩ := h
  have hmem : id ∈ g.auto_created := by
    rw [DAGs.is_auto_created, List.contains_eq_any_beq] at hauto
    simp only [List.any_eq_true, beq_iff_eq] at hauto
    obtain ⟨x, hx, hxe⟩ := hauto
    exact hxe ▸ hx
  obtain ⟨hcount, idx, hidxlt, hsome, hval⟩ := w10 id hmem
  have hlt : idx < g.nodes.length := hidxlt
  have hmapfst : ((g.add_node id label).nodes.map Prod.fst) = g.nodes.map Prod.fst := by
    simp only [DAGs.add_node, hsome, List.map_set]
    apply set_eq_self_of_getD _ _ _ 0 (by simpa using hlt)
    rw [getD_eq_getElem _ _ _ (by simpa using hlt), List.getElem_map]
    rw [getD_eq_getElem _ _ _ hlt] at hval
    rw [hval]
  have hflag : (g.add_node id label).is_auto_created id = false := by
    simp only [DAGs.add_node, hsome]
    exact contains_filter_ne_self _ _
  refine ⟨idx, hsome, ?_, ?_, ?_, hflag, ?_, ?_, ?_⟩
  · simp only [DAGs.add_node, hsome]
    exact hsome
  · rw [hmapfst]
    exact hcount
  · simp only [DAGs.add_node, hsome]
    show (g.nodes.set idx (id, label)).getD idx (0, []) = _
    rw [getD_set_self _ _ _ _ hlt]
  · simp only [DAGs.add_node, hsome]
    show (g.nodes.set idx (id, label)).length = _
    rw [List.length_set]
  · rfl
  · rw [DAGs.write_node, if_neg]
    · rfl
    · rw [Bool.or_eq_true, not_or]
      constructor
      · simp [hlabel]
      · rw [hflag]
        simp

/-- Witness for C6: id 2 auto-created by `add_edge(1,2)`, then promoted. -/
theorem c6_witness :
    (WF ((DAGs.new).add_edge 1 2) ∧
      ((DAGs.new).add_edge 1 2).is_auto_created 2 = true ∧
      ('B' :: []) ≠ []) ∧
    (∃ idx,
      ((DAGs.new).add_edge 1 2).node_index 2 = some idx ∧
      (((DAGs.new).add_edge 1 2).add_node 2 ['B']).node_index 2 = some idx ∧
      ((((DAGs.new).add_edge 1 2).add_node 2 ['B']).nodes.map Prod.fst).count 2 = 1 ∧
      (((DAGs.new).add_edge 1 2).add_node 2 ['B']).nodes.getD idx (0, []) = (2, ['B']) ∧
      (((DAGs.new).add_edge 1 2).add_node 2 ['B']).is_auto_created 2 = false ∧
      (((DAGs.new).add_edge 1 2).add_node 2 ['B']).nodes.length
        = ((DAGs.new).add_edge 1 2).nodes.length ∧
      ((DAGs.new).add_edge 1 2).write_node 2 [] = '⟨' :: (writeUsize 2 ++ ['⟩']) ∧
      (((DAGs.new).add_edge 1 2).add_node 2 ['B']).write_node 2 ['B']
        = '[' :: (['B'] ++ [']'])) :=
  ⟨⟨by decide, by decide, by decide⟩,
    c6_promotion ((DAGs.new).add_edge 1 2) 2 ['B'] (by decide) (by decide)
      (by decide)⟩

/-! ## Claim C5: batch construction vs incremental construction -/

/-- Constructing empty then calling `add_node` for each given node and
`add_edge` for each given edge, in order (the incremental sequence
`from_edges` is specified to be equivalent to). -/
def fromEdgesIncr (ns : List (Nat × List Char)) (es : List (Nat × Nat)) : DAGs :=
  es.foldl (fun d (p : Nat × Nat) => d.add_edge p.1 p.2)
    (ns.foldl (fun d (p : Nat × List Char) => d.add_node p.1 p.2) DAGs.new)

/-- The display width of a node entry when nothing is auto-created. -/
def widthOfEntry (p : Nat × List Char) : Nat :=
  if p.2.isEmpty then 2 + countDigits p.1 else 2 + p.2.length

/-- The id→index map built by the node loop of `from_edges`. -/
def idMapOf (ns : List (Nat × List Char)) : List (Nat × Nat) :=
  ns.enum.foldl (fun m (q : Nat × Nat × List Char) => insertA m q.2.1 q.1) []

theorem compute_width_no_auto (d : DAGs) (hd : d.auto_created = [])
    (id : Nat) (lab : List Char) :
    d.compute_node_width id lab = widthOfEntry (id, lab) := by
  rw [DAGs.compute_node_width, widthOfEntry, DAGs.is_auto_created, hd]
  simp

theorem foldl_fromEdgesStep_eq (L : List (Nat × Nat × List Char)) (d : DAGs)
    (hd : d.auto_created = []) :
    L.foldl fromEdgesStep d =
    { d with
      id_to_index := L.foldl
        (fun m (q : Nat × Nat × List Char) => insertA m q.2.1 q.1) d.id_to_index
      node_widths := d.node_widths ++ L.map (fun q => widthOfEntry q.2) } := by
  induction L generalizing d with
  | nil => simp
  | cons q rest ih =>
      simp only [List.foldl_cons, List.map_cons]
      rw [ih (fromEdgesStep d q) hd]
      have hw : (fromEdgesStep d q).node_widths
          = d.node_widths ++ [widthOfEntry q.2] := by
        show d.node_widths ++ [DAGs.compute_node_width _ q.2.1 q.2.2] = _
        congr 1
        rw [compute_width_no_auto]
        exact hd
      rw [hw, List.append_assoc]
      rfl

theorem mem_foldl_insertA (L : List (Nat × Nat × List Char))
    (m0 : List (Nat × Nat)) (p : Nat × Nat)
    (h : p ∈ L.foldl (fun m (q : Nat × Nat × List Char) => insertA m q.2.1 q.1) m0) :
    p ∈ m0 ∨ ∃ q ∈ L, q.2.1 = p.1 := by
  induction L generalizing m0 with
  | nil => exact Or.inl h
  | cons q rest ih =>
      simp only [List.foldl_cons] at h
      rcases ih _ h with hmem | ⟨q', hq', hq'e⟩
      · rcases mem_insertA _ _ _ _ hmem with hpe | hpm
        · exact Or.inr ⟨q, List.mem_cons_self _ _, by rw [hpe]⟩
        · exact Or.inl hpm
      · exact Or.inr ⟨q', List.mem_cons_of_mem _ hq', hq'e⟩

theorem lookupA_idMapOf_none (ns : List (Nat × List Char)) (x : Nat)
    (hx : x ∉ ns.map Prod.fst) : lookupA (idMapOf ns) x = none := by
  apply lookupA_eq_none
  intro hmem
  rw [List.mem_map] at hmem
  obtain ⟨p, hp, hpe⟩ := hmem
  rcases mem_foldl_insertA _ _ _ hp with hmem0 | ⟨q, hq, hqe⟩
  · simp at hmem0
  · apply hx
    rw [List.mem_map]
    rw [List.mem_enum_iff_getElem?] at hq
    have : q.2 ∈ ns := by
      have := List.getElem?_mem hq
      exact this
    exact ⟨q.2, this, by rw [hqe, hpe]⟩

theorem idMapOf_append (ns : List (Nat × List Char)) (p : Nat × List Char) :
    idMapOf (ns ++ [p]) = insertA (idMapOf ns) p.1 ns.length := by
  rw [idMapOf, idMapOf, List.enum_append, List.foldl_append]
  simp [List.enumFrom]

/-- The incremental `add_node` phase builds exactly the record that the
node loop of `from_edges` builds (when no node id repeats). -/
theorem buildNodes_eq (ns : List (Nat × List Char))
    (h : (ns.map Prod.fst).Nodup) :
    ns.foldl (fun d (p : Nat × List Char) => d.add_node p.1 p.2) DAGs.new =
    { nodes := ns, edges := [], render_mode := RenderMode.default
      auto_created := []
      id_to_index := idMapOf ns
      node_widths := ns.map widthOfEntry
      children := List.replicate ns.length []
      parents := List.replicate ns.length [] } := by
  induction ns using List.reverseRecOn with
  | nil => rfl
  | append_singleton l p ih =>
      have hsplit : (l.map Prod.fst).Nodup ∧ p.1 ∉ l.map Prod.fst := by
        rw [List.map_append, List.nodup_append] at h
        refine ⟨h.1, fun hmem => ?_⟩
        exact h.2.2 hmem (by simp)
      rw [List.foldl_append, ih hsplit.1]
      set R : DAGs :=
        { nodes := l, edges := [], render_mode := RenderMode.default
          auto_created := []
          id_to_index := idMapOf l
          node_widths := l.map widthOfEntry
          children := List.replicate l.length []
          parents := List.replicate l.length [] } with hR
      show R.add_node p.1 p.2 = _
      have hnone : R.node_index p.1 = none := by
        show lookupA (idMapOf l) p.1 = none
        exact lookupA_idMapOf_none _ _ hsplit.2
      simp only [DAGs.add_node, hnone]
      have hwidth : R.compute_node_width p.1 p.2 = widthOfEntry p :=
        compute_width_no_auto R rfl p.1 p.2
      rw [hwidth]
      have h1 : R.nodes ++ [(p.1, p.2)] = l ++ [p] := by simp [hR]
      have h2 : insertA R.id_to_index p.1 R.nodes.length = idMapOf (l ++ [p]) := by
        rw [idMapOf_append]
      have h3 : R.node_widths ++ [widthOfEntry p] = (l ++ [p]).map widthOfEntry := by
        simp [hR]
      have h4 : R.children ++ [[]] = List.replicate (l ++ [p]).length [] := by
        show List.replicate l.length [] ++ [[]] = _
        have hlen : (l ++ [p]).length = l.length + 1 := by simp
        rw [hlen, List.replicate_succ']
      have h5 : R.parents ++ [[]] = List.replicate (l ++ [p]).length [] := by
        show List.replicate l.length [] ++ [[]] = _
        have hlen : (l ++ [p]).length = l.length + 1 := by simp
        rw [hlen, List.replicate_succ']
      rw [h1, h2, h3, h4]

/-- `from_edges` equals the edge fold applied to the node-loop record. -/
theorem from_edges_eq (ns : List (Nat × List Char)) (es : List (Nat × Nat)) :
    DAGs.from_edges ns es =
    es.foldl (fun d (p : Nat × Nat) => d.add_edge p.1 p.2)
      { nodes := ns, edges := [], render_mode := RenderMode.default
        auto_created := []
        id_to_index := idMapOf ns
        node_widths := ns.map widthOfEntry
        children := List.replicate ns.length []
        parents := List.replicate ns.length [] } := by
  have hmap : (ns.enum.map (fun (q : Nat × Nat × List Char) => widthOfEntry q.2))
      = ns.map widthOfEntry := by
    rw [show (fun (q : Nat × Nat × List Char) => widthOfEntry q.2)
        = widthOfEntry ∘ Prod.snd from rfl]
    rw [← List.map_map, List.enum_map_snd]
  have hF := foldl_fromEdgesStep_eq ns.enum
    { nodes := ns, edges := [], render_mode := RenderMode.default
      auto_created := [], id_to_index := [], node_widths := []
      children := [], parents := [] } rfl
  show es.foldl (fun d (p : Nat × Nat) => d.add_edge p.1 p.2)
    (DAGs.mk
      (ns.enum.foldl fromEdgesStep
        { nodes := ns, edges := [], render_mode := RenderMode.default
          auto_created := [], id_to_index := [], node_widths := []
          children := [], parents := [] }).nodes
      (ns.enum.foldl fromEdgesStep
        { nodes := ns, edges := [], render_mode := RenderMode.default
          auto_created := [], id_to_index := [], node_widths := []
          children := [], parents := [] }).edges
      (ns.enum.foldl fromEdgesStep
        { nodes := ns, edges := [], render_mode := RenderMode.default
          auto_created := [], id_to_index := [], node_widths := []
          children := [], parents := [] }).render_mode
      (ns.enum.foldl fromEdgesStep
        { nodes := ns, edges := [], render_mode := RenderMode.default
          auto_created := [], id_to_index := [], node_widths := []
          children := [], parents := [] }).auto_created
      (ns.enum.foldl fromEdgesStep
        { nodes := ns, edges := [], render_mode := RenderMode.default
          auto_created := [], id_to_index := [], node_widths := []
          children := [], parents := [] }).id_to_index
      (ns.enum.foldl fromEdgesStep
        { nodes := ns, edges := [], render_mode := RenderMode.default
          auto_created := [], id_to_index := [], node_widths := []
          children := [], parents := [] }).node_widths
      (List.replicate ns.length []) (List.replicate ns.length [])) = _
  rw [hF]
  simp only [List.nil_append, hmap]
  rfl

/-- Counterexample to C5 as stated: with a duplicate id in the node
list, `from_edges` keeps both node entries while the incremental
sequence promotes in place, so the graphs (and their rendered outputs)
differ. -/
theorem c5_counterexample :
    DAGs.from_edges [(1, ['A']), (1, ['B'])] [] ≠
      fromEdgesIncr [(1, ['A']), (1, ['B'])] [] ∧
    (DAGs.from_edges [(1, ['A']), (1, ['B'])] []).nodes ≠
      (fromEdgesIncr [(1, ['A']), (1, ['B'])] []).nodes ∧
    renderToF (DAGs.from_edges [(1, ['A']), (1, ['B'])] []) ≠
      renderToF (fromEdgesIncr [(1, ['A']), (1, ['B'])] []) :=
  ⟨by decide, by decide, by decide⟩

/-- C5 (amended): provided the node list contains no duplicate ids, the
graph built by `from_edges(nodes, edges)` is identical — every field,
hence also the rendered output — to the graph built by starting from an
empty DAG, calling `add_node` for each node in order, then `add_edge`
for each edge in order. -/
theorem c5_amended (ns : List (Nat × List Char)) (es : List (Nat × Nat))
    (h : (ns.map Prod.fst).Nodup) :
    DAGs.from_edges ns es = fromEdgesIncr ns es ∧
    renderToF (DAGs.from_edges ns es) = renderToF (fromEdgesIncr ns es) := by
  have heq : DAGs.from_edges ns es = fromEdgesIncr ns es := by
    rw [from_edges_eq, fromEdgesIncr, buildNodes_eq ns h]
  exact ⟨heq, by rw [heq]⟩

/-! ## Claim C3: the level-calculation loop is not bounded

The claim (and §4.3 of the specification) states that
`calculate_levels` must terminate on every input graph, including
cyclic ones, because its iteration count is bounded.  The source's
`while changed` loop has no bound: on the graph with the single
self-loop `add_edge(1,1)` the scan raises the level of node 1 on every
pass, so `changed` never stays false.  In the embedding: no finite fuel
makes `levelLoopF` reach a fixed point on that graph. -/

/-- C3 (code bug exhibited): on the self-loop graph
`DAG::new(); add_edge(1,1)`, the `while changed` loop of
`calculate_levels` never reaches a fixed point — for every fuel the
loop is still running — so the function, called directly on this
cyclic graph, loops forever, contradicting the claimed bounded
iteration count. -/
theorem c3_calculate_levels_unbounded :
    (∀ (fuel : Nat) (lv : List Nat),
      levelLoopF (DAGs.new.add_edge 1 1) fuel lv = none) ∧
    calculateLevelsF (DAGs.new.add_edge 1 1) = none := by
  have hdiv : ∀ (fuel : Nat) (lv : List Nat),
      levelLoopF (DAGs.new.add_edge 1 1) fuel lv = none := by
    intro fuel
    induction fuel with
    | zero => intro lv; rfl
    | succ n ih =>
        intro lv
        have hpass : (levelPass (DAGs.new.add_edge 1 1) lv).2 = true := by
          show (levelPassStep (DAGs.new.add_edge 1 1) (lv, false) (1, 1)).2 = true
          rw [levelPassStep]
          rw [show (DAGs.new.add_edge 1 1).node_index 1 = some 0 from by decide]
          simp
        show (if (levelPass (DAGs.new.add_edge 1 1) lv).2 = true
            then levelLoopF (DAGs.new.add_edge 1 1) n
              (levelPass (DAGs.new.add_edge 1 1) lv).1
            else some (levelPass (DAGs.new.add_edge 1 1) lv).1) = none
        rw [hpass, if_pos rfl]
        exact ih _
  refine ⟨hdiv, ?_⟩
  rw [calculateLevelsF, hdiv]

/-! ## Claim C7: the span of connector blocks

The claim says every connector block of the full vertical layout is
drawn column-by-column from the **minimum** involved column to the
maximum involved column.  The source fixes `min_pos = 0`
(`draw_connections_sugiyama`), so blocks always start at column 0; the
minimum involved column of a full-layout block is in fact always ≥ 1
(node centers sit at `offset + width/2` with `width ≥ 3`). -/

/-- The smallest column involved in a connection list (0 if empty). -/
def minInvolved (conns : List (Nat × Nat)) : Nat :=
  minimumD (conns.map (fun c => min c.1 c.2)) 0

/-- The largest column involved in a connection list (0 if empty). -/
def maxInvolved (conns : List (Nat × Nat)) : Nat :=
  maximumD (conns.map (fun c => max c.1 c.2)) 0

/-- A column not touched by any drawing rule of the connector lines:
not an endpoint of any connection, and not inside the span of any
multi-source target group or multi-target source group. -/
def freeCol (conns : List (Nat × Nat)) (c : Nat) : Prop :=
  (∀ p ∈ conns, p.1 ≠ c ∧ p.2 ≠ c) ∧
  (∀ q ∈ groupByTarget conns, q.2.length > 1 →
    c < minimumD q.2 0 ∨ maximumD q.2 0 < c) ∧
  (∀ q ∈ groupBySource conns, q.2.length > 1 →
    c < minimumD q.2 0 ∨ maximumD q.2 0 < c)

theorem maximumD_zero_foldl (l : List Nat) : maximumD l 0 = l.foldl max 0 := by
  cases l with
  | nil => rfl
  | cons x xs =>
      show xs.foldl max x = List.foldl max (max 0 x) xs
      rw [Nat.zero_max]

theorem foldl_max_append (a b : List Nat) (d : Nat) :
    (a ++ b).foldl max d = b.foldl max (a.foldl max d) := List.foldl_append _ _ _ _

theorem maxflat_eq_maxInvolved (conns : List (Nat × Nat)) :
    maximumD (conns.foldl (fun acc c => acc ++ [c.1, c.2]) []) 0
      = maxInvolved conns := by
  rw [maximumD_zero_foldl, maxInvolved, maximumD_zero_foldl]
  have hgen : ∀ (l : List (Nat × Nat)) (a : List Nat),
      (l.foldl (fun acc c => acc ++ [c.1, c.2]) a).foldl max 0
        = (l.map (fun c => max c.1 c.2)).foldl max (a.foldl max 0) := by
    intro l
    induction l with
    | nil => intro a; rfl
    | cons c rest ih =>
        intro a
        simp only [List.foldl_cons, List.map_cons]
        rw [ih]
        congr 1
        rw [foldl_max_append]
        show max (max (a.foldl max 0) c.1) c.2 = _
        rw [Nat.max_assoc]
  rw [hgen]
  rfl

theorem rangeIncl_zero (m : Nat) : rangeIncl 0 m = List.range (m + 1) := by
  rw [rangeIncl]
  simp

theorem getD_map_range (f : Nat → Char) (n c : Nat) (d : Char) :
    ((List.range n).map f).getD c d = if c < n then f c else d := by
  by_cases hc : c < n
  · rw [if_pos hc]
    rw [getD_eq_getElem _ _ _ (by simpa using hc)]
    rw [List.getElem_map, List.getElem_range]
  · rw [if_neg hc]
    rw [List.getD, List.get?_eq_getElem?,
      List.getElem?_eq_none (by simp only [List.length_map, List.length_range]; omega)]
    rfl

/-- Membership of a value in a `groupInsert` result. -/
theorem mem_val_groupInsert (gs : List (Nat × List Nat)) (k w : Nat)
    (q : Nat × List Nat) (v : Nat) (hq : q ∈ groupInsert k w gs) (hv : v ∈ q.2) :
    (q.1 = k ∧ v = w) ∨ ∃ q' ∈ gs, q'.1 = q.1 ∧ v ∈ q'.2 := by
  induction gs with
  | nil =>
      simp only [groupInsert, List.mem_singleton] at hq
      subst hq
      simp only [List.mem_singleton] at hv
      exact Or.inl ⟨rfl, hv⟩
  | cons g0 rest ih =>
      by_cases hk : k = g0.1
      · rw [groupInsert, if_pos hk] at hq
        rcases List.mem_cons.mp hq with hq | hq
        · subst hq
          rcases List.mem_append.mp hv with hv | hv
          · exact Or.inr ⟨g0, List.mem_cons_self _ _, rfl, hv⟩
          · simp only [List.mem_singleton] at hv
            exact Or.inl ⟨hk.symm, hv⟩
        · exact Or.inr ⟨q, List.mem_cons_of_mem _ hq, rfl, hv⟩
      · rw [groupInsert, if_neg hk] at hq
        by_cases hlt : k < g0.1
        · rw [if_pos hlt] at hq
          rcases List.mem_cons.mp hq with hq | hq
          · subst hq
            simp only [List.mem_singleton] at hv
            exact Or.inl ⟨rfl, hv⟩
          · exact Or.inr ⟨q, hq, rfl, hv⟩
        · rw [if_neg hlt] at hq
          rcases List.mem_cons.mp hq with hq | hq
          · subst hq
            exact Or.inr ⟨g0, List.mem_cons_self _ _, rfl, hv⟩
          · rcases ih hq with h | ⟨q', hq', hq'1, hq'2⟩
            · exact Or.inl h
            · exact Or.inr ⟨q', List.mem_cons_of_mem _ hq', hq'1, hq'2⟩

/-- Values in the grouping fold come from the processed pairs. -/
theorem mem_val_fold_groupInsert (f g : (Nat × Nat) → Nat) (l : List (Nat × Nat)) :
    ∀ (acc : List (Nat × List Nat)) (q : Nat × List Nat) (v : Nat),
    q ∈ l.foldl (fun gs c => groupInsert (f c) (g c) gs) acc → v ∈ q.2 →
    (∃ q' ∈ acc, q'.1 = q.1 ∧ v ∈ q'.2) ∨ ∃ c ∈ l, f c = q.1 ∧ g c = v := by
  induction l with
  | nil => exact fun acc q v hq hv => Or.inl ⟨q, hq, rfl, hv⟩
  | cons c0 rest ih =>
      intro acc q v hq hv
      simp only [List.foldl_cons] at hq
      rcases ih _ q v hq hv with ⟨q', hq', hq'1, hq'2⟩ | ⟨c, hc, hc1, hc2⟩
      · rcases mem_val_groupInsert _ _ _ _ _ hq' hq'2 with ⟨h1, h2⟩ | ⟨q'', hq'', h1, h2⟩
        · exact Or.inr ⟨c0, List.mem_cons_self _ _, h1.symm.trans hq'1, h2.symm⟩
        · exact Or.inl ⟨q'', hq'', h1.trans hq'1, h2⟩
      · exact Or.inr ⟨c, List.mem_cons_of_mem _ hc, hc1, hc2⟩

theorem mem_val_groupByTarget (conns : List (Nat × Nat)) (q : Nat × List Nat)
    (v : Nat) (hq : q ∈ groupByTarget conns) (hv : v ∈ q.2) :
    (v, q.1) ∈ conns := by
  rcases mem_val_fold_groupInsert (fun c => c.2) (fun c => c.1) conns [] q v hq hv with
    ⟨q', hq', _, _⟩ | ⟨c, hc, hc1, hc2⟩
  · simp at hq'
  · have : c = (v, q.1) := by
      obtain ⟨c1, c2⟩ := c
      simp only at hc1 hc2
      rw [hc1, hc2]
    exact this ▸ hc

theorem mem_val_groupBySource (conns : List (Nat × Nat)) (q : Nat × List Nat)
    (v : Nat) (hq : q ∈ groupBySource conns) (hv : v ∈ q.2) :
    (q.1, v) ∈ conns := by
  rcases mem_val_fold_groupInsert (fun c => c.1) (fun c => c.2) conns [] q v hq hv with
    ⟨q', hq', _, _⟩ | ⟨c, hc, hc1, hc2⟩
  · simp at hq'
  · have : c = (q.1, v) := by
      obtain ⟨c1, c2⟩ := c
      simp only at hc1 hc2
      rw [hc1, hc2]
    exact this ▸ hc

/-- Group value lists are never empty. -/
theorem groupInsert_val_ne_nil (gs : List (Nat × List Nat)) (k w : Nat)
    (hgs : ∀ q ∈ gs, q.2 ≠ []) : ∀ q ∈ groupInsert k w gs, q.2 ≠ [] := by
  induction gs with
  | nil =>
      intro q hq
      simp only [groupInsert, List.mem_singleton] at hq
      subst hq
      simp
  | cons g0 rest ih =>
      intro q hq
      by_cases hk : k = g0.1
      · rw [groupInsert, if_pos hk] at hq
        rcases List.mem_cons.mp hq with hq | hq
        · subst hq; simp
        · exact hgs q (List.mem_cons_of_mem _ hq)
      · rw [groupInsert, if_neg hk] at hq
        by_cases hlt : k < g0.1
        · rw [if_pos hlt] at hq
          rcases List.mem_cons.mp hq with hq | hq
          · subst hq; simp
          · exact hgs q hq
        · rw [if_neg hlt] at hq
          rcases List.mem_cons.mp hq with hq | hq
          · subst hq
            exact hgs g0 (List.mem_cons_self _ _)
          · exact ih (fun q' hq' => hgs q' (List.mem_cons_of_mem _ hq')) q hq

theorem fold_groupInsert_val_ne_nil (f g : (Nat × Nat) → Nat)
    (l : List (Nat × Nat)) :
    ∀ (acc : List (Nat × List Nat)), (∀ q ∈ acc, q.2 ≠ []) →
    ∀ q ∈ l.foldl (fun gs c => groupInsert (f c) (g c) gs) acc, q.2 ≠ [] := by
  induction l with
  | nil => exact fun acc hacc => hacc
  | cons c0 rest ih =>
      intro acc hacc q hq
      simp only [List.foldl_cons] at hq
      exact ih _ (groupInsert_val_ne_nil _ _ _ hacc) q hq

theorem foldl_min_le (xs : List Nat) (x : Nat) : xs.foldl min x ≤ x := by
  induction xs generalizing x with
  | nil => exact le_refl x
  | cons y ys ih => exact le_trans (ih (min x y)) (min_le_left _ _)

theorem foldl_min_le_mem (xs : List Nat) (x v : Nat) (h : v ∈ xs) :
    xs.foldl min x ≤ v := by
  induction xs generalizing x with
  | nil => cases h
  | cons y ys ih =>
      rcases List.mem_cons.mp h with h | h
      · subst h
        exact le_trans (foldl_min_le ys _) (min_le_right _ _)
      · exact ih _ h

theorem minimumD_le_mem (l : List Nat) (v : Nat) (h : v ∈ l) :
    minimumD l 0 ≤ v := by
  cases l with
  | nil => cases h
  | cons x xs =>
      rcases List.mem_cons.mp h with h | h
      · subst h
        exact foldl_min_le xs v
      · exact foldl_min_le_mem xs x v h

theorem le_foldl_max (xs : List Nat) (x : Nat) : x ≤ xs.foldl max x := by
  induction xs generalizing x with
  | nil => exact le_refl x
  | cons y ys ih => exact le_trans (le_max_left _ _) (ih (max x y))

theorem mem_le_foldl_max (xs : List Nat) (x v : Nat) (h : v ∈ xs) :
    v ≤ xs.foldl max x := by
  induction xs generalizing x with
  | nil => cases h
  | cons y ys ih =>
      rcases List.mem_cons.mp h with h | h
      · subst h
        exact le_trans (le_max_right _ _) (le_foldl_max ys _)
      · exact ih _ h

theorem mem_le_maximumD (l : List Nat) (v : Nat) (h : v ∈ l) :
    v ≤ maximumD l 0 := by
  cases l with
  | nil => cases h
  | cons x xs =>
      rcases List.mem_cons.mp h with h | h
      · subst h
        exact le_foldl_max xs v
      · exact mem_le_foldl_max xs x v h

theorem mem_foldl_append_vals (gs : List (Nat × List Nat)) (a : List Nat)
    (x : Nat) (h : x ∈ gs.foldl (fun acc p => acc ++ p.2) a) :
    x ∈ a ∨ ∃ q ∈ gs, x ∈ q.2 := by
  induction gs generalizing a with
  | nil => exact Or.inl h
  | cons q0 rest ih =>
      simp only [List.foldl_cons] at h
      rcases ih _ h with hmem | ⟨q, hq, hx⟩
      · rcases List.mem_append.mp hmem with hmem | hmem
        · exact Or.inl hmem
        · exact Or.inr ⟨q0, List.mem_cons_self _ _, hmem⟩
      · exact Or.inr ⟨q, List.mem_cons_of_mem _ hq, hx⟩

/-- Under the no-span hypothesis, the convergence middle-line fold
never changes the accumulator character. -/
theorem convergenceLine2Char_keep (tg : List (Nat × List Nat)) (c : Nat)
    (h : ∀ q ∈ tg, q.2.length > 1 → c < minimumD q.2 0 ∨ maximumD q.2 0 < c) :
    ∀ ch, tg.foldl (fun ch (p : Nat × List Nat) =>
      if p.2.length ≤ 1 then ch
      else
        let minSrc := minimumD p.2 0
        let maxSrc := maximumD p.2 0
        if c = minSrc then '└'
        else if c = maxSrc then '┘'
        else if p.2.contains c then '┴'
        else if minSrc < c ∧ c < maxSrc then '─'
        else ch) ch = ch := by
  induction tg with
  | nil => intro ch; rfl
  | cons q rest ih =>
      intro ch
      simp only [List.foldl_cons]
      have hstep : (if q.2.length ≤ 1 then ch
          else
            let minSrc := minimumD q.2 0
            let maxSrc := maximumD q.2 0
            if c = minSrc then '└'
            else if c = maxSrc then '┘'
            else if q.2.contains c then '┴'
            else if minSrc < c ∧ c < maxSrc then '─'
            else ch) = ch := by
        by_cases hlen : q.2.length ≤ 1
        · rw [if_pos hlen]
        · rw [if_neg hlen]
          have hq := h q (List.mem_cons_self _ _) (by omega)
          have hminmax : minimumD q.2 0 ≤ maximumD q.2 0 := by
            cases hq2 : q.2 with
            | nil => rw [hq2] at hlen; simp at hlen
            | cons y ys =>
                have hy : y ∈ y :: ys := List.mem_cons_self _ _
                exact le_trans (minimumD_le_mem _ _ hy) (mem_le_maximumD _ _ hy)
          rw [if_neg (by omega), if_neg (by omega), if_neg ?hcont, if_neg (by omega)]
          case hcont =>
            intro hcont
            rw [List.contains_eq_any_beq] at hcont
            simp only [List.any_eq_true, beq_iff_eq] at hcont
            obtain ⟨x, hx, hxe⟩ := hcont
            have h1 := minimumD_le_mem q.2 x hx
            have h2 := mem_le_maximumD q.2 x hx
            omega
      rw [hstep, ih (fun q' hq' => h q' (List.mem_cons_of_mem _ hq'))]

/-- The divergence middle-line analogue of
`convergenceLine2Char_keep`. -/
theorem divergenceLine2Char_keep (sg : List (Nat × List Nat)) (c : Nat)
    (h : ∀ q ∈ sg, q.2.length > 1 → c < minimumD q.2 0 ∨ maximumD q.2 0 < c) :
    ∀ ch, sg.foldl (fun ch (p : Nat × List Nat) =>
      if p.2.length ≤ 1 then ch
      else
        let minTgt := minimumD p.2 0
        let maxTgt := maximumD p.2 0
        if c = minTgt then '┌'
        else if c = maxTgt then '┐'
        else if p.2.contains c then '┬'
        else if minTgt < c ∧ c < maxTgt then '─'
        else ch) ch = ch := by
  induction sg with
  | nil => intro ch; rfl
  | cons q rest ih =>
      intro ch
      simp only [List.foldl_cons]
      have hstep : (if q.2.length ≤ 1 then ch
          else
            let minTgt := minimumD q.2 0
            let maxTgt := maximumD q.2 0
            if c = minTgt then '┌'
            else if c = maxTgt then '┐'
            else if q.2.contains c then '┬'
            else if minTgt < c ∧ c < maxTgt then '─'
            else ch) = ch := by
        by_cases hlen : q.2.length ≤ 1
        · rw [if_pos hlen]
        · rw [if_neg hlen]
          have hq := h q (List.mem_cons_self _ _) (by omega)
          have hminmax : minimumD q.2 0 ≤ maximumD q.2 0 := by
            cases hq2 : q.2 with
            | nil => rw [hq2] at hlen; simp at hlen
            | cons y ys =>
                have hy : y ∈ y :: ys := List.mem_cons_self _ _
                exact le_trans (minimumD_le_mem _ _ hy) (mem_le_maximumD _ _ hy)
          rw [if_neg (by omega), if_neg (by omega), if_neg ?hcont, if_neg (by omega)]
          case hcont =>
            intro hcont
            rw [List.contains_eq_any_beq] at hcont
            simp only [List.any_eq_true, beq_iff_eq] at hcont
            obtain ⟨x, hx, hxe⟩ := hcont
            have h1 := minimumD_le_mem q.2 x hx
            have h2 := mem_le_maximumD q.2 x hx
            omega
      rw [hstep, ih (fun q' hq' => h q' (List.mem_cons_of_mem _ hq'))]

theorem drawSimpleManhattan_lines (conns : List (Nat × Nat)) (m : Nat) :
    ∃ l1 l2, drawSimpleManhattan conns 0 m
        = ([l1, l2].map (fun l => l ++ ['\n'])).flatten ∧
      l1.length = m + 1 ∧ l2.length = m + 1 ∧
      (∀ c : Nat, (∀ p ∈ conns, p.1 ≠ c) →
        l1.getD c ' ' = ' ' ∧ l2.getD c ' ' = ' ') := by
  refine ⟨(List.range (m + 1)).map
      (fun i => if conns.any (fun c => c.1 = i) then '│' else ' '),
    (List.range (m + 1)).map
      (fun i => if conns.any (fun c => c.1 = i) then '↓' else ' '), ?_, by simp,
    by simp, ?_⟩
  · rw [drawSimpleManhattan, rangeIncl_zero]
    simp
  · intro c hc
    have hany : conns.any (fun p => p.1 = c) = false := by
      rw [List.any_eq_false]
      intro p hp
      simp [hc p hp]
    constructor
    · rw [getD_map_range]
      by_cases hcm : c < m + 1
      · rw [if_pos hcm, if_neg (by rw [hany]; simp)]
      · rw [if_neg hcm]
    · rw [getD_map_range]
      by_cases hcm : c < m + 1
      · rw [if_pos hcm, if_neg (by rw [hany]; simp)]
      · rw [if_neg hcm]

theorem drawConvergenceManhattan_lines (tg : List (Nat × List Nat)) (m : Nat) :
    ∃ l1 l2 l3, drawConvergenceManhattan tg 0 m
        = ([l1, l2, l3].map (fun l => l ++ ['\n'])).flatten ∧
      l1.length = m + 1 ∧ l2.length = m + 1 ∧ l3.length = m + 1 ∧
      (∀ c : Nat, (∀ q ∈ tg, ∀ v ∈ q.2, v ≠ c) → l1.getD c ' ' = ' ') ∧
      (∀ c : Nat,
        (∀ q ∈ tg, q.2.length > 1 → c < minimumD q.2 0 ∨ maximumD q.2 0 < c) →
        l2.getD c ' ' = ' ') ∧
      (∀ c : Nat, (∀ q ∈ tg, q.1 ≠ c) → l3.getD c ' ' = ' ') := by
  refine ⟨(List.range (m + 1)).map
      (fun i => if (tg.foldl (fun acc p => acc ++ p.2) []).contains i then '│' else ' '),
    (List.range (m + 1)).map (convergenceLine2Char tg),
    (List.range (m + 1)).map
      (fun i => if tg.any (fun p => p.1 = i) then '↓' else ' '),
    ?_, by simp, by simp, by simp, ?_, ?_, ?_⟩
  · rw [drawConvergenceManhattan, rangeIncl_zero]
    simp
  · intro c hc
    rw [getD_map_range]
    by_cases hcm : c < m + 1
    · rw [if_pos hcm, if_neg]
      intro hcont
      rw [List.contains_eq_any_beq] at hcont
      simp only [List.any_eq_true, beq_iff_eq] at hcont
      obtain ⟨x, hx, hxe⟩ := hcont
      rcases mem_foldl_append_vals tg [] x hx with hmem | ⟨q, hq, hv⟩
      · simp at hmem
      · exact hc q hq x hv hxe.symm
    · rw [if_neg hcm]
  · intro c hc
    rw [getD_map_range]
    by_cases hcm : c < m + 1
    · rw [if_pos hcm]
      exact convergenceLine2Char_keep tg c hc ' '
    · rw [if_neg hcm]
  · intro c hc
    rw [getD_map_range]
    by_cases hcm : c < m + 1
    · rw [if_pos hcm, if_neg]
      intro hany
      simp only [List.any_eq_true, decide_eq_true_eq] at hany
      obtain ⟨q, hq, hqe⟩ := hany
      exact hc q hq hqe
    · rw [if_neg hcm]

theorem drawDivergenceManhattan_lines (sg : List (Nat × List Nat)) (m : Nat) :
    ∃ l1 l2 l3, drawDivergenceManhattan sg 0 m
        = ([l1, l2, l3].map (fun l => l ++ ['\n'])).flatten ∧
      l1.length = m + 1 ∧ l2.length = m + 1 ∧ l3.length = m + 1 ∧
      (∀ c : Nat, (∀ q ∈ sg, q.1 ≠ c) → l1.getD c ' ' = ' ') ∧
      (∀ c : Nat,
        (∀ q ∈ sg, q.2.length > 1 → c < minimumD q.2 0 ∨ maximumD q.2 0 < c) →
        l2.getD c ' ' = ' ') ∧
      (∀ c : Nat, (∀ q ∈ sg, ∀ v ∈ q.2, v ≠ c) → l3.getD c ' ' = ' ') := by
  refine ⟨(List.range (m + 1)).map
      (fun i => if (sg.map Prod.fst).contains i then '│' else ' '),
    (List.range (m + 1)).map (divergenceLine2Char sg),
    (List.range (m + 1)).map
      (fun i => if (sg.foldl (fun acc p => acc ++ p.2) []).contains i then '↓' else ' '),
    ?_, by simp, by simp, by simp, ?_, ?_, ?_⟩
  · rw [drawDivergenceManhattan, rangeIncl_zero]
    simp
  · intro c hc
    rw [getD_map_range]
    by_cases hcm : c < m + 1
    · rw [if_pos hcm, if_neg]
      intro hcont
      rw [List.contains_eq_any_beq] at hcont
      simp only [List.any_eq_true, beq_iff_eq] at hcont
      obtain ⟨x, hx, hxe⟩ := hcont
      rw [List.mem_map] at hx
      obtain ⟨q, hq, hqe⟩ := hx
      exact hc q hq (hqe.trans hxe.symm)
    · rw [if_neg hcm]
  · intro c hc
    rw [getD_map_range]
    by_cases hcm : c < m + 1
    · rw [if_pos hcm]
      exact divergenceLine2Char_keep sg c hc ' '
    · rw [if_neg hcm]
  · intro c hc
    rw [getD_map_range]
    by_cases hcm : c < m + 1
    · rw [if_pos hcm, if_neg]
      intro hcont
      rw [List.contains_eq_any_beq] at hcont
      simp only [List.any_eq_true, beq_iff_eq] at hcont
      obtain ⟨x, hx, hxe⟩ := hcont
      rcases mem_foldl_append_vals sg [] x hx with hmem | ⟨q, hq, hv⟩
      · simp at hmem
      · exact hc q hq x hv hxe.symm
    · rw [if_neg hcm]

theorem drawConnectionsSugiyama_eq (g : DAGs) (cur nxt : List Nat)
    (xs : List Nat) (cm co no : Nat)
    (h1 : cur.isEmpty = false) (h2 : nxt.isEmpty = false)
    (h3 : (sugiyamaConnections g cur nxt xs cm co no).isEmpty = false) :
    drawConnectionsSugiyama g cur nxt xs cm co no =
      (if (groupByTarget (sugiyamaConnections g cur nxt xs cm co no)).any
            (fun p => p.2.length > 1) &&
          !(groupBySource (sugiyamaConnections g cur nxt xs cm co no)).any
            (fun p => p.2.length > 1) then
        drawConvergenceManhattan
          (groupByTarget (sugiyamaConnections g cur nxt xs cm co no)) 0
          (maxInvolved (sugiyamaConnections g cur nxt xs cm co no))
      else if (groupBySource (sugiyamaConnections g cur nxt xs cm co no)).any
            (fun p => p.2.length > 1) &&
          !(groupByTarget (sugiyamaConnections g cur nxt xs cm co no)).any
            (fun p => p.2.length > 1) then
        drawDivergenceManhattan
          (groupBySource (sugiyamaConnections g cur nxt xs cm co no)) 0
          (maxInvolved (sugiyamaConnections g cur nxt xs cm co no))
      else
        drawSimpleManhattan (sugiyamaConnections g cur nxt xs cm co no) 0
          (maxInvolved (sugiyamaConnections g cur nxt xs cm co no))) := by
  rw [drawConnectionsSugiyama]
  rw [if_neg (by rw [h1, h2]; simp)]
  rw [if_neg (by rw [h3]; simp)]
  rw [maxflat_eq_maxInvolved]

/-- C7 (amended): every connector block emitted by the full vertical
layout between an adjacent pair of levels (convergence, divergence, or
mixed/simple case) consists of lines drawn column-by-column starting at
column 0 — not at the minimum involved column, which the source
comments away with `min_pos = 0` — and ending at the maximum involved
column inclusive (each line has length `maxInvolved + 1`), with a space
emitted at every column not otherwise assigned a glyph (in particular
at every free column). -/
theorem c7_amended (g : DAGs) (cur nxt : List Nat) (xs : List Nat)
    (cm co no : Nat)
    (h1 : cur.isEmpty = false) (h2 : nxt.isEmpty = false)
    (h3 : (sugiyamaConnections g cur nxt xs cm co no).isEmpty = false) :
    ∃ lines : List (List Char),
      drawConnectionsSugiyama g cur nxt xs cm co no
        = (lines.map (fun l => l ++ ['\n'])).flatten ∧
      (lines.length = 2 ∨ lines.length = 3) ∧
      (∀ l ∈ lines, l.length
          = maxInvolved (sugiyamaConnections g cur nxt xs cm co no) + 1) ∧
      (∀ l ∈ lines, ∀ c : Nat,
        freeCol (sugiyamaConnections g cur nxt xs cm co no) c →
        l.getD c ' ' = ' ') := by
  rw [drawConnectionsSugiyama_eq g cur nxt xs cm co no h1 h2 h3]
  set conns := sugiyamaConnections g cur nxt xs cm co no with hconns
  set m := maxInvolved conns with hm
  by_cases hcv : (groupByTarget conns).any (fun p => p.2.length > 1) = true ∧
      (groupBySource conns).any (fun p => p.2.length > 1) = false
  · rw [if_pos (by rw [hcv.1, hcv.2]; rfl)]
    obtain ⟨l1, l2, l3, heq, hl1, hl2, hl3, hs1, hs2, hs3⟩ :=
      drawConvergenceManhattan_lines (groupByTarget conns) m
    refine ⟨[l1, l2, l3], heq, Or.inr rfl, ?_, ?_⟩
    · intro l hl
      simp only [List.mem_cons, List.not_mem_nil, or_false] at hl
      rcases hl with rfl | rfl | rfl
      · exact hl1
      · exact hl2
      · exact hl3
    · intro l hl c hc
      obtain ⟨hfc1, hfc2, hfc3⟩ := hc
      simp only [List.mem_cons, List.not_mem_nil, or_false] at hl
      rcases hl with rfl | rfl | rfl
      · exact hs1 c (fun q hq v hv hvc =>
          (hfc1 (v, q.1) (mem_val_groupByTarget conns q v hq hv)).1 hvc)
      · exact hs2 c hfc2
      · refine hs3 c (fun q hq hqc => ?_)
        have hne := fold_groupInsert_val_ne_nil (fun c => c.2) (fun c => c.1)
          conns [] (by intro q hq; cases hq) q hq
        cases hval : q.2 with
        | nil => exact hne hval
        | cons v vs =>
            have hv : v ∈ q.2 := by rw [hval]; exact List.mem_cons_self _ _
            exact (hfc1 (v, q.1) (mem_val_groupByTarget conns q v hq hv)).2 hqc
  · rw [if_neg (by
      intro hb
      rw [Bool.and_eq_true, Bool.not_eq_true'] at hb
      exact hcv hb)]
    by_cases hdv : (groupBySource conns).any (fun p => p.2.length > 1) = true ∧
        (groupByTarget conns).any (fun p => p.2.length > 1) = false
    · rw [if_pos (by rw [hdv.1, hdv.2]; rfl)]
      obtain ⟨l1, l2, l3, heq, hl1, hl2, hl3, hs1, hs2, hs3⟩ :=
        drawDivergenceManhattan_lines (groupBySource conns) m
      refine ⟨[l1, l2, l3], heq, Or.inr rfl, ?_, ?_⟩
      · intro l hl
        simp only [List.mem_cons, List.not_mem_nil, or_false] at hl
        rcases hl with rfl | rfl | rfl
        · exact hl1
        · exact hl2
        · exact hl3
      · intro l hl c hc
        obtain ⟨hfc1, hfc2, hfc3⟩ := hc
        simp only [List.mem_cons, List.not_mem_nil, or_false] at hl
        rcases hl with rfl | rfl | rfl
        · refine hs1 c (fun q hq hqc => ?_)
          have hne := fold_groupInsert_val_ne_nil (fun c => c.1) (fun c => c.2)
            conns [] (by intro q hq; cases hq) q hq
          cases hval : q.2 with
          | nil => exact hne hval
          | cons v vs =>
              have hv : v ∈ q.2 := by rw [hval]; exact List.mem_cons_self _ _
              exact (hfc1 (q.1, v) (mem_val_groupBySource conns q v hq hv)).1 hqc
        · exact hs2 c hfc3
        · exact hs3 c (fun q hq v hv hvc =>
            (hfc1 (q.1, v) (mem_val_groupBySource conns q v hq hv)).2 hvc)
    · rw [if_neg (by
        intro hb
        rw [Bool.and_eq_true, Bool.not_eq_true'] at hb
        exact hdv hb)]
      obtain ⟨l1, l2, heq, hl1, hl2, hsp⟩ := drawSimpleManhattan_lines conns m
      refine ⟨[l1, l2], heq, Or.inl rfl, ?_, ?_⟩
      · intro l hl
        simp only [List.mem_cons, List.not_mem_nil, or_false] at hl
        rcases hl with rfl | rfl
        · exact hl1
        · exact hl2
      · intro l hl c hc
        obtain ⟨hfc1, _, _⟩ := hc
        have hsp' := hsp c (fun p hp => (hfc1 p hp).1)
        simp only [List.mem_cons, List.not_mem_nil, or_false] at hl
        rcases hl with rfl | rfl
        · exact hsp'.1
        · exact hsp'.2

/-- The two-node chain rendered vertically, used to exhibit connector
blocks that do not start at the minimum involved column. -/
def gC7 : DAGs :=
  (((DAGs.new.add_node 1 ['A']).add_node 2 ['B']).add_edge 1 2).set_render_mode
    RenderMode.Vertical

/-- Counterexample to C7 as stated: in the full vertical layout of
`gC7`, the emitted connector block is `drawSimpleManhattan [(1,1)] 0 1`
(columns 0..1), although the minimum involved column of its
connections is 1; the block drawn from the minimum involved column
would differ.  So connector blocks do not start at the overall minimum
involved column. -/
theorem c7_counterexample :
    renderToF gC7 = some ("[A]\n │\n ↓\n[B]\n").data ∧
    sugiyamaConnections gC7 [0] [1] [0, 0] 0 0 0 = [(1, 1)] ∧
    drawConnectionsSugiyama gC7 [0] [1] [0, 0] 0 0 0
      = drawSimpleManhattan [(1, 1)] 0 1 ∧
    minInvolved [(1, 1)] = 1 ∧
    maxInvolved [(1, 1)] = 1 ∧
    drawSimpleManhattan [(1, 1)] 0 1
      ≠ drawSimpleManhattan [(1, 1)] (minInvolved [(1, 1)]) (maxInvolved [(1, 1)]) :=
  ⟨by decide, by decide, by decide, by decide, by decide, by decide⟩

/-- Witness for C7 (amended) at a concrete input. -/
theorem c7_witness :
    (([0] : List Nat).isEmpty = false ∧ ([1] : List Nat).isEmpty = false ∧
      (sugiyamaConnections gC7 [0] [1] [0, 0] 0 0 0).isEmpty = false) ∧
    (∃ lines : List (List Char),
      drawConnectionsSugiyama gC7 [0] [1] [0, 0] 0 0 0
        = (lines.map (fun l => l ++ ['\n'])).flatten ∧
      (lines.length = 2 ∨ lines.length = 3) ∧
      (∀ l ∈ lines, l.length
          = maxInvolved (sugiyamaConnections gC7 [0] [1] [0, 0] 0 0 0) + 1) ∧
      (∀ l ∈ lines, ∀ c : Nat,
        freeCol (sugiyamaConnections gC7 [0] [1] [0, 0] 0 0 0) c →
        l.getD c ' ' = ' ')) :=
  ⟨⟨by decide, by decide, by decide⟩,
    c7_amended gC7 [0] [1] [0, 0] 0 0 0 (by decide) (by decide) (by decide)⟩

/-! ## Closed walks, acyclicity, and convergence of `calculate_levels` -/

/-- The directed edge relation on ids, read off the stored edge list. -/
def EdgeRel (g : DAGs) (a b : Nat) : Prop := (a, b) ∈ g.edges

/-- The graph contains a closed walk: some id reaches itself through a
nonempty chain of edges. -/
def HasClosedWalk (g : DAGs) : Prop :=
  ∃ x : Nat, Relation.TransGen (EdgeRel g) x x

/-- The keys of the id→index map. -/
def KeysOf (g : DAGs) : List Nat := g.id_to_index.map Prod.fst

/-- The invariant maintained by the relaxation passes of
`calculate_levels`: every positive level is witnessed by an edge walk
of exactly that many edges ending at the node, with all vertices drawn
from the id map's keys. -/
def WalkInv (g : DAGs) (lv : List Nat) : Prop :=
  ∀ i < g.nodes.length, 0 < lv.getD i 0 →
    ∃ v0 l, List.Chain (EdgeRel g) v0 l ∧
      l.length = lv.getD i 0 ∧
      (v0 :: l).getLast? = some (idAt g i) ∧
      ∀ v ∈ v0 :: l, v ∈ KeysOf g

theorem chain_transGen {r : Nat → Nat → Prop} :
    ∀ (l : List Nat) (a b : Nat), List.Chain r a l → l.getLast? = some b →
      Relation.TransGen r a b := by
  intro l
  induction l with
  | nil => intro a b _ hb; cases hb
  | cons c t ih =>
      intro a b hc hb
      cases hc with
      | cons hac hct =>
          cases t with
          | nil =>
              have hcb : c = b := by simpa using hb
              exact Relation.TransGen.single (hcb ▸ hac)
          | cons d t' =>
              have hb' : (d :: t').getLast? = some b := by
                rw [List.getLast?_cons_cons] at hb
                exact hb
              exact Relation.TransGen.head hac (ih c b hct hb')

theorem chain_snoc {r : Nat → Nat → Prop} :
    ∀ (l : List Nat) (a b c : Nat), List.Chain r a l →
      (a :: l).getLast? = some b → r b c → List.Chain r a (l ++ [c]) := by
  intro l
  induction l with
  | nil =>
      intro a b c _ hb hr
      have hab : a = b := by simpa using hb
      exact List.Chain.cons (hab ▸ hr) List.Chain.nil
  | cons d t ih =>
      intro a b c hc hb hr
      cases hc with
      | cons had hdt =>
          have hb' : (d :: t).getLast? = some b := by
            rw [List.getLast?_cons_cons] at hb
            exact hb
          exact List.Chain.cons had (ih d b c hdt hb' hr)

theorem exists_dup_split {α : Type} [DecidableEq α] :
    ∀ (l : List α), ¬ l.Nodup → ∃ x p m s, l = p ++ x :: (m ++ x :: s) := by
  intro l
  induction l with
  | nil => intro h; exact absurd List.nodup_nil h
  | cons a t ih =>
      intro h
      by_cases ha : a ∈ t
      · obtain ⟨m, s, hms⟩ := List.append_of_mem ha
        exact ⟨a, [], m, s, by rw [hms, List.nil_append]⟩
      · have ht : ¬ t.Nodup := fun hnd => h (List.nodup_cons.mpr ⟨ha, hnd⟩)
        obtain ⟨x, p, m, s, hx⟩ := ih ht
        exact ⟨x, a :: p, m, s, by rw [List.cons_append, hx]⟩

theorem length_le_of_nodup_subset {α : Type} [DecidableEq α] (l l' : List α)
    (hnd : l.Nodup) (hsub : ∀ x ∈ l, x ∈ l') : l.length ≤ l'.length := by
  calc l.length = l.toFinset.card := (List.toFinset_card_of_nodup hnd).symm
    _ ≤ l'.toFinset.card := Finset.card_le_card
        (fun x hx => List.mem_toFinset.mpr (hsub x (List.mem_toFinset.mp hx)))
    _ ≤ l'.length := l'.toFinset_card_le

theorem chain_nodup_of_acyclic {g : DAGs} (hacyc : ¬ HasClosedWalk g)
    (v0 : Nat) (l : List Nat) (hc : List.Chain (EdgeRel g) v0 l) :
    (v0 :: l).Nodup := by
  by_contra hnd
  obtain ⟨x, p, m, s, hx⟩ := exists_dup_split (v0 :: l) hnd
  apply hacyc
  refine ⟨x, ?_⟩
  have hchain : (v0 :: l).Chain' (EdgeRel g) := hc
  have hinf : (x :: (m ++ [x])) <:+: (v0 :: l) := by
    refine ⟨p, s, ?_⟩
    rw [hx]
    simp
  have hsub : List.Chain (EdgeRel g) x (m ++ [x]) := hchain.infix hinf
  exact chain_transGen (m ++ [x]) x x hsub (List.getLast?_concat _)

theorem keys_length_le (g : DAGs) (hwf : WF g) :
    (KeysOf g).length ≤ g.nodes.length := by
  have hnd : (g.id_to_index.map Prod.snd).Nodup := by
    have hent : g.id_to_index.Nodup := List.Nodup.of_map _ hwf.2.1
    refine List.Nodup.map_on ?_ hent
    intro x hx y hy hxy
    have h1 := hwf.1 x hx
    have h2 := hwf.1 y hy
    have hfst : x.1 = y.1 := by rw [← h1.2, ← h2.2, hxy]
    exact List.inj_on_of_nodup_map hwf.2.1 hx hy hfst
  have hsub : ∀ v ∈ g.id_to_index.map Prod.snd, v ∈ List.range g.nodes.length := by
    intro v hv
    rw [List.mem_map] at hv
    obtain ⟨q, hq, hqv⟩ := hv
    rw [List.mem_range, ← hqv]
    exact (hwf.1 q hq).1
  have h := length_le_of_nodup_subset _ _ hnd hsub
  rw [List.length_map, List.length_range] at h
  rw [KeysOf, List.length_map]
  exact h

theorem mem_keys_of_node_index {g : DAGs} {id idx : Nat}
    (h : g.node_index id = some idx) : id ∈ KeysOf g :=
  (lookupA_isSome_iff _ _).mp
    (by rw [show lookupA g.id_to_index id = some idx from h]; rfl)

theorem sum_set_lt : ∀ (l : List Nat) (i v : Nat), i < l.length →
    l.getD i 0 < v → l.sum < (l.set i v).sum := by
  intro l
  induction l with
  | nil => intro i v hi; simp at hi
  | cons a t ih =>
      intro i v hi hv
      cases i with
      | zero =>
          have ha : (a :: t).getD 0 0 = a := rfl
          rw [ha] at hv
          show (a :: t).sum < (v :: t).sum
          simp only [List.sum_cons]
          omega
      | succ j =>
          have hj : j < t.length := by simpa using hi
          have hv' : t.getD j 0 < v := hv
          show (a :: t).sum < (a :: t.set j v).sum
          simp only [List.sum_cons]
          have := ih j v hj hv'
          omega

theorem sum_le_of_getD_le (lv : List Nat) (n B : Nat) (hlen : lv.length = n)
    (hb : ∀ i < n, lv.getD i 0 ≤ B) : lv.sum ≤ n * B := by
  have h1 : ∀ x ∈ lv, x ≤ B := by
    intro x hx
    obtain ⟨i, hi, hxi⟩ := List.mem_iff_getElem.mp hx
    have := hb i (by omega)
    rw [getD_eq_getElem _ _ _ hi, hxi] at this
    exact this
  calc lv.sum ≤ lv.length • B := List.sum_le_card_nsmul lv B h1
    _ = n * B := by rw [smul_eq_mul, hlen]

theorem levelPassStep_len (g : DAGs) (acc : List Nat × Bool) (e : Nat × Nat) :
    (levelPassStep g acc e).1.length = acc.1.length := by
  rw [levelPassStep]
  cases hf : g.node_index e.1 with
  | none => rfl
  | some fi =>
      cases ht : g.node_index e.2 with
      | none => rfl
      | some ti =>
          dsimp only
          split
          · exact List.length_set _ _ _
          · rfl

theorem levelPassStep_cases (g : DAGs) (acc : List Nat × Bool) (e : Nat × Nat) :
    levelPassStep g acc e = acc ∨ (levelPassStep g acc e).2 = true := by
  rw [levelPassStep]
  cases hf : g.node_index e.1 with
  | none => exact Or.inl rfl
  | some fi =>
      cases ht : g.node_index e.2 with
      | none => exact Or.inl rfl
      | some ti =>
          dsimp only
          split
          · exact Or.inr rfl
          · exact Or.inl rfl

theorem levelPassStep_flag (g : DAGs) (acc : List Nat × Bool) (e : Nat × Nat)
    (h : acc.2 = true) : (levelPassStep g acc e).2 = true := by
  rcases levelPassStep_cases g acc e with hc | hc
  · rw [hc]; exact h
  · exact hc

theorem levelPassStep_sum (g : DAGs) (hwf : WF g) (acc : List Nat × Bool)
    (e : Nat × Nat) (he : e ∈ g.edges) (hlen : acc.1.length = g.nodes.length) :
    acc.1.sum ≤ (levelPassStep g acc e).1.sum ∧
    ((levelPassStep g acc e).2 = true →
      acc.2 = true ∨ acc.1.sum < (levelPassStep g acc e).1.sum) := by
  rw [levelPassStep]
  cases hf : g.node_index e.1 with
  | none => exact ⟨le_refl _, fun h => Or.inl h⟩
  | some fi =>
      cases ht : g.node_index e.2 with
      | none => exact ⟨le_refl _, fun h => Or.inl h⟩
      | some ti =>
          dsimp only
          have hti : ti < acc.1.length := by
            rw [hlen]; exact (hwf.lookup_lt ht).1
          split
          · next hgt =>
              have hlt : acc.1.sum < (acc.1.set ti (acc.1.getD fi 0 + 1)).sum :=
                sum_set_lt acc.1 ti _ hti hgt
              exact ⟨le_of_lt hlt, fun _ => Or.inr hlt⟩
          · exact ⟨le_refl _, fun h => Or.inl h⟩

theorem levelPassStep_walk (g : DAGs) (hwf : WF g) (acc : List Nat × Bool)
    (e : Nat × Nat) (he : e ∈ g.edges) (hlen : acc.1.length = g.nodes.length)
    (hinv : WalkInv g acc.1) : WalkInv g (levelPassStep g acc e).1 := by
  rw [levelPassStep]
  cases hf : g.node_index e.1 with
  | none => exact hinv
  | some fi =>
      cases ht : g.node_index e.2 with
      | none => exact hinv
      | some ti =>
          dsimp only
          split
          · next hgt =>
              intro i hi hpos
              have hti : ti < acc.1.length := by
                rw [hlen]; exact (hwf.lookup_lt ht).1
              have hfi : fi < g.nodes.length := (hwf.lookup_lt hf).1
              have hidf : idAt g fi = e.1 := (hwf.lookup_lt hf).2
              have hidt : idAt g ti = e.2 := (hwf.lookup_lt ht).2
              by_cases hit : i = ti
              · subst hit
                rw [getD_set_self _ _ _ _ hti]
                have he' : EdgeRel g e.1 e.2 := he
                cases h0 : acc.1.getD fi 0 with
                | zero =>
                    refine ⟨e.1, [e.2], List.Chain.cons he' List.Chain.nil,
                      by simp [h0], ?_, ?_⟩
                    · rw [hidt]; rfl
                    · intro v hv
                      rcases (show v = e.1 ∨ v = e.2 by simpa using hv)
                          with rfl | rfl
                      · exact mem_keys_of_node_index hf
                      · exact mem_keys_of_node_index ht
                | succ k =>
                    obtain ⟨v0, l, hc, hl, hlast, hmem⟩ :=
                      hinv fi hfi (by rw [h0]; exact Nat.succ_pos k)
                    refine ⟨v0, l ++ [e.2], ?_, ?_, ?_, ?_⟩
                    · refine chain_snoc l v0 (idAt g fi) e.2 hc hlast ?_
                      rw [hidf]
                      exact he'
                    · rw [List.length_append, hl, h0, List.length_singleton]
                    · rw [hidt,
                        show v0 :: (l ++ [e.2]) = (v0 :: l) ++ [e.2] from rfl,
                        List.getLast?_concat]
                    · intro v hv
                      rw [show v0 :: (l ++ [e.2]) = (v0 :: l) ++ [e.2] from rfl]
                        at hv
                      rcases List.mem_append.mp hv with h | h
                      · exact hmem v h
                      · rw [List.mem_singleton] at h
                        subst h
                        exact mem_keys_of_node_index ht
              · rw [getD_set_ne _ _ _ _ _ (fun hh => hit hh.symm)] at hpos ⊢
                exact hinv i hi hpos
          · exact hinv

theorem levelPassStep_zero (g : DAGs) (acc : List Nat × Bool) (e : Nat × Nat)
    (i : Nat) (hne : ∀ fi ti, g.node_index e.1 = some fi →
      g.node_index e.2 = some ti → ti ≠ i) :
    (levelPassStep g acc e).1.getD i 0 = acc.1.getD i 0 := by
  rw [levelPassStep]
  cases hf : g.node_index e.1 with
  | none => rfl
  | some fi =>
      cases ht : g.node_index e.2 with
      | none => rfl
      | some ti =>
          dsimp only
          split
          · exact getD_set_ne _ _ _ _ _ (hne fi ti hf ht)
          · rfl

theorem foldl_levelPassStep_len (g : DAGs) :
    ∀ (es : List (Nat × Nat)) (acc : List Nat × Bool),
      (es.foldl (levelPassStep g) acc).1.length = acc.1.length := by
  intro es
  induction es with
  | nil => intro acc; rfl
  | cons e es ih =>
      intro acc
      rw [List.foldl_cons, ih, levelPassStep_len]

theorem foldl_levelPassStep_flag (g : DAGs) :
    ∀ (es : List (Nat × Nat)) (acc : List Nat × Bool), acc.2 = true →
      (es.foldl (levelPassStep g) acc).2 = true := by
  intro es
  induction es with
  | nil => intro acc h; exact h
  | cons e es ih =>
      intro acc h
      rw [List.foldl_cons]
      exact ih _ (levelPassStep_flag g acc e h)

theorem foldl_levelPassStep_sum (g : DAGs) (hwf : WF g) :
    ∀ (es : List (Nat × Nat)) (acc : List Nat × Bool),
      (∀ e ∈ es, e ∈ g.edges) → acc.1.length = g.nodes.length →
      acc.1.sum ≤ (es.foldl (levelPassStep g) acc).1.sum ∧
      ((es.foldl (levelPassStep g) acc).2 = true →
        acc.2 = true ∨ acc.1.sum < (es.foldl (levelPassStep g) acc).1.sum) := by
  intro es
  induction es with
  | nil => intro acc _ _; exact ⟨le_refl _, fun h => Or.inl h⟩
  | cons e es ih =>
      intro acc hes hlen
      rw [List.foldl_cons]
      obtain ⟨h1, h2⟩ := ih (levelPassStep g acc e)
        (fun e' he' => hes e' (List.mem_cons_of_mem _ he'))
        (by rw [levelPassStep_len]; exact hlen)
      obtain ⟨h3, h4⟩ := levelPassStep_sum g hwf acc e
        (hes e (List.mem_cons_self _ _)) hlen
      refine ⟨le_trans h3 h1, fun hflag => ?_⟩
      rcases h2 hflag with hf | hlt
      · rcases h4 hf with ha | hlt'
        · exact Or.inl ha
        · exact Or.inr (lt_of_lt_of_le hlt' h1)
      · exact Or.inr (lt_of_le_of_lt h3 hlt)

theorem foldl_levelPassStep_walk (g : DAGs) (hwf : WF g) :
    ∀ (es : List (Nat × Nat)) (acc : List Nat × Bool),
      (∀ e ∈ es, e ∈ g.edges) → acc.1.length = g.nodes.length →
      WalkInv g acc.1 → WalkInv g (es.foldl (levelPassStep g) acc).1 := by
  intro es
  induction es with
  | nil => intro acc _ _ h; exact h
  | cons e es ih =>
      intro acc hes hlen hinv
      rw [List.foldl_cons]
      exact ih _ (fun e' he' => hes e' (List.mem_cons_of_mem _ he'))
        (by rw [levelPassStep_len]; exact hlen)
        (levelPassStep_walk g hwf acc e (hes e (List.mem_cons_self _ _))
          hlen hinv)

theorem foldl_levelPassStep_zero (g : DAGs) (i : Nat)
    (hne : ∀ e ∈ g.edges, ∀ fi ti, g.node_index e.1 = some fi →
      g.node_index e.2 = some ti → ti ≠ i) :
    ∀ (es : List (Nat × Nat)) (acc : List Nat × Bool),
      (∀ e ∈ es, e ∈ g.edges) →
      (es.foldl (levelPassStep g) acc).1.getD i 0 = acc.1.getD i 0 := by
  intro es
  induction es with
  | nil => intro acc _; rfl
  | cons e es ih =>
      intro acc hes
      rw [List.foldl_cons,
        ih _ (fun e' he' => hes e' (List.mem_cons_of_mem _ he')),
        levelPassStep_zero]
      exact fun fi ti hf ht =>
        hne e (hes e (List.mem_cons_self _ _)) fi ti hf ht

theorem foldl_levelPass_of_flag_false (g : DAGs) :
    ∀ (es : List (Nat × Nat)) (acc : List Nat × Bool),
      (es.foldl (levelPassStep g) acc).2 = false →
      es.foldl (levelPassStep g) acc = acc := by
  intro es
  induction es with
  | nil => intro acc _; rfl
  | cons e es ih =>
      intro acc h
      rw [List.foldl_cons] at h ⊢
      rcases levelPassStep_cases g acc e with hc | hc
      · rw [hc] at h ⊢
        exact ih _ h
      · have hT := foldl_levelPassStep_flag g es _ hc
        rw [hT] at h
        simp at h

theorem foldl_levelPass_edge_prop (g : DAGs) :
    ∀ (es : List (Nat × Nat)) (acc : List Nat × Bool),
      (es.foldl (levelPassStep g) acc).2 = false →
      ∀ e ∈ es, ∀ fi ti, g.node_index e.1 = some fi →
        g.node_index e.2 = some ti →
        acc.1.getD fi 0 + 1 ≤ acc.1.getD ti 0 := by
  intro es
  induction es with
  | nil => intro acc _ e he; cases he
  | cons e es ih =>
      intro acc h e' he' fi ti hf ht
      rw [List.foldl_cons] at h
      have hstep : levelPassStep g acc e = acc := by
        rcases levelPassStep_cases g acc e with hc | hc
        · exact hc
        · have hT := foldl_levelPassStep_flag g es _ hc
          rw [hT] at h
          simp at h
      rcases List.mem_cons.mp he' with rfl | hmem
      · by_contra hlt
        push_neg at hlt
        have hfire : (levelPassStep g acc e').2 = true := by
          rw [levelPassStep, hf, ht]
          dsimp only
          rw [if_pos hlt]
        rw [hstep] at hfire
        have hT := foldl_levelPassStep_flag g es acc hfire
        rw [hstep] at h
        rw [hT] at h
        simp at h
      · rw [hstep] at h
        exact ih acc h e' hmem fi ti hf ht

theorem walkInv_le (g : DAGs) (hwf : WF g) (hacyc : ¬ HasClosedWalk g)
    (lv : List Nat) (hinv : WalkInv g lv) :
    ∀ i < g.nodes.length, lv.getD i 0 ≤ g.nodes.length := by
  intro i hi
  cases h0 : lv.getD i 0 with
  | zero => exact Nat.zero_le _
  | succ k =>
      obtain ⟨v0, l, hc, hl, _, hmem⟩ :=
        hinv i hi (by rw [h0]; exact Nat.succ_pos k)
      have hnd := chain_nodup_of_acyclic hacyc v0 l hc
      have h1 := length_le_of_nodup_subset (v0 :: l) (KeysOf g) hnd hmem
      have h2 := keys_length_le g hwf
      simp only [List.length_cons] at h1
      omega

theorem levelLoopF_len (g : DAGs) :
    ∀ (fuel : Nat) (lv lv' : List Nat), levelLoopF g fuel lv = some lv' →
      lv'.length = lv.length := by
  intro fuel
  induction fuel with
  | zero => intro lv lv' h; cases h
  | succ n ih =>
      intro lv lv' h
      rw [levelLoopF] at h
      dsimp only at h
      split at h
      · rw [ih _ _ h]
        exact foldl_levelPassStep_len g g.edges (lv, false)
      · have hv : (levelPass g lv).1 = lv' := by
          injection h
        rw [← hv]
        exact foldl_levelPassStep_len g g.edges (lv, false)

theorem levelLoopF_term (g : DAGs) (hwf : WF g) (hacyc : ¬ HasClosedWalk g) :
    ∀ (fuel : Nat) (lv : List Nat), lv.length = g.nodes.length →
      WalkInv g lv →
      g.nodes.length * g.nodes.length + 1 ≤ lv.sum + fuel →
      (levelLoopF g fuel lv).isSome = true := by
  intro fuel
  induction fuel with
  | zero =>
      intro lv hlen hinv hge
      exfalso
      have hb := walkInv_le g hwf hacyc lv hinv
      have hsum := sum_le_of_getD_le lv g.nodes.length g.nodes.length hlen hb
      omega
  | succ n ih =>
      intro lv hlen hinv hge
      rw [levelLoopF]
      dsimp only
      split
      · next hch =>
          apply ih
          · rw [show (levelPass g lv).1.length
                = (g.edges.foldl (levelPassStep g) (lv, false)).1.length from rfl,
              foldl_levelPassStep_len]
            exact hlen
          · exact foldl_levelPassStep_walk g hwf g.edges (lv, false)
              (fun _ he => he) hlen hinv
          · obtain ⟨h1, h2⟩ := foldl_levelPassStep_sum g hwf g.edges (lv, false)
              (fun _ he => he) hlen
            rcases h2 hch with hfalse | hlt
            · simp at hfalse
            · have : lv.sum + 1 ≤ (levelPass g lv).1.sum := hlt
              omega
      · rfl

theorem levelLoopF_fix (g : DAGs) :
    ∀ (fuel : Nat) (lv lv' : List Nat), levelLoopF g fuel lv = some lv' →
      (levelPass g lv').2 = false ∧
      (∀ i, (∀ e ∈ g.edges, ∀ fi ti, g.node_index e.1 = some fi →
          g.node_index e.2 = some ti → ti ≠ i) →
        lv'.getD i 0 = lv.getD i 0) := by
  intro fuel
  induction fuel with
  | zero => intro lv lv' h; cases h
  | succ n ih =>
      intro lv lv' h
      rw [levelLoopF] at h
      dsimp only at h
      split at h
      · next hch =>
          obtain ⟨h1, h2⟩ := ih _ _ h
          refine ⟨h1, fun i hne => ?_⟩
          rw [h2 i hne]
          exact foldl_levelPassStep_zero g i hne g.edges (lv, false)
            (fun _ he => he)
      · next hch =>
          have hch' : (levelPass g lv).2 = false := by
            revert hch
            cases (levelPass g lv).2 <;> simp
          have hfixed : levelPass g lv = (lv, false) :=
            foldl_levelPass_of_flag_false g g.edges (lv, false) hch'
          have hv : (levelPass g lv).1 = lv' := by
            injection h
          have hlv : lv' = lv := by
            rw [← hv, hfixed]
          subst hlv
          exact ⟨by rw [hfixed], fun i _ => rfl⟩

/-- C4: for an acyclic well-formed graph, the fixed-point level pass of
`calculate_levels` converges within its `n*n + 1` passes, and at the
resulting assignment every stored edge with resolvable endpoints
satisfies `level(to) ≥ level(from) + 1`, while every node whose parent
list is empty keeps level `0`. -/
theorem c4_level_properties (g : DAGs) (hwf : WF g)
    (hacyc : ¬ HasClosedWalk g) :
    ∃ lv : List Nat,
      calculateLevelsF g = some lv.enum ∧
      lv.length = g.nodes.length ∧
      (∀ e ∈ g.edges, ∀ fi ti, g.node_index e.1 = some fi →
        g.node_index e.2 = some ti →
        lv.getD fi 0 + 1 ≤ lv.getD ti 0) ∧
      (∀ i < g.nodes.length, g.parents.getD i [] = [] → lv.getD i 0 = 0) := by
  have hterm := levelLoopF_term g hwf hacyc
    (g.nodes.length * g.nodes.length + 1) (List.replicate g.nodes.length 0)
    (List.length_replicate _ _)
    (fun i hi hpos => absurd hpos (by rw [getD_replicate _ _ _ _ hi]; simp))
    (by rw [List.sum_replicate]; simp)
  obtain ⟨lv, hlv⟩ := Option.isSome_iff_exists.mp hterm
  refine ⟨lv, ?_, ?_, ?_, ?_⟩
  · rw [calculateLevelsF, hlv]
  · rw [levelLoopF_len g _ _ _ hlv, List.length_replicate]
  · obtain ⟨hfix, _⟩ := levelLoopF_fix g _ _ _ hlv
    intro e he fi ti hf ht
    exact foldl_levelPass_edge_prop g g.edges (lv, false) hfix e he fi ti hf ht
  · intro i hi hpar
    obtain ⟨_, hzero⟩ := levelLoopF_fix g _ _ _ hlv
    have hne : ∀ e ∈ g.edges, ∀ fi ti, g.node_index e.1 = some fi →
        g.node_index e.2 = some ti → ti ≠ i := by
      intro e he fi ti hf ht hti
      rw [hti] at ht
      have hspec := hwf.2.2.2.2.2.2.2.2.1 i hi
      rw [hspec, parentsSpec] at hpar
      have hnone := (List.filterMap_eq_nil_iff).mp hpar e he
      rw [hf, ht] at hnone
      simp at hnone
    rw [hzero i hne]
    exact getD_replicate _ _ _ _ hi

/-- The two-node chain used as the concrete acyclic input for C4. -/
def gC4 : DAGs := ((DAGs.new.add_node 1 ['A']).add_node 2 ['B']).add_edge 1 2

/-- Witness for C4 at a concrete input. -/
theorem c4_witness :
    WF gC4 ∧ ¬ HasClosedWalk gC4 ∧
    (∃ lv : List Nat,
      calculateLevelsF gC4 = some lv.enum ∧
      lv.length = gC4.nodes.length ∧
      (∀ e ∈ gC4.edges, ∀ fi ti, gC4.node_index e.1 = some fi →
        gC4.node_index e.2 = some ti →
        lv.getD fi 0 + 1 ≤ lv.getD ti 0) ∧
      (∀ i < gC4.nodes.length, gC4.parents.getD i [] = [] →
        lv.getD i 0 = 0)) := by
  have hedges : gC4.edges = [(1, 2)] := by decide
  have hacyc : ¬ HasClosedWalk gC4 := by
    rintro ⟨x, hx⟩
    obtain ⟨b, hb, hrest⟩ := (Relation.TransGen.head'_iff).mp hx
    have hb' : (x, b) ∈ gC4.edges := hb
    rw [hedges, List.mem_singleton, Prod.mk.injEq] at hb'
    obtain ⟨rfl, rfl⟩ := hb'
    rcases Relation.ReflTransGen.cases_head hrest with h21 | ⟨c, hc, _⟩
    · exact absurd h21 (by decide)
    · have hc' : ((2 : Nat), c) ∈ gC4.edges := hc
      rw [hedges, List.mem_singleton, Prod.mk.injEq] at hc'
      exact absurd hc'.1 (by decide)
  exact ⟨by decide, hacyc, c4_level_properties gC4 (by decide) hacyc⟩

/-! ## Connected components and the Auto-mode decision -/

/-- The undirected adjacency relation on node indices explored by
`collect_connected`: edges are followed in both directions, matching
endpoints by id and resolving the far endpoint through the id map. -/
def Adj (g : DAGs) (i j : Nat) : Prop :=
  ∃ e ∈ g.edges, (e.1 = idAt g i ∧ g.node_index e.2 = some j) ∨
    (e.2 = idAt g i ∧ g.node_index e.1 = some j)

/-- Visited-array growth: every index marked true stays true. -/
def VisLe (v v' : List Bool) : Prop :=
  ∀ j, v.getD j false = true → v'.getD j false = true

/-- What one segment of the exploration guarantees, relative to the
start `i` of the surrounding `collect_connected` call: the visited
array grows, its unvisited count shrinks, every newly visited index
has all its neighbours visited by the end of the segment, and every
newly visited index is reachable from `i`. -/
def Carry (g : DAGs) (i : Nat) (st out : List Bool × List Nat) : Prop :=
  out.1.length = st.1.length ∧ VisLe st.1 out.1 ∧
  out.1.count false ≤ st.1.count false ∧
  (∀ a, out.1.getD a false = true → st.1.getD a false = true ∨
    ∀ b, Adj g a b → out.1.getD b false = true) ∧
  (∀ j, out.1.getD j false = true → st.1.getD j false = true ∨
    Relation.ReflTransGen (Adj g) i j)

/-- The full guarantee of a `collect_connected` call from `k`. -/
def StepOut (g : DAGs) (k : Nat) (st out : List Bool × List Nat) : Prop :=
  Carry g k st out ∧ out.1.getD k false = true

/-- The guarantee of the edge loop of `collect_connected` started at
index `i`: a `Carry` segment that moreover visits both directional
neighbours of `i` along every listed edge. -/
def ELOut (g : DAGs) (i : Nat) (es : List (Nat × Nat))
    (st out : List Bool × List Nat) : Prop :=
  Carry g i st out ∧
  ∀ e ∈ es, ∀ j, ((e.1 = idAt g i ∧ g.node_index e.2 = some j) ∨
      (e.2 = idAt g i ∧ g.node_index e.1 = some j)) →
    out.1.getD j false = true

theorem visLe_refl (v : List Bool) : VisLe v v := fun _ h => h

theorem visLe_trans {v1 v2 v3 : List Bool} (h1 : VisLe v1 v2)
    (h2 : VisLe v2 v3) : VisLe v1 v3 := fun j h => h2 j (h1 j h)

theorem count_false_le_of_visLe :
    ∀ (v v' : List Bool), v'.length = v.length → VisLe v v' →
      v'.count false ≤ v.count false := by
  intro v
  induction v with
  | nil =>
      intro v' hlen _
      rw [List.length_nil, List.length_eq_zero] at hlen
      rw [hlen]
  | cons a t ih =>
      intro v' hlen hle
      cases v' with
      | nil => simp at hlen
      | cons a' t' =>
          have hlen' : t'.length = t.length := by simpa using hlen
          have hle' : VisLe t t' := fun j h => hle (j + 1) h
          have hhead : a = true → a' = true := hle 0
          have ht := ih t' hlen' hle'
          rw [List.count_cons, List.count_cons]
          cases a with
          | true =>
              rw [hhead rfl]
              omega
          | false =>
              have h2 : (if (a' == false) = true then 1 else 0) ≤ 1 := by
                split <;> omega
              have h3 : (if ((false : Bool) == false) = true then 1 else 0)
                  = 1 := by simp
              omega

theorem count_false_set_true :
    ∀ (v : List Bool) (k : Nat), k < v.length → v.getD k false = false →
      (v.set k true).count false + 1 = v.count false := by
  intro v
  induction v with
  | nil => intro k hk; simp at hk
  | cons a t ih =>
      intro k hk h0
      cases k with
      | zero =>
          have ha : a = false := h0
          show ((true :: t).count false) + 1 = (a :: t).count false
          rw [List.count_cons, List.count_cons, ha]
          simp
      | succ j =>
          have hj : j < t.length := by simpa using hk
          have h0' : t.getD j false = false := h0
          show ((a :: t.set j true).count false) + 1 = (a :: t).count false
          rw [List.count_cons, List.count_cons]
          have := ih j hj h0'
          omega

theorem visLe_set (v : List Bool) (k : Nat) : VisLe v (v.set k true) := by
  intro j hj
  by_cases hjk : k = j
  · subst hjk
    have hk : k < v.length := by
      by_contra hk
      push_neg at hk
      rw [List.getD, List.get?_eq_none.mpr hk] at hj
      simp at hj
    rw [getD_set_self _ _ _ _ hk]
  · rw [getD_set_ne _ _ _ _ _ hjk]
    exact hj

theorem carry_refl (g : DAGs) (i : Nat) (st : List Bool × List Nat) :
    Carry g i st st :=
  ⟨rfl, visLe_refl _, le_refl _, fun _ h => Or.inl h, fun _ h => Or.inl h⟩

theorem carry_trans {g : DAGs} {i : Nat} {st mid out : List Bool × List Nat}
    (h1 : Carry g i st mid) (h2 : Carry g i mid out) : Carry g i st out := by
  obtain ⟨l1, v1, c1, n1, s1⟩ := h1
  obtain ⟨l2, v2, c2, n2, s2⟩ := h2
  refine ⟨l2.trans l1, visLe_trans v1 v2, c2.trans c1, ?_, ?_⟩
  · intro a ha
    rcases n2 a ha with hm | hcl
    · rcases n1 a hm with hs | hcl1
      · exact Or.inl hs
      · exact Or.inr (fun b hb => v2 b (hcl1 b hb))
    · exact Or.inr hcl
  · intro j hj
    rcases s2 j hj with hm | hr
    · exact s1 j hm
    · exact Or.inr hr

theorem carry_of_step {g : DAGs} {i k : Nat} {st out : List Bool × List Nat}
    (hadj : Adj g i k) (h : Carry g k st out) : Carry g i st out := by
  obtain ⟨l1, v1, c1, n1, s1⟩ := h
  refine ⟨l1, v1, c1, n1, ?_⟩
  intro j hj
  rcases s1 j hj with hm | hr
  · exact Or.inl hm
  · exact Or.inr (Relation.ReflTransGen.head hadj hr)

theorem adj_lt {g : DAGs} (hwf : WF g) {i j : Nat} (h : Adj g i j) :
    j < g.nodes.length := by
  obtain ⟨e, _, hcase⟩ := h
  rcases hcase with ⟨_, hj⟩ | ⟨_, hj⟩ <;> exact (hwf.lookup_lt hj).1

theorem node_index_idAt {g : DAGs} (hwf : WF g)
    (hnodup : (g.nodes.map Prod.fst).Nodup) {i : Nat}
    (hi : i < g.nodes.length) : g.node_index (idAt g i) = some i := by
  have hs := hwf.2.2.2.1 i hi
  obtain ⟨k, hk⟩ := Option.isSome_iff_exists.mp hs
  obtain ⟨hklt, hkid⟩ := hwf.lookup_lt hk
  have hki : k = i := by
    have hkm : k < (g.nodes.map Prod.fst).length := by rw [List.length_map]; exact hklt
    have him : i < (g.nodes.map Prod.fst).length := by rw [List.length_map]; exact hi
    have h1 : (g.nodes.map Prod.fst)[k] = (g.nodes.map Prod.fst)[i] := by
      rw [List.getElem_map, List.getElem_map]
      have hk2 : (g.nodes[k]).1 = idAt g k := by
        rw [idAt, getD_eq_getElem _ _ _ hklt]
      have hi2 : (g.nodes[i]).1 = idAt g i := by
        rw [idAt, getD_eq_getElem _ _ _ hi]
      rw [hk2, hi2, hkid]
    exact (List.Nodup.getElem_inj_iff hnodup).mp h1
  rw [hki] at hk
  exact hk

theorem adj_symm {g : DAGs} (hwf : WF g)
    (hnodup : (g.nodes.map Prod.fst).Nodup) {i j : Nat}
    (hi : i < g.nodes.length) (h : Adj g i j) : Adj g j i := by
  obtain ⟨e, he, hcase⟩ := h
  have hj : j < g.nodes.length := adj_lt hwf ⟨e, he, hcase⟩
  rcases hcase with ⟨h1, h2⟩ | ⟨h1, h2⟩
  · refine ⟨e, he, Or.inr ⟨((hwf.lookup_lt h2).2).symm, ?_⟩⟩
    rw [h1]
    exact node_index_idAt hwf hnodup hi
  · refine ⟨e, he, Or.inl ⟨((hwf.lookup_lt h2).2).symm, ?_⟩⟩
    rw [h1]
    exact node_index_idAt hwf hnodup hi

theorem rtg_lt {g : DAGs} (hwf : WF g) {i j : Nat}
    (hi : i < g.nodes.length) (h : Relation.ReflTransGen (Adj g) i j) :
    j < g.nodes.length := by
  induction h with
  | refl => exact hi
  | tail _ hstep _ => exact adj_lt hwf hstep

theorem rtg_symm {g : DAGs} (hwf : WF g)
    (hnodup : (g.nodes.map Prod.fst).Nodup) {i j : Nat}
    (hi : i < g.nodes.length) (h : Relation.ReflTransGen (Adj g) i j) :
    Relation.ReflTransGen (Adj g) j i := by
  induction h with
  | refl => exact Relation.ReflTransGen.refl
  | tail hpath hstep ih =>
      have hb := rtg_lt hwf hi hpath
      exact Relation.ReflTransGen.head (adj_symm hwf hnodup hb hstep) ih

/-- One directional probe of the edge loop of `collect_connected`. -/
def dirStep (g : DAGs)
    (f : Nat → List Bool × List Nat → Option (List Bool × List Nat))
    (x nodeId y : Nat) (st : List Bool × List Nat) :
    Option (List Bool × List Nat) :=
  if x = nodeId then
    match g.node_index y with
    | some c => f c st
    | none => some st
  else some st

theorem collectEdgeLoop_cons (g : DAGs)
    (f : Nat → List Bool × List Nat → Option (List Bool × List Nat))
    (nodeId fr t : Nat) (rest : List (Nat × Nat)) (st : List Bool × List Nat) :
    collectEdgeLoop g f nodeId ((fr, t) :: rest) st =
      match dirStep g f fr nodeId t st with
      | none => none
      | some st1 =>
          match dirStep g f t nodeId fr st1 with
          | none => none
          | some st2 => collectEdgeLoop g f nodeId rest st2 := rfl

theorem dirStep_main (g : DAGs) (hwf : WF g) (fuel : Nat)
    (hf : ∀ (k : Nat) (st : List Bool × List Nat), k < g.nodes.length →
      st.1.length = g.nodes.length → st.1.count false + 1 ≤ fuel →
      ∃ out, collectConnectedF g fuel k st = some out ∧ StepOut g k st out)
    (i x y : Nat) (st : List Bool × List Nat)
    (hlen : st.1.length = g.nodes.length)
    (hcount : st.1.count false + 1 ≤ fuel)
    (hadj : x = idAt g i → ∀ c, g.node_index y = some c → Adj g i c) :
    ∃ out, dirStep g (collectConnectedF g fuel) x (idAt g i) y st = some out ∧
      Carry g i st out ∧
      (x = idAt g i → ∀ j, g.node_index y = some j →
        out.1.getD j false = true) := by
  rw [dirStep]
  by_cases hx : x = idAt g i
  · rw [if_pos hx]
    cases hny : g.node_index y with
    | none =>
        refine ⟨st, rfl, carry_refl g i st, ?_⟩
        intro _ j hj
        cases hj
    | some c =>
        have hc : c < g.nodes.length := (hwf.lookup_lt hny).1
        obtain ⟨out, hout, hso⟩ := hf c st hc hlen hcount
        refine ⟨out, hout, carry_of_step (hadj hx c hny) hso.1, ?_⟩
        intro _ j hj
        injection hj with hj
        rw [← hj]
        exact hso.2
  · rw [if_neg hx]
    exact ⟨st, rfl, carry_refl g i st, fun hx' => absurd hx' hx⟩

theorem collectEdgeLoop_main (g : DAGs) (hwf : WF g) (fuel : Nat)
    (hf : ∀ (k : Nat) (st : List Bool × List Nat), k < g.nodes.length →
      st.1.length = g.nodes.length → st.1.count false + 1 ≤ fuel →
      ∃ out, collectConnectedF g fuel k st = some out ∧ StepOut g k st out)
    (i : Nat) :
    ∀ (es : List (Nat × Nat)) (st : List Bool × List Nat),
      (∀ e ∈ es, e ∈ g.edges) → st.1.length = g.nodes.length →
      st.1.count false + 1 ≤ fuel →
      ∃ out, collectEdgeLoop g (collectConnectedF g fuel) (idAt g i) es st
          = some out ∧ ELOut g i es st out := by
  intro es
  induction es with
  | nil =>
      intro st _ _ _
      exact ⟨st, rfl, carry_refl g i st,
        fun e he => absurd he (List.not_mem_nil e)⟩
  | cons e rest ih =>
      obtain ⟨fr, t⟩ := e
      intro st hes hlen hcount
      have hadj1 : fr = idAt g i → ∀ c, g.node_index t = some c →
          Adj g i c := by
        intro hfr c hc
        exact ⟨(fr, t), hes (fr, t) (List.mem_cons_self _ _),
          Or.inl ⟨hfr, hc⟩⟩
      obtain ⟨o1, ho1, hc1, hm1⟩ :=
        dirStep_main g hwf fuel hf i fr t st hlen hcount hadj1
      have hlen1 : o1.1.length = g.nodes.length := by rw [hc1.1, hlen]
      have hcount1 : o1.1.count false + 1 ≤ fuel := by
        have := hc1.2.2.1
        omega
      have hadj2 : t = idAt g i → ∀ c, g.node_index fr = some c →
          Adj g i c := by
        intro ht c hc
        exact ⟨(fr, t), hes (fr, t) (List.mem_cons_self _ _),
          Or.inr ⟨ht, hc⟩⟩
      obtain ⟨o2, ho2, hc2, hm2⟩ :=
        dirStep_main g hwf fuel hf i t fr o1 hlen1 hcount1 hadj2
      have hlen2 : o2.1.length = g.nodes.length := by rw [hc2.1, hlen1]
      have hcount2 : o2.1.count false + 1 ≤ fuel := by
        have := hc2.2.2.1
        omega
      obtain ⟨out, hout, hcr, hmr⟩ :=
        ih o2 (fun e' he' => hes e' (List.mem_cons_of_mem _ he')) hlen2 hcount2
      refine ⟨out, ?_, carry_trans hc1 (carry_trans hc2 hcr), ?_⟩
      · rw [collectEdgeLoop_cons, ho1]
        dsimp only
        rw [ho2]
        dsimp only
        exact hout
      · intro e' he' j hj
        rcases List.mem_cons.mp he' with rfl | hmem
        · rcases hj with ⟨h1, h2⟩ | ⟨h1, h2⟩
          · exact hcr.2.1 j (hc2.2.1 j (hm1 h1 j h2))
          · exact hcr.2.1 j (hm2 h1 j h2)
        · exact hmr e' hmem j hj

theorem collectConnectedF_main (g : DAGs) (hwf : WF g) :
    ∀ (fuel k : Nat) (st : List Bool × List Nat), k < g.nodes.length →
      st.1.length = g.nodes.length → st.1.count false + 1 ≤ fuel →
      ∃ out, collectConnectedF g fuel k st = some out ∧ StepOut g k st out := by
  intro fuel
  induction fuel with
  | zero => intro k st _ _ hcount; omega
  | succ n ih =>
      intro k st hk hlen hcount
      by_cases hv : st.1.getD k false = true
      · refine ⟨st, ?_, carry_refl g k st, hv⟩
        rw [collectConnectedF]
        dsimp only
        rw [if_pos hv]
      · have hv' : st.1.getD k false = false := by
          revert hv
          cases st.1.getD k false <;> simp
        have hklen : k < st.1.length := by rw [hlen]; exact hk
        have hcnt : (st.1.set k true).count false + 1 = st.1.count false :=
          count_false_set_true st.1 k hklen hv'
        have hlen1 : (st.1.set k true).length = g.nodes.length := by
          rw [List.length_set]; exact hlen
        have hcnt1 : (st.1.set k true).count false + 1 ≤ n := by omega
        have hmarked : (st.1.set k true).getD k false = true :=
          getD_set_self _ _ _ _ hklen
        obtain ⟨out, hout, hcr, hnb⟩ := collectEdgeLoop_main g hwf n ih k
          g.edges (st.1.set k true, st.2 ++ [k]) (fun _ he => he) hlen1 hcnt1
        refine ⟨out, ?_, ⟨?_, ?_, ?_, ?_, ?_⟩, ?_⟩
        · rw [collectConnectedF]
          dsimp only
          rw [if_neg hv]
          rw [show (g.nodes.getD k (0, [])).1 = idAt g k from rfl]
          exact hout
        · rw [hcr.1]
          exact List.length_set _ _ _
        · exact visLe_trans
            (show VisLe st.1 (st.1.set k true) from visLe_set _ _) hcr.2.1
        · refine le_trans hcr.2.2.1 ?_
          show (st.1.set k true).count false ≤ st.1.count false
          omega
        · intro a ha
          rcases hcr.2.2.2.1 a ha with hm | hcl
          · by_cases hak : a = k
            · subst hak
              refine Or.inr (fun b hb => ?_)
              obtain ⟨e, he, hdisj⟩ := hb
              exact hnb e he b hdisj
            · left
              have hm' : (st.1.set k true).getD a false = true := hm
              rw [getD_set_ne _ _ _ _ _ (fun hh => hak hh.symm)] at hm'
              exact hm'
          · exact Or.inr hcl
        · intro j hj
          rcases hcr.2.2.2.2 j hj with hm | hr
          · by_cases hjk : j = k
            · subst hjk
              exact Or.inr Relation.ReflTransGen.refl
            · left
              have hm' : (st.1.set k true).getD j false = true := hm
              rw [getD_set_ne _ _ _ _ _ (fun hh => hjk hh.symm)] at hm'
              exact hm'
          · exact Or.inr hr
        · exact hcr.2.1 k hmarked

theorem findSubgraphsLoop_some (g : DAGs) (hwf : WF g) :
    ∀ (idxs : List Nat) (v : List Bool) (acc : List (List Nat)),
      (∀ i ∈ idxs, i < g.nodes.length) → v.length = g.nodes.length →
      ∃ out, findSubgraphsLoop g idxs v acc = some out ∧
        acc.length ≤ out.length ∧
        ((∀ i ∈ idxs, v.getD i false = true) → out = acc) ∧
        ((∃ i ∈ idxs, v.getD i false = false) →
          acc.length + 1 ≤ out.length) := by
  intro idxs
  induction idxs with
  | nil =>
      intro v acc _ _
      exact ⟨acc, rfl, le_refl _, fun _ => rfl,
        fun h => absurd h (by simp)⟩
  | cons i rest ih =>
      intro v acc hidx hlen
      by_cases hv : v.getD i false = true
      · obtain ⟨out, hout, h1, h2, h3⟩ := ih v acc
          (fun i' hi' => hidx i' (List.mem_cons_of_mem _ hi')) hlen
        refine ⟨out, ?_, h1, ?_, ?_⟩
        · rw [findSubgraphsLoop, if_pos hv]
          exact hout
        · intro hall
          exact h2 (fun i' hi' => hall i' (List.mem_cons_of_mem _ hi'))
        · rintro ⟨i', hi', hfalse⟩
          rcases List.mem_cons.mp hi' with rfl | hmem
          · rw [hv] at hfalse
            cases hfalse
          · exact h3 ⟨i', hmem, hfalse⟩
      · have hcnt : v.count false + 1 ≤ g.nodes.length + 1 := by
          have := List.count_le_length (a := false) (l := v)
          omega
        obtain ⟨out0, hout0, hso⟩ := collectConnectedF_main g hwf
          (g.nodes.length + 1) i (v, []) (hidx i (List.mem_cons_self _ _))
          hlen hcnt
        obtain ⟨v', sub⟩ := out0
        have hlen' : v'.length = g.nodes.length := by
          have h := hso.1.1
          rw [h]
          exact hlen
        obtain ⟨out, hout, h1, h2, h3⟩ := ih v' (acc ++ [sub])
          (fun i' hi' => hidx i' (List.mem_cons_of_mem _ hi')) hlen'
        refine ⟨out, ?_, ?_, ?_, ?_⟩
        · rw [findSubgraphsLoop, if_neg hv, hout0]
          exact hout
        · calc acc.length ≤ (acc ++ [sub]).length := by simp
            _ ≤ out.length := h1
        · intro hall
          exact absurd (hall i (List.mem_cons_self _ _)) hv
        · intro _
          calc acc.length + 1 = (acc ++ [sub]).length := by simp
            _ ≤ out.length := h1

theorem closed_reach_marked {g : DAGs} {v : List Bool}
    (hclosed : ∀ a b, v.getD a false = true → Adj g a b →
      v.getD b false = true)
    {i j : Nat} (hi : v.getD i false = true)
    (h : Relation.ReflTransGen (Adj g) i j) : v.getD j false = true := by
  induction h with
  | refl => exact hi
  | tail _ hstep ih => exact hclosed _ _ ih hstep

theorem getD_replicate_false (n j : Nat) :
    (List.replicate n false).getD j false = false := by
  by_cases hj : j < n
  · exact getD_replicate _ _ _ _ hj
  · rw [List.getD, List.get?_eq_none.mpr (by rw [List.length_replicate]; omega)]
    rfl

theorem findSubgraphsF_count (g : DAGs) (hwf : WF g) (hne : g.nodes ≠ []) :
    ∃ sgs, findSubgraphsF g = some sgs ∧ 1 ≤ sgs.length ∧
      (sgs.length = 1 ↔ ∀ j < g.nodes.length,
        Relation.ReflTransGen (Adj g) 0 j) := by
  obtain ⟨m, hm⟩ : ∃ m, g.nodes.length = m + 1 := by
    cases hn : g.nodes.length with
    | zero => exact absurd (List.length_eq_zero.mp hn) hne
    | succ m => exact ⟨m, rfl⟩
  have h0 : (0 : Nat) < g.nodes.length := by omega
  have hcnt : (List.replicate g.nodes.length false).count false + 1
      ≤ g.nodes.length + 1 := by
    have := List.count_le_length (a := false)
      (l := List.replicate g.nodes.length false)
    rw [List.length_replicate] at this
    omega
  obtain ⟨out0, hout0, hso⟩ := collectConnectedF_main g hwf
    (g.nodes.length + 1) 0 (List.replicate g.nodes.length false, []) h0
    (List.length_replicate _ _) hcnt
  obtain ⟨v', sub⟩ := out0
  have hlen' : v'.length = g.nodes.length := by
    have h := hso.1.1
    rw [h]
    exact List.length_replicate _ _
  have hmark0 : v'.getD 0 false = true := hso.2
  have hsound : ∀ j, v'.getD j false = true →
      Relation.ReflTransGen (Adj g) 0 j := by
    intro j hj
    rcases hso.1.2.2.2.2 j hj with hmem | hr
    · rw [getD_replicate_false] at hmem
      cases hmem
    · exact hr
  have hclosed : ∀ a b, v'.getD a false = true → Adj g a b →
      v'.getD b false = true := by
    intro a b ha hab
    rcases hso.1.2.2.2.1 a ha with hmem | hcl
    · rw [getD_replicate_false] at hmem
      cases hmem
    · exact hcl b hab
  have hrange : List.range g.nodes.length
      = 0 :: (List.range m).map Nat.succ := by
    rw [hm, List.range_succ_eq_map]
  have hstep1 : findSubgraphsF g
      = findSubgraphsLoop g ((List.range m).map Nat.succ) v' [sub] := by
    rw [findSubgraphsF, hrange, findSubgraphsLoop,
      if_neg (by rw [getD_replicate_false]; simp), hout0]
    rfl
  obtain ⟨sgs, hsgs, hlen1, hall, hex⟩ := findSubgraphsLoop_some g hwf
    ((List.range m).map Nat.succ) v' [sub]
    (by
      intro i hi
      rw [List.mem_map] at hi
      obtain ⟨k, hk, rfl⟩ := hi
      rw [List.mem_range] at hk
      omega)
    hlen'
  refine ⟨sgs, by rw [hstep1]; exact hsgs, by simpa using hlen1, ?_, ?_⟩
  · intro h1 j hj
    have hnone : ¬ ∃ i ∈ (List.range m).map Nat.succ,
        v'.getD i false = false := by
      intro hexx
      have h2 := hex hexx
      simp at h2
      omega
    have hallm : ∀ i ∈ (List.range m).map Nat.succ,
        v'.getD i false = true := by
      intro i hi
      by_contra hnot
      refine hnone ⟨i, hi, ?_⟩
      revert hnot
      cases v'.getD i false <;> simp
    cases j with
    | zero => exact Relation.ReflTransGen.refl
    | succ k =>
        refine hsound _ (hallm (k + 1) ?_)
        rw [List.mem_map]
        exact ⟨k, by rw [List.mem_range]; omega, rfl⟩
  · intro hconn
    have hallm : ∀ i ∈ (List.range m).map Nat.succ,
        v'.getD i false = true := by
      intro i hi
      have hilt : i < g.nodes.length := by
        rw [List.mem_map] at hi
        obtain ⟨k, hk, rfl⟩ := hi
        rw [List.mem_range] at hk
        omega
      exact closed_reach_marked hclosed hmark0 (hconn i hilt)
    rw [hall hallm]
    rfl

theorem get_parents_canon (g : DAGs) (hwf : WF g)
    (hnodup : (g.nodes.map Prod.fst).Nodup) {i : Nat}
    (hi : i < g.nodes.length) :
    (g.get_parents (idAt g i)).length = (parentsSpec g i).length := by
  rw [DAGs.get_parents, node_index_idAt hwf hnodup hi]
  dsimp only
  rw [List.length_map, hwf.2.2.2.2.2.2.2.2.1 i hi]

theorem get_children_canon (g : DAGs) (hwf : WF g)
    (hnodup : (g.nodes.map Prod.fst).Nodup) {i : Nat}
    (hi : i < g.nodes.length) :
    (g.get_children (idAt g i)).length = (childrenSpec g i).length := by
  rw [DAGs.get_children, node_index_idAt hwf hnodup hi]
  dsimp only
  rw [List.length_map, hwf.2.2.2.2.2.2.2.1 i hi]

theorem all_degrees_iff (g : DAGs) (hwf : WF g)
    (hnodup : (g.nodes.map Prod.fst).Nodup) :
    (g.nodes.all (fun nd =>
        decide ((g.get_parents nd.1).length ≤ 1) &&
        decide ((g.get_children nd.1).length ≤ 1)) = true) ↔
      (∀ i < g.nodes.length, (parentsSpec g i).length ≤ 1 ∧
        (childrenSpec g i).length ≤ 1) := by
  rw [List.all_eq_true]
  constructor
  · intro h i hi
    have hnd : g.nodes.getD i (0, []) ∈ g.nodes := by
      rw [getD_eq_getElem _ _ _ hi]
      exact List.getElem_mem hi
    have h2 := h _ hnd
    rw [Bool.and_eq_true, decide_eq_true_iff, decide_eq_true_iff] at h2
    have hid : (g.nodes.getD i (0, [])).1 = idAt g i := rfl
    rw [hid] at h2
    rw [← get_parents_canon g hwf hnodup hi,
      ← get_children_canon g hwf hnodup hi]
    exact h2
  · intro h nd hnd
    obtain ⟨i, hi, hndi⟩ := List.mem_iff_getElem.mp hnd
    have hid : nd.1 = idAt g i := by
      rw [← hndi, idAt, getD_eq_getElem _ _ _ hi]
    rw [Bool.and_eq_true, decide_eq_true_iff, decide_eq_true_iff, hid,
      get_parents_canon g hwf hnodup hi, get_children_canon g hwf hnodup hi]
    exact h i hi

/-- C8 (amended): for a non-empty well-formed graph with pairwise
distinct node ids whose configured mode is `Auto`, the mode resolves to
`Horizontal` exactly when all node indices are mutually connected
through the symmetric closure of the edge relation and every node has
at most one incoming and at most one outgoing edge; otherwise it
resolves to `Vertical`. -/
theorem c8_amended (g : DAGs) (hwf : WF g)
    (hnodup : (g.nodes.map Prod.fst).Nodup) (hne : g.nodes ≠ [])
    (hmode : g.render_mode = RenderMode.Auto) :
    ∃ b : Bool, isSimpleChainF g = some b ∧
      resolveModeF g = some (if b then RenderMode.Horizontal
        else RenderMode.Vertical) ∧
      (b = true ↔
        ((∀ i j, i < g.nodes.length → j < g.nodes.length →
          Relation.ReflTransGen (Adj g) i j) ∧
        (∀ i < g.nodes.length, (parentsSpec g i).length ≤ 1 ∧
          (childrenSpec g i).length ≤ 1))) := by
  obtain ⟨sgs, hsgs, h1le, hiff⟩ := findSubgraphsF_count g hwf hne
  have h0 : (0 : Nat) < g.nodes.length := by
    cases hn : g.nodes.length with
    | zero => exact absurd (List.length_eq_zero.mp hn) hne
    | succ m => omega
  have hempty : ¬ (g.nodes.isEmpty = true) := by
    cases hgn : g.nodes with
    | nil => exact absurd hgn hne
    | cons a t => simp
  have hres : ∀ (b : Bool), isSimpleChainF g = some b →
      resolveModeF g = some (if b then RenderMode.Horizontal
        else RenderMode.Vertical) := by
    intro b hb
    rw [resolveModeF, hmode]
    dsimp only
    rw [hb]
    cases b <;> rfl
  by_cases hgt : sgs.length > 1
  · have hchain : isSimpleChainF g = some false := by
      rw [isSimpleChainF, if_neg hempty, hsgs]
      dsimp only
      rw [if_pos hgt]
    refine ⟨false, hchain, hres false hchain, ?_⟩
    constructor
    · intro hb
      cases hb
    · rintro ⟨hconn, _⟩
      have : sgs.length = 1 := hiff.mpr (fun j hj => hconn 0 j h0 hj)
      omega
  · have hlen1 : sgs.length = 1 := by omega
    have hconn0 := hiff.mp hlen1
    have hchain : isSimpleChainF g = some (g.nodes.all (fun nd =>
        decide ((g.get_parents nd.1).length ≤ 1) &&
        decide ((g.get_children nd.1).length ≤ 1))) := by
      rw [isSimpleChainF, if_neg hempty, hsgs]
      dsimp only
      rw [if_neg hgt]
    refine ⟨_, hchain, hres _ hchain, ?_⟩
    constructor
    · intro hb
      refine ⟨?_, (all_degrees_iff g hwf hnodup).mp hb⟩
      intro i j hi hj
      exact (rtg_symm hwf hnodup h0 (hconn0 i hi)).trans (hconn0 j hj)
    · rintro ⟨_, hdeg⟩
      exact (all_degrees_iff g hwf hnodup).mpr hdeg

/-- The chain `1 → 2` with the edge inserted twice, used to exhibit the
Auto-mode divergence. -/
def gC8 : DAGs :=
  DAGs.add_edge (((DAGs.new.add_node 1 ['A']).add_node 2 ['B']).add_edge 1 2)
    1 2

/-- Counterexample to C8 as stated: `gC8` is non-empty, acyclic, in
`Auto` mode, forms a single connected component, and every node has at
most one distinct parent node and at most one distinct child node, yet
`Auto` resolves to `Vertical` — the code counts the duplicated edge
twice when bounding parent lists. -/
theorem c8_counterexample :
    gC8.render_mode = RenderMode.Auto ∧
    gC8.nodes ≠ [] ∧
    ¬ HasClosedWalk gC8 ∧
    (∀ i j, i < gC8.nodes.length → j < gC8.nodes.length →
      Relation.ReflTransGen (Adj gC8) i j) ∧
    (∀ i < gC8.nodes.length, ((parentsSpec gC8 i).dedup.length ≤ 1 ∧
      (childrenSpec gC8 i).dedup.length ≤ 1)) ∧
    resolveModeF gC8 = some RenderMode.Vertical := by
  have hedges : gC8.edges = [(1, 2), (1, 2)] := by decide
  refine ⟨by decide, by decide, ?_, ?_, by decide, by decide⟩
  · rintro ⟨x, hx⟩
    obtain ⟨b, hb, hrest⟩ := (Relation.TransGen.head'_iff).mp hx
    have hb' : (x, b) ∈ gC8.edges := hb
    rw [hedges] at hb'
    have hxb : x = 1 ∧ b = 2 := by
      rcases List.mem_cons.mp hb' with h | h
      · rw [Prod.mk.injEq] at h
        exact h
      · rw [List.mem_singleton, Prod.mk.injEq] at h
        exact h
    obtain ⟨rfl, rfl⟩ := hxb
    rcases Relation.ReflTransGen.cases_head hrest with h21 | ⟨c, hc, _⟩
    · exact absurd h21 (by decide)
    · have hc' : ((2 : Nat), c) ∈ gC8.edges := hc
      rw [hedges] at hc'
      rcases List.mem_cons.mp hc' with h | h
      · rw [Prod.mk.injEq] at h
        exact absurd h.1 (by decide)
      · rw [List.mem_singleton, Prod.mk.injEq] at h
        exact absurd h.1 (by decide)
  · have hadj01 : Adj gC8 0 1 :=
      ⟨(1, 2), by rw [hedges]; exact List.mem_cons_self _ _,
        Or.inl ⟨by decide, by decide⟩⟩
    have hadj10 : Adj gC8 1 0 :=
      ⟨(1, 2), by rw [hedges]; exact List.mem_cons_self _ _,
        Or.inr ⟨by decide, by decide⟩⟩
    have hn2 : gC8.nodes.length = 2 := by decide
    intro i j hi hj
    rw [hn2] at hi hj
    interval_cases i <;> interval_cases j
    · exact Relation.ReflTransGen.refl
    · exact Relation.ReflTransGen.single hadj01
    · exact Relation.ReflTransGen.single hadj10
    · exact Relation.ReflTransGen.refl

/-- Witness for C8 (amended) at a concrete input. -/
theorem c8_witness :
    (WF gC4 ∧ ((gC4.nodes.map Prod.fst).Nodup) ∧ gC4.nodes ≠ [] ∧
      gC4.render_mode = RenderMode.Auto) ∧
    (∃ b : Bool, isSimpleChainF gC4 = some b ∧
      resolveModeF gC4 = some (if b then RenderMode.Horizontal
        else RenderMode.Vertical) ∧
      (b = true ↔
        ((∀ i j, i < gC4.nodes.length → j < gC4.nodes.length →
          Relation.ReflTransGen (Adj gC4) i j) ∧
        (∀ i < gC4.nodes.length, (parentsSpec gC4 i).length ≤ 1 ∧
          (childrenSpec gC4 i).length ≤ 1)))) :=
  ⟨⟨by decide, by decide, by decide, by decide⟩,
    c8_amended gC4 (by decide) (by decide) (by decide) (by decide)⟩

/-! ## Cycle-detection correctness -/

/-- The directed child relation on node indices explored by
`has_cycle_util`: an edge whose source id is the node's id, with the
target resolved through the id map. -/
def DAdj (g : DAGs) (i j : Nat) : Prop :=
  ∃ e ∈ g.edges, e.1 = idAt g i ∧ g.node_index e.2 = some j

/-- An index is safe when nothing reachable from it (along directed
edges) lies on a directed cycle. -/
def Safe (g : DAGs) (a : Nat) : Prop :=
  ¬ ∃ b, Relation.ReflTransGen (DAdj g) a b ∧ Relation.TransGen (DAdj g) b b

/-- The invariant of the DFS of `has_cycle`: every visited index is
either on the recursion stack or safe. -/
def BlackSafe (g : DAGs) (v r : List Bool) : Prop :=
  ∀ a, v.getD a false = true → r.getD a false = true ∨ Safe g a

theorem safe_of_children (g : DAGs) (idx : Nat)
    (hch : ∀ c, DAdj g idx c → Safe g c) : Safe g idx := by
  rintro ⟨b, hab, hcyc⟩
  rcases Relation.ReflTransGen.cases_head hab with hrfl | ⟨c, hc, hcb⟩
  · subst hrfl
    obtain ⟨c, hc, hcb⟩ := (Relation.TransGen.head'_iff).mp hcyc
    exact hch c hc ⟨idx, hcb, hcyc⟩
  · exact hch c hc ⟨b, hcb, hcyc⟩

theorem dadj_to_edgeRel (g : DAGs) (hwf : WF g) {i j : Nat} (h : DAdj g i j) :
    EdgeRel g (idAt g i) (idAt g j) := by
  obtain ⟨e, he, h1, h2⟩ := h
  have h3 : idAt g j = e.2 := (hwf.lookup_lt h2).2
  show (idAt g i, idAt g j) ∈ g.edges
  rw [← h1, h3]
  exact he

theorem dadj_cycle_closedWalk (g : DAGs) (hwf : WF g) (i : Nat)
    (h : Relation.TransGen (DAdj g) i i) : HasClosedWalk g :=
  ⟨idAt g i, Relation.TransGen.lift (idAt g)
    (fun _ _ hab => dadj_to_edgeRel g hwf hab) h⟩

theorem closedWalk_dadj (g : DAGs) (hwf : WF g) (h : HasClosedWalk g) :
    ∃ i, Relation.TransGen (DAdj g) i i := by
  obtain ⟨x, hx⟩ := h
  obtain ⟨c0, hc0, _⟩ := (Relation.TransGen.head'_iff).mp hx
  have hxi : (g.node_index x).isSome = true := (hwf.2.2.1 (x, c0) hc0).1
  obtain ⟨ix, hix⟩ := Option.isSome_iff_exists.mp hxi
  refine ⟨ix, ?_⟩
  have main : ∀ y, Relation.TransGen (EdgeRel g) x y →
      ∀ iy, g.node_index y = some iy →
      Relation.TransGen (DAdj g) ix iy := by
    intro y hxy
    induction hxy with
    | single hstep =>
        intro iy hiy
        exact Relation.TransGen.single
          ⟨(x, _), hstep, ((hwf.lookup_lt hix).2).symm, hiy⟩
    | tail hxz hzy ih =>
        intro iy hiy
        have hzsome : (g.node_index _).isSome = true :=
          (hwf.2.2.1 _ hzy).1
        obtain ⟨iz, hiz⟩ := Option.isSome_iff_exists.mp hzsome
        exact Relation.TransGen.tail (ih iz hiz)
          ⟨_, hzy, ((hwf.lookup_lt hiz).2).symm, hiy⟩
  exact main x hx ix hix

theorem hasCycleUtilF_main (g : DAGs) (hwf : WF g) :
    ∀ (fuel k : Nat) (v r : List Bool), k < g.nodes.length →
      v.length = g.nodes.length → r.length = g.nodes.length →
      v.count false + 1 ≤ fuel →
      ∃ out, hasCycleUtilF g fuel k v r = some out ∧
        (out.1 = true →
          (∀ a, r.getD a false = true → Relation.TransGen (DAdj g) a k) →
          ∃ i, Relation.TransGen (DAdj g) i i) ∧
        (out.1 = false → out.2.2 = r ∧ out.2.1.length = v.length ∧
          VisLe v out.2.1 ∧ out.2.1.count false ≤ v.count false ∧
          out.2.1.getD k false = true ∧ r.getD k false = false ∧
          (BlackSafe g v r → BlackSafe g out.2.1 r)) := by
  intro fuel
  induction fuel with
  | zero => intro k v r _ _ _ hcount; omega
  | succ n ih =>
      intro k v r hk hlenv hlenr hcount
      by_cases hrk : r.getD k false = true
      · refine ⟨(true, v, r), ?_, ?_, ?_⟩
        · rw [hasCycleUtilF]
          dsimp only
          rw [if_pos hrk]
        · intro _ hpre
          exact ⟨k, hpre k hrk⟩
        · intro hfalse
          cases hfalse
      · have hrk' : r.getD k false = false := by
          revert hrk
          cases r.getD k false <;> simp
        by_cases hvk : v.getD k false = true
        · refine ⟨(false, v, r), ?_, ?_, ?_⟩
          · rw [hasCycleUtilF]
            dsimp only
            rw [if_neg (by rw [hrk']; simp), if_pos hvk]
          · intro htrue
            cases htrue
          · intro _
            exact ⟨rfl, rfl, visLe_refl _, le_refl _, hvk, hrk',
              fun h => h⟩
        · have hvk' : v.getD k false = false := by
            revert hvk
            cases v.getD k false <;> simp
          have hklen : k < v.length := by rw [hlenv]; exact hk
          have hklenr : k < r.length := by rw [hlenr]; exact hk
          have hcnt : (v.set k true).count false + 1 = v.count false :=
            count_false_set_true v k hklen hvk'
          have hloop : ∀ (es : List (Nat × Nat)) (v0 r0 : List Bool),
              (∀ e ∈ es, e ∈ g.edges) → v0.length = g.nodes.length →
              r0.length = g.nodes.length → v0.count false + 1 ≤ n →
              ∃ out, cycleEdgeLoop g (hasCycleUtilF g n) (idAt g k) es v0 r0
                  = some out ∧
                (out.1 = true →
                  (∀ c, DAdj g k c → ∀ a, r0.getD a false = true →
                    Relation.TransGen (DAdj g) a c) →
                  ∃ i, Relation.TransGen (DAdj g) i i) ∧
                (out.1 = false → out.2.2 = r0 ∧ out.2.1.length = v0.length ∧
                  VisLe v0 out.2.1 ∧ out.2.1.count false ≤ v0.count false ∧
                  (BlackSafe g v0 r0 → BlackSafe g out.2.1 r0) ∧
                  (∀ e ∈ es, ∀ c, e.1 = idAt g k →
                    g.node_index e.2 = some c →
                    out.2.1.getD c false = true ∧
                    r0.getD c false = false)) := by
            intro es
            induction es with
            | nil =>
                intro v0 r0 _ _ _ _
                refine ⟨(false, v0, r0), rfl, ?_, ?_⟩
                · intro htrue
                  cases htrue
                · intro _
                  exact ⟨rfl, rfl, visLe_refl _, le_refl _, fun h => h,
                    fun e he => absurd he (List.not_mem_nil e)⟩
            | cons e rest ihes =>
                obtain ⟨fr, t⟩ := e
                intro v0 r0 hes hl0 hl0r hc0
                by_cases hfr : fr = idAt g k
                · cases hnt : g.node_index t with
                  | none =>
                      obtain ⟨out, hout, hA, hB⟩ := ihes v0 r0
                        (fun e' he' => hes e' (List.mem_cons_of_mem _ he'))
                        hl0 hl0r hc0
                      refine ⟨out, ?_, hA, ?_⟩
                      · rw [cycleEdgeLoop, if_pos hfr, hnt]
                        exact hout
                      · intro hf0
                        obtain ⟨e1, e2, e3, e4, e5, e6⟩ := hB hf0
                        refine ⟨e1, e2, e3, e4, e5, ?_⟩
                        intro e' he' c h1 h2
                        rcases List.mem_cons.mp he' with hrfl | hmem
                        · rw [hrfl] at h2
                          rw [h2] at hnt
                          cases hnt
                        · exact e6 e' hmem c h1 h2
                  | some ci =>
                      have hci : ci < g.nodes.length := (hwf.lookup_lt hnt).1
                      obtain ⟨oc, hoc, hcT, hcF⟩ := ih ci v0 r0 hci hl0 hl0r hc0
                      obtain ⟨bc, vc, rc⟩ := oc
                      have hDAdj : DAdj g k ci :=
                        ⟨(fr, t), hes (fr, t) (List.mem_cons_self _ _),
                          hfr, hnt⟩
                      cases bc with
                      | true =>
                          refine ⟨(true, vc, rc), ?_, ?_, ?_⟩
                          · rw [cycleEdgeLoop, if_pos hfr, hnt]
                            dsimp only
                            rw [hoc]
                          · intro _ hpre
                            exact hcT rfl (hpre ci hDAdj)
                          · intro hfalse
                            cases hfalse
                      | false =>
                          dsimp only at hcF
                          obtain ⟨f1, f2, f3, f4, f5, f6, f7⟩ := hcF rfl
                          have hrc : rc = r0 := f1
                          obtain ⟨out, hout, hA, hB⟩ := ihes vc r0
                            (fun e' he' => hes e' (List.mem_cons_of_mem _ he'))
                            (by rw [f2]; exact hl0) hl0r (by omega)
                          refine ⟨out, ?_, ?_, ?_⟩
                          · rw [cycleEdgeLoop, if_pos hfr, hnt]
                            dsimp only
                            rw [hoc, hrc]
                            exact hout
                          · intro ht1 hpre
                            exact hA ht1 hpre
                          · intro hf0
                            obtain ⟨e1, e2, e3, e4, e5, e6⟩ := hB hf0
                            refine ⟨e1, by rw [e2, f2], visLe_trans f3 e3,
                              le_trans e4 f4, ?_, ?_⟩
                            · intro hbs
                              exact e5 (f7 hbs)
                            · intro e' he' c h1 h2
                              rcases List.mem_cons.mp he' with hrfl | hmem
                              · have hct : c = ci := by
                                  rw [hrfl] at h2
                                  have h2' : g.node_index t = some c := h2
                                  rw [hnt] at h2'
                                  injection h2' with hx
                                  exact hx.symm
                                subst hct
                                exact ⟨e3 c f5, f6⟩
                              · exact e6 e' hmem c h1 h2
                · obtain ⟨out, hout, hA, hB⟩ := ihes v0 r0
                    (fun e' he' => hes e' (List.mem_cons_of_mem _ he'))
                    hl0 hl0r hc0
                  refine ⟨out, ?_, hA, ?_⟩
                  · rw [cycleEdgeLoop, if_neg hfr]
                    exact hout
                  · intro hf0
                    obtain ⟨e1, e2, e3, e4, e5, e6⟩ := hB hf0
                    refine ⟨e1, e2, e3, e4, e5, ?_⟩
                    intro e' he' c h1 h2
                    rcases List.mem_cons.mp he' with hrfl | hmem
                    · rw [hrfl] at h1
                      exact absurd h1 hfr
                    · exact e6 e' hmem c h1 h2
          obtain ⟨outl, houtl, hlT, hlF⟩ := hloop g.edges (v.set k true)
            (r.set k true) (fun _ he => he)
            (by rw [List.length_set]; exact hlenv)
            (by rw [List.length_set]; exact hlenr)
            (by omega)
          obtain ⟨bl, vl, rl⟩ := outl
          cases bl with
          | true =>
              refine ⟨(true, vl, rl), ?_, ?_, ?_⟩
              · rw [hasCycleUtilF]
                dsimp only
                rw [if_neg (by rw [hrk']; simp),
                  if_neg (by rw [hvk']; simp)]
                rw [show (g.nodes.getD k (0, [])).1 = idAt g k from rfl, houtl]
              · intro _ hpre
                refine hlT rfl ?_
                intro c hDAdj a ha
                by_cases hak : a = k
                · subst hak
                  exact Relation.TransGen.single hDAdj
                · have ha' : r.getD a false = true := by
                    rw [getD_set_ne _ _ _ _ _ (fun hh => hak hh.symm)] at ha
                    exact ha
                  exact Relation.TransGen.tail (hpre a ha')
                    hDAdj
              · intro hfalse
                cases hfalse
          | false =>
              dsimp only at hlF
              obtain ⟨f1, f2, f3, f4, f5, f6⟩ := hlF rfl
              have hrl : rl = r.set k true := f1
              refine ⟨(false, vl, rl.set k false), ?_, ?_, ?_⟩
              · rw [hasCycleUtilF]
                dsimp only
                rw [if_neg (by rw [hrk']; simp),
                  if_neg (by rw [hvk']; simp)]
                rw [show (g.nodes.getD k (0, [])).1 = idAt g k from rfl, houtl]
              · intro htrue
                cases htrue
              · intro _
                have hrback : rl.set k false = r := by
                  rw [hrl, List.set_set]
                  exact set_eq_self_of_getD r k false false hklenr hrk'
                have hmarkedk : vl.getD k false = true :=
                  f3 k (getD_set_self _ _ _ _ hklen)
                refine ⟨hrback, by dsimp only; rw [f2, List.length_set],
                  visLe_trans (visLe_set v k) f3, by dsimp only; omega,
                  hmarkedk, hrk', ?_⟩
                intro hbs
                have hbs1 : BlackSafe g (v.set k true) (r.set k true) := by
                  intro a ha
                  by_cases hak : a = k
                  · subst hak
                    exact Or.inl (getD_set_self _ _ _ _ hklenr)
                  · rw [getD_set_ne _ _ _ _ _ (fun hh => hak hh.symm)] at ha
                    rcases hbs a ha with hg | hs
                    · exact Or.inl (visLe_set r k a hg)
                    · exact Or.inr hs
                have hbs2 : BlackSafe g vl (r.set k true) := f5 hbs1
                have hchSafe : ∀ c, DAdj g k c → Safe g c := by
                  intro c hDAdj
                  obtain ⟨e, he, h1, h2⟩ := hDAdj
                  obtain ⟨hcm, hcr⟩ := f6 e he c h1 h2
                  rcases hbs2 c hcm with hg | hs
                  · rw [hg] at hcr
                    cases hcr
                  · exact hs
                have hSafek : Safe g k := safe_of_children g k hchSafe
                intro a ha
                rcases hbs2 a ha with hg | hs
                · by_cases hak : a = k
                  · subst hak
                    exact Or.inr hSafek
                  · rw [getD_set_ne _ _ _ _ _ (fun hh => hak hh.symm)] at hg
                    exact Or.inl hg
                · exact Or.inr hs

theorem hasCycleLoop_main (g : DAGs) (hwf : WF g) :
    ∀ (idxs : List Nat) (v : List Bool),
      (∀ i ∈ idxs, i < g.nodes.length) → v.length = g.nodes.length →
      BlackSafe g v (List.replicate g.nodes.length false) →
      ∃ b, hasCycleLoop g idxs v (List.replicate g.nodes.length false)
          = some b ∧
        (b = true → ∃ i, Relation.TransGen (DAdj g) i i) ∧
        (b = false → ∀ i ∈ idxs, Safe g i) := by
  intro idxs
  induction idxs with
  | nil =>
      intro v _ _ _
      refine ⟨false, rfl, fun h => absurd h (by simp), ?_⟩
      intro _ i hi
      exact absurd hi (List.not_mem_nil i)
  | cons i rest ih =>
      intro v hidx hlen hbs
      have hcnt : v.count false + 1 ≤ g.nodes.length + 1 := by
        have := List.count_le_length (a := false) (l := v)
        omega
      obtain ⟨out, hout, hT, hF⟩ := hasCycleUtilF_main g hwf
        (g.nodes.length + 1) i v (List.replicate g.nodes.length false)
        (hidx i (List.mem_cons_self _ _)) hlen (List.length_replicate _ _)
        hcnt
      obtain ⟨b0, v', r'⟩ := out
      cases b0 with
      | true =>
          refine ⟨true, ?_, ?_, ?_⟩
          · rw [hasCycleLoop, hout]
          · intro _
            refine hT rfl ?_
            intro a ha
            rw [getD_replicate_false] at ha
            cases ha
          · intro h
            cases h
      | false =>
          dsimp only at hF
          obtain ⟨f1, f2, f3, f4, f5, f6, f7⟩ := hF rfl
          have hbs' : BlackSafe g v' (List.replicate g.nodes.length false) :=
            f7 hbs
          have hSafei : Safe g i := by
            rcases hbs' i f5 with hg | hs
            · rw [getD_replicate_false] at hg
              cases hg
            · exact hs
          obtain ⟨b, hb, hbT, hbF⟩ := ih v'
            (fun i' hi' => hidx i' (List.mem_cons_of_mem _ hi'))
            (by rw [f2]; exact hlen) hbs'
          refine ⟨b, ?_, hbT, ?_⟩
          · rw [hasCycleLoop, hout, f1]
            exact hb
          · intro hbf i' hi'
            rcases List.mem_cons.mp hi' with hrfl | hmem
            · rw [hrfl]
              exact hSafei
            · exact hbF hbf i' hmem

/-- `has_cycle` terminates with fuel `n+1` per start and decides the
existence of a closed walk in the edge set. -/
theorem hasCycleF_correct (g : DAGs) (hwf : WF g) :
    ∃ b, hasCycleF g = some b ∧ (b = true ↔ HasClosedWalk g) := by
  obtain ⟨b, hb, hT, hF⟩ := hasCycleLoop_main g hwf
    (List.range g.nodes.length) (List.replicate g.nodes.length false)
    (by
      intro i hi
      rw [List.mem_range] at hi
      exact hi)
    (List.length_replicate _ _)
    (by
      intro a ha
      rw [getD_replicate_false] at ha
      cases ha)
  refine ⟨b, hb, ?_, ?_⟩
  · intro hbt
    obtain ⟨i, hcyc⟩ := hT hbt
    exact dadj_cycle_closedWalk g hwf i hcyc
  · intro hcw
    cases hbv : b with
    | true => rfl
    | false =>
        exfalso
        obtain ⟨i, hcyc⟩ := closedWalk_dadj g hwf hcw
        have hi : i < g.nodes.length := by
          obtain ⟨c, _, hstep⟩ := (Relation.TransGen.tail'_iff).mp hcyc
          obtain ⟨e, he, _, h2⟩ := hstep
          exact (hwf.lookup_lt h2).1
        have := hF hbv i (by rw [List.mem_range]; exact hi)
        exact this ⟨i, Relation.ReflTransGen.refl, hcyc⟩

theorem findCycleFromF_total (g : DAGs) (hwf : WF g) :
    ∀ (fuel k : Nat) (v : List Bool) (p : List Nat),
      k < g.nodes.length → v.length = g.nodes.length →
      v.count false + 1 ≤ fuel →
      ∃ out, findCycleFromF g fuel k v p = some out ∧
        out.2.1.length = v.length ∧ VisLe v out.2.1 ∧
        out.2.1.count false ≤ v.count false := by
  intro fuel
  induction fuel with
  | zero => intro k v p _ _ hcount; omega
  | succ n ih =>
      intro k v p hk hlen hcount
      by_cases hv : v.getD k false = true
      · cases hfi : p.findIdx? (fun idx => idx = k) with
        | some cycleStart =>
            refine ⟨(some ((p.drop cycleStart).map
              (fun idx => (g.nodes.getD idx (0, [])).1)), v, p), ?_,
              rfl, visLe_refl _, le_refl _⟩
            rw [findCycleFromF]
            dsimp only
            rw [if_pos hv, hfi]
        | none =>
            refine ⟨(none, v, p), ?_, rfl, visLe_refl _, le_refl _⟩
            rw [findCycleFromF]
            dsimp only
            rw [if_pos hv, hfi]
      · have hv' : v.getD k false = false := by
          revert hv
          cases v.getD k false <;> simp
        have hklen : k < v.length := by rw [hlen]; exact hk
        have hcnt : (v.set k true).count false + 1 = v.count false :=
          count_false_set_true v k hklen hv'
        have hloop : ∀ (es : List (Nat × Nat)) (v0 : List Bool)
            (p0 : List Nat), v0.length = g.nodes.length →
            v0.count false + 1 ≤ n →
            ∃ out, findCycleEdgeLoop g (findCycleFromF g n)
                (idAt g k) es v0 p0 = some out ∧
              out.2.1.length = v0.length ∧ VisLe v0 out.2.1 ∧
              out.2.1.count false ≤ v0.count false := by
          intro es
          induction es with
          | nil =>
              intro v0 p0 _ _
              exact ⟨(none, v0, p0), rfl, rfl, visLe_refl _, le_refl _⟩
          | cons e rest ihes =>
              obtain ⟨fr, t⟩ := e
              intro v0 p0 hl0 hc0
              by_cases hfr : fr = idAt g k
              · cases hnt : g.node_index t with
                | none =>
                    obtain ⟨out, hout, h1, h2, h3⟩ := ihes v0 p0 hl0 hc0
                    refine ⟨out, ?_, h1, h2, h3⟩
                    rw [findCycleEdgeLoop, if_pos hfr, hnt]
                    exact hout
                | some ci =>
                    have hci : ci < g.nodes.length := (hwf.lookup_lt hnt).1
                    obtain ⟨oc, hoc, g1, g2, g3⟩ := ih ci v0 p0 hci hl0 hc0
                    obtain ⟨cy, vc, pc⟩ := oc
                    dsimp only at g1 g2 g3
                    cases cy with
                    | some cyc =>
                        refine ⟨(some cyc, vc, pc), ?_, g1, g2, g3⟩
                        rw [findCycleEdgeLoop, if_pos hfr, hnt]
                        dsimp only
                        rw [hoc]
                    | none =>
                        obtain ⟨out, hout, h1, h2, h3⟩ := ihes vc pc
                          (by rw [g1]; exact hl0) (by omega)
                        refine ⟨out, ?_, by rw [h1, g1],
                          visLe_trans g2 h2, le_trans h3 g3⟩
                        rw [findCycleEdgeLoop, if_pos hfr, hnt]
                        dsimp only
                        rw [hoc]
                        exact hout
              · obtain ⟨out, hout, h1, h2, h3⟩ := ihes v0 p0 hl0 hc0
                refine ⟨out, ?_, h1, h2, h3⟩
                rw [findCycleEdgeLoop, if_neg hfr]
                exact hout
        obtain ⟨outl, houtl, l1, l2, l3⟩ := hloop g.edges (v.set k true)
          (p ++ [k]) (by rw [List.length_set]; exact hlen) (by omega)
        obtain ⟨cy, vl, pl⟩ := outl
        dsimp only at l1 l2 l3
        cases cy with
        | some cyc =>
            refine ⟨(some cyc, vl, pl), ?_, by rw [l1, List.length_set],
              visLe_trans (visLe_set v k) l2, by dsimp only; omega⟩
            rw [findCycleFromF]
            dsimp only
            rw [if_neg (by rw [hv']; simp)]
            rw [show (g.nodes.getD k (0, [])).1 = idAt g k from rfl, houtl]
        | none =>
            refine ⟨(none, vl, pl.dropLast), ?_,
              by rw [l1, List.length_set],
              visLe_trans (visLe_set v k) l2, by dsimp only; omega⟩
            rw [findCycleFromF]
            dsimp only
            rw [if_neg (by rw [hv']; simp)]
            rw [show (g.nodes.getD k (0, [])).1 = idAt g k from rfl, houtl]

theorem findCyclePathF_total (g : DAGs) (hwf : WF g) :
    ∃ res, findCyclePathF g = some res := by
  rw [findCyclePathF]
  have main : ∀ idxs : List Nat, (∀ i ∈ idxs, i < g.nodes.length) →
      ∃ res, findCyclePathLoop g idxs = some res := by
    intro idxs
    induction idxs with
    | nil => exact fun _ => ⟨none, rfl⟩
    | cons i rest ih =>
        intro hidx
        have hcnt : (List.replicate g.nodes.length false).count false + 1
            ≤ g.nodes.length + 1 := by
          have := List.count_le_length (a := false)
            (l := List.replicate g.nodes.length false)
          rw [List.length_replicate] at this
          omega
        obtain ⟨out, hout, _, _, _⟩ := findCycleFromF_total g hwf
          (g.nodes.length + 1) i (List.replicate g.nodes.length false) []
          (hidx i (List.mem_cons_self _ _)) (List.length_replicate _ _) hcnt
        obtain ⟨cy, vl, pl⟩ := out
        cases cy with
        | some cyc =>
            refine ⟨some cyc, ?_⟩
            rw [findCyclePathLoop, hout]
        | none =>
            obtain ⟨res, hres⟩ := ih
              (fun i' hi' => hidx i' (List.mem_cons_of_mem _ hi'))
            refine ⟨res, ?_⟩
            rw [findCyclePathLoop, hout]
            exact hres
  exact main (List.range g.nodes.length)
    (by
      intro i hi
      rw [List.mem_range] at hi
      exact hi)

theorem renderCycleF_some (g : DAGs) (hwf : WF g) :
    ∃ s, renderCycleF g = some s ∧
      (("⚠️  CYCLE DETECTED - Not a valid DAG\n").data ++ ['\n']) <+: s := by
  obtain ⟨res, hres⟩ := findCyclePathF_total g hwf
  cases res with
  | some cyc =>
      rw [renderCycleF, hres]
      refine ⟨_, rfl, ?_⟩
      refine ⟨("Cyclic dependency chain:\n").data ++ renderCycleChain g cyc
        ++ ['\n'] ++ ['\n']
        ++ ("This creates an infinite loop in error dependencies.\n").data,
        ?_⟩
      simp [List.append_assoc]
  | none =>
      rw [renderCycleF, hres]
      refine ⟨_, rfl, ?_⟩
      exact ⟨("Complex cycle detected in graph.\n").data, rfl⟩

theorem levelPassSubStep_cases (g : DAGs) (sids : List Nat)
    (acc : List Nat × Bool) (e : Nat × Nat) :
    levelPassSubStep g sids acc e = acc ∨
    levelPassSubStep g sids acc e = levelPassStep g acc e := by
  rw [levelPassSubStep]
  by_cases hc : ¬ sids.contains e.1 = true ∨ ¬ sids.contains e.2 = true
  · rw [if_pos hc]
    exact Or.inl rfl
  · rw [if_neg hc]
    exact Or.inr rfl

theorem foldl_levelPassSubStep_len (g : DAGs) (sids : List Nat) :
    ∀ (es : List (Nat × Nat)) (acc : List Nat × Bool),
      (es.foldl (levelPassSubStep g sids) acc).1.length = acc.1.length := by
  intro es
  induction es with
  | nil => intro acc; rfl
  | cons e es ih =>
      intro acc
      rw [List.foldl_cons, ih]
      rcases levelPassSubStep_cases g sids acc e with hc | hc
      · rw [hc]
      · rw [hc, levelPassStep_len]

theorem levelPassSubStep_flag (g : DAGs) (sids : List Nat)
    (acc : List Nat × Bool) (e : Nat × Nat) (h : acc.2 = true) :
    (levelPassSubStep g sids acc e).2 = true := by
  rcases levelPassSubStep_cases g sids acc e with hc | hc
  · rw [hc]; exact h
  · rw [hc]; exact levelPassStep_flag g acc e h

theorem foldl_levelPassSubStep_sum (g : DAGs) (hwf : WF g) (sids : List Nat) :
    ∀ (es : List (Nat × Nat)) (acc : List Nat × Bool),
      (∀ e ∈ es, e ∈ g.edges) → acc.1.length = g.nodes.length →
      acc.1.sum ≤ (es.foldl (levelPassSubStep g sids) acc).1.sum ∧
      ((es.foldl (levelPassSubStep g sids) acc).2 = true →
        acc.2 = true ∨
        acc.1.sum < (es.foldl (levelPassSubStep g sids) acc).1.sum) := by
  intro es
  induction es with
  | nil => intro acc _ _; exact ⟨le_refl _, fun h => Or.inl h⟩
  | cons e es ih =>
      intro acc hes hlen
      rw [List.foldl_cons]
      have hslen : (levelPassSubStep g sids acc e).1.length
          = g.nodes.length := by
        rcases levelPassSubStep_cases g sids acc e with hc | hc
        · rw [hc]; exact hlen
        · rw [hc, levelPassStep_len]; exact hlen
      obtain ⟨h1, h2⟩ := ih (levelPassSubStep g sids acc e)
        (fun e' he' => hes e' (List.mem_cons_of_mem _ he')) hslen
      have hse : acc.1.sum ≤ (levelPassSubStep g sids acc e).1.sum ∧
          ((levelPassSubStep g sids acc e).2 = true →
            acc.2 = true ∨
            acc.1.sum < (levelPassSubStep g sids acc e).1.sum) := by
        rcases levelPassSubStep_cases g sids acc e with hc | hc
        · rw [hc]
          exact ⟨le_refl _, fun h => Or.inl h⟩
        · rw [hc]
          exact levelPassStep_sum g hwf acc e
            (hes e (List.mem_cons_self _ _)) hlen
      refine ⟨le_trans hse.1 h1, fun hflag => ?_⟩
      rcases h2 hflag with hf | hlt
      · rcases hse.2 hf with ha | hlt'
        · exact Or.inl ha
        · exact Or.inr (lt_of_lt_of_le hlt' h1)
      · exact Or.inr (lt_of_le_of_lt hse.1 hlt)

theorem foldl_levelPassSubStep_walk (g : DAGs) (hwf : WF g)
    (sids : List Nat) :
    ∀ (es : List (Nat × Nat)) (acc : List Nat × Bool),
      (∀ e ∈ es, e ∈ g.edges) → acc.1.length = g.nodes.length →
      WalkInv g acc.1 →
      WalkInv g (es.foldl (levelPassSubStep g sids) acc).1 := by
  intro es
  induction es with
  | nil => intro acc _ _ h; exact h
  | cons e es ih =>
      intro acc hes hlen hinv
      rw [List.foldl_cons]
      have hslen : (levelPassSubStep g sids acc e).1.length
          = g.nodes.length := by
        rcases levelPassSubStep_cases g sids acc e with hc | hc
        · rw [hc]; exact hlen
        · rw [hc, levelPassStep_len]; exact hlen
      refine ih _ (fun e' he' => hes e' (List.mem_cons_of_mem _ he'))
        hslen ?_
      rcases levelPassSubStep_cases g sids acc e with hc | hc
      · rw [hc]; exact hinv
      · rw [hc]
        exact levelPassStep_walk g hwf acc e
          (hes e (List.mem_cons_self _ _)) hlen hinv

theorem levelLoopSubF_term (g : DAGs) (hwf : WF g)
    (hacyc : ¬ HasClosedWalk g) (sids : List Nat) :
    ∀ (fuel : Nat) (lv : List Nat), lv.length = g.nodes.length →
      WalkInv g lv →
      g.nodes.length * g.nodes.length + 1 ≤ lv.sum + fuel →
      (levelLoopSubF g sids fuel lv).isSome = true := by
  intro fuel
  induction fuel with
  | zero =>
      intro lv hlen hinv hge
      exfalso
      have hb := walkInv_le g hwf hacyc lv hinv
      have hsum := sum_le_of_getD_le lv g.nodes.length g.nodes.length hlen hb
      omega
  | succ n ih =>
      intro lv hlen hinv hge
      rw [levelLoopSubF]
      dsimp only
      split
      · next hch =>
          apply ih
          · rw [show (levelPassSub g sids lv).1.length
                = (g.edges.foldl (levelPassSubStep g sids) (lv, false)).1.length
                from rfl, foldl_levelPassSubStep_len]
            exact hlen
          · exact foldl_levelPassSubStep_walk g hwf sids g.edges (lv, false)
              (fun _ he => he) hlen hinv
          · obtain ⟨h1, h2⟩ := foldl_levelPassSubStep_sum g hwf sids g.edges
              (lv, false) (fun _ he => he) hlen
            rcases h2 hch with hfalse | hlt
            · simp at hfalse
            · have : lv.sum + 1 ≤ (levelPassSub g sids lv).1.sum := hlt
              omega
      · rfl

theorem calculateLevelsForSubgraphF_some (g : DAGs) (hwf : WF g)
    (hacyc : ¬ HasClosedWalk g) (sidxs : List Nat) :
    ∃ ld, calculateLevelsForSubgraphF g sidxs = some ld := by
  have hterm := levelLoopSubF_term g hwf hacyc
    (sidxs.map (fun idx => (g.nodes.getD idx (0, [])).1))
    (g.nodes.length * g.nodes.length + 1)
    (List.replicate g.nodes.length 0) (List.length_replicate _ _)
    (fun i hi hpos => absurd hpos (by rw [getD_replicate _ _ _ _ hi]; simp))
    (by rw [List.sum_replicate]; simp)
  obtain ⟨lv, hlv⟩ := Option.isSome_iff_exists.mp hterm
  refine ⟨sidxs.map (fun idx => (idx, lv.getD idx 0)), ?_⟩
  rw [calculateLevelsForSubgraphF, hlv]

theorem mem_childrenSpec_index {g : DAGs} {i c : Nat}
    (h : c ∈ childrenSpec g i) :
    ∃ e ∈ g.edges, g.node_index e.2 = some c := by
  rw [childrenSpec] at h
  obtain ⟨e, he, heq⟩ := List.mem_filterMap.mp h
  refine ⟨e, he, ?_⟩
  cases hf : g.node_index e.1 with
  | none => rw [hf] at heq; cases heq
  | some fi =>
      cases ht : g.node_index e.2 with
      | none => rw [hf, ht] at heq; cases heq
      | some ti =>
          rw [hf, ht] at heq
          dsimp only at heq
          by_cases hfi : fi = i
          · rw [if_pos hfi] at heq
            injection heq with hx
            rw [hx]
          · rw [if_neg hfi] at heq
            cases heq

theorem mem_keys_of_get_children {g : DAGs} (hwf : WF g) {id c : Nat}
    (h : c ∈ g.get_children id) : c ∈ KeysOf g := by
  rw [DAGs.get_children] at h
  cases hni : g.node_index id with
  | none => rw [hni] at h; cases h
  | some idx =>
      rw [hni] at h
      dsimp only at h
      obtain ⟨cIdx, hcIdx, hcid⟩ := List.mem_map.mp h
      have hidx : idx < g.nodes.length := (hwf.lookup_lt hni).1
      rw [hwf.2.2.2.2.2.2.2.1 idx hidx] at hcIdx
      obtain ⟨e, he, hni2⟩ := mem_childrenSpec_index hcIdx
      have hclt : cIdx < g.nodes.length := (hwf.lookup_lt hni2).1
      have hsome : (g.node_index (idAt g cIdx)).isSome = true :=
        hwf.2.2.2.1 cIdx hclt
      rw [← hcid]
      exact (lookupA_isSome_iff _ _).mp hsome

theorem key_or_none (g : DAGs) (id : Nat) :
    id ∈ KeysOf g ∨ g.node_index id = none := by
  cases hni : g.node_index id with
  | none => exact Or.inr rfl
  | some i =>
      refine Or.inl ((lookupA_isSome_iff _ _).mp ?_)
      rw [show lookupA g.id_to_index id = some i from hni]
      rfl

theorem hwalkF_total (g : DAGs) (hwf : WF g) :
    ∀ (fuel : Nat) (visited : List Nat) (cur : Nat),
      visited.Nodup → (∀ x ∈ visited, x ∈ KeysOf g) →
      (cur ∈ KeysOf g ∨ g.node_index cur = none) → cur ∉ visited →
      (KeysOf g).length + 1 ≤ visited.length + fuel →
      ∃ s, hwalkF g fuel visited cur = some s := by
  intro fuel
  induction fuel with
  | zero =>
      intro visited cur hnd hsub hcur hnm hge
      exfalso
      rcases hcur with hk | hni
      · have hle := length_le_of_nodup_subset (cur :: visited) (KeysOf g)
          (List.nodup_cons.mpr ⟨hnm, hnd⟩)
          (by
            intro x hx
            rcases List.mem_cons.mp hx with rfl | hm
            · exact hk
            · exact hsub x hm)
        simp only [List.length_cons] at hle
        omega
      · have hle := length_le_of_nodup_subset visited (KeysOf g) hnd hsub
        -- still need contradiction: visited.length ≤ keys, hge : keys + 1 ≤ visited
        omega
  | succ n ih =>
      intro visited cur hnd hsub hcur hnm hge
      cases hch : g.get_children cur with
      | nil =>
          refine ⟨(match g.nodes.find? (fun nd => nd.1 = cur) with
            | some (id, label) => g.write_node id label
            | none => []), ?_⟩
          rw [hwalkF]
          dsimp only
          rw [hch]
      | cons c tail =>
          by_cases hcont : (visited ++ [cur]).contains c = true
          · refine ⟨(match g.nodes.find? (fun nd => nd.1 = cur) with
              | some (id, label) => g.write_node id label
              | none => []) ++ [' ', '→', ' '], ?_⟩
            rw [hwalkF]
            dsimp only
            rw [hch]
            dsimp only
            rw [if_pos hcont]
          · have hcmem : c ∈ g.get_children cur := by
              rw [hch]
              exact List.mem_cons_self _ _
            have hckey : c ∈ KeysOf g := mem_keys_of_get_children hwf hcmem
            have hcnm : c ∉ visited ++ [cur] := by
              intro hm
              have : (visited ++ [cur]).contains c = true := by
                exact (List.elem_iff).mpr hm
              rw [this] at hcont
              exact hcont rfl
            obtain ⟨s, hs⟩ := ih (visited ++ [cur]) c
              (by
                rw [List.nodup_append]
                refine ⟨hnd, List.nodup_singleton _, ?_⟩
                intro x hx hy
                rw [List.mem_singleton] at hy
                rw [hy] at hx
                exact hnm hx)
              (by
                intro x hx
                rcases List.mem_append.mp hx with hm | hm
                · exact hsub x hm
                · rw [List.mem_singleton] at hm
                  rcases hcur with hk | hni
                  · rw [hm]; exact hk
                  · exfalso
                    have : g.get_children cur = [] := by
                      rw [DAGs.get_children, hni]
                    rw [this] at hch
                    cases hch)
              (Or.inl hckey) hcnm
              (by
                rw [List.length_append, List.length_singleton]
                omega)
            refine ⟨(match g.nodes.find? (fun nd => nd.1 = cur) with
              | some (id, label) => g.write_node id label
              | none => []) ++ [' ', '→', ' '] ++ s, ?_⟩
            rw [hwalkF]
            dsimp only
            rw [hch]
            dsimp only
            rw [if_neg hcont, hs]

theorem renderHorizontalF_some (g : DAGs) (hwf : WF g) :
    ∃ s, renderHorizontalF g = some s ∧ s ≠ [] := by
  rw [renderHorizontalF]
  cases hr : g.nodes.filter (fun nd => (g.get_parents nd.1).isEmpty) with
  | nil => exact ⟨_, rfl, by simp⟩
  | cons root rest =>
      obtain ⟨s, hs⟩ := hwalkF_total g hwf (g.nodes.length + 1) [] root.1
        List.nodup_nil (by intro x hx; cases hx) (key_or_none g root.1)
        (List.not_mem_nil _)
        (by
          have := keys_length_le g hwf
          simp only [List.length_nil]
          omega)
      refine ⟨s ++ ['\n'], ?_, by simp⟩
      dsimp only
      rw [hs]

theorem renderSubgraphF_some (g : DAGs) (hwf : WF g)
    (hacyc : ¬ HasClosedWalk g) (sg : List Nat) :
    ∃ s, renderSubgraphF g sg = some s := by
  obtain ⟨ld, hld⟩ := calculateLevelsForSubgraphF_some g hwf hacyc sg
  rw [renderSubgraphF, hld]
  dsimp only
  by_cases hsc : isSubgraphSimpleChain g sg = true
  · rw [if_pos hsc]
    cases hr : sg.filter (fun idx =>
        (g.get_parents (g.nodes.getD idx (0, [])).1).isEmpty) with
    | nil => exact ⟨[], rfl⟩
    | cons rootIdx rest =>
        obtain ⟨s, hs⟩ := hwalkF_total g hwf (g.nodes.length + 1) []
          (g.nodes.getD rootIdx (0, [])).1 List.nodup_nil
          (by intro x hx; cases hx)
          (key_or_none g _) (List.not_mem_nil _)
          (by
            have := keys_length_le g hwf
            simp only [List.length_nil]
            omega)
        refine ⟨s ++ ['\n'], ?_⟩
        dsimp only
        rw [hs]
  · rw [if_neg hsc]
    exact ⟨_, rfl⟩

theorem renderSubgraphsLoopF_some (g : DAGs) (hwf : WF g)
    (hacyc : ¬ HasClosedWalk g) :
    ∀ (sgs : List (List Nat)) (isFirst : Bool),
      ∃ s, renderSubgraphsLoopF g sgs isFirst = some s ∧
        (isFirst = false → sgs ≠ [] → s ≠ []) := by
  intro sgs
  induction sgs with
  | nil =>
      intro isFirst
      exact ⟨[], rfl, fun _ h => absurd rfl h⟩
  | cons sg rest ih =>
      intro isFirst
      obtain ⟨s1, hs1⟩ := renderSubgraphF_some g hwf hacyc sg
      obtain ⟨s2, hs2, _⟩ := ih false
      refine ⟨(if isFirst then [] else ['\n']) ++ s1 ++ s2, ?_, ?_⟩
      · rw [renderSubgraphsLoopF, hs1, hs2]
      · intro hfirst _
        rw [hfirst]
        simp

theorem foldl_hold {α β : Type} (P : β → Prop) (f : β → α → β) :
    ∀ (l : List α) (init : β), P init →
      (∀ b a, a ∈ l → P b → P (f b a)) → P (l.foldl f init) := by
  intro l
  induction l with
  | nil => intro init h _; exact h
  | cons a t ih =>
      intro init h hstep
      rw [List.foldl_cons]
      exact ih (f init a) (hstep init a (List.mem_cons_self _ _) h)
        (fun b a' ha' hb => hstep b a' (List.mem_cons_of_mem _ ha') hb)

theorem stInsertBy_length {α : Type} (key : α → Nat) (x : α) :
    ∀ l : List α, (stInsertBy key x l).length = l.length + 1 := by
  intro l
  induction l with
  | nil => rfl
  | cons y ys ih =>
      rw [stInsertBy]
      by_cases h : key y ≤ key x
      · rw [if_pos h, List.length_cons, ih, List.length_cons]
      · rw [if_neg h, List.length_cons, List.length_cons]

theorem stableSortBy_length {α : Type} (key : α → Nat) (l : List α) :
    (stableSortBy key l).length = l.length := by
  rw [stableSortBy]
  have main : ∀ (l' : List α) (acc : List α),
      (l'.foldl (fun acc x => stInsertBy key x acc) acc).length
        = acc.length + l'.length := by
    intro l'
    induction l' with
    | nil => intro acc; rfl
    | cons y ys ih =>
        intro acc
        rw [List.foldl_cons, ih, stInsertBy_length, List.length_cons]
        omega
  rw [main l []]
  simp

theorem orderByMedianParents_length (g : DAGs) (ln pl : List Nat) :
    (orderByMedianParents g ln pl).length = ln.length := by
  rw [orderByMedianParents]
  rw [List.length_map, stableSortBy_length, List.length_map,
    List.enum_length]

theorem orderByMedianChildren_length (g : DAGs) (ln cl : List Nat) :
    (orderByMedianChildren g ln cl).length = ln.length := by
  rw [orderByMedianChildren]
  rw [List.length_map, stableSortBy_length, List.length_map,
    List.enum_length]

theorem compactLevel_snd_length (g : DAGs) (xs : List Nat) (ln : List Nat) :
    (compactLevel g xs ln).2.length = ln.length := by
  rw [compactLevel]
  by_cases h : ln.isEmpty = true
  · rw [if_pos h]
  · rw [if_neg h]
    dsimp only
    have main : ∀ (l : List (Nat × Nat)) (acc : List Nat × List Nat × Nat),
        (l.foldl (fun (acc : List Nat × List Nat × Nat) (p : Nat × Nat) =>
          (acc.1.set p.2 acc.2.2, acc.2.1 ++ [p.2],
            acc.2.2 + g.get_node_width p.2 + 3)) acc).2.1.length
          = acc.2.1.length + l.length := by
      intro l
      induction l with
      | nil => intro acc; rfl
      | cons y ys ih =>
          intro acc
          rw [List.foldl_cons, ih]
          dsimp only
          simp only [List.length_append, List.length_cons,
            List.length_singleton, List.length_nil]
          omega
    rw [main, stableSortBy_length, List.length_map]
    simp

/-- Some level list is non-empty. -/
def HasNode (ls : List (List Nat)) : Prop := ∃ i, ls.getD i [] ≠ []

theorem hasNode_set_of_ne (ls : List (List Nat)) (j : Nat) (v : List Nat)
    (hv : v ≠ []) (h : HasNode ls) : HasNode (ls.set j v) := by
  obtain ⟨i, hi⟩ := h
  by_cases hj : j < ls.length
  · by_cases hij : j = i
    · subst hij
      refine ⟨j, ?_⟩
      rw [getD_set_self _ _ _ _ hj]
      exact hv
    · refine ⟨i, ?_⟩
      rw [getD_set_ne _ _ _ _ _ hij]
      exact hi
  · refine ⟨i, ?_⟩
    rw [List.set_eq_of_length_le (by omega)]
    exact hi

theorem hasNode_set_of_len (ls : List (List Nat)) (j : Nat) (v : List Nat)
    (hlen : v.length = (ls.getD j []).length) (h : HasNode ls) :
    HasNode (ls.set j v) := by
  obtain ⟨i, hi⟩ := h
  by_cases hij : j = i
  · subst hij
    refine hasNode_set_of_ne ls j v ?_ ⟨j, hi⟩
    intro hv
    rw [hv] at hlen
    have : ls.getD j [] = [] := by
      cases hx : ls.getD j [] with
      | nil => rfl
      | cons a t =>
          rw [hx] at hlen
          simp at hlen
    exact hi this
  · refine ⟨i, ?_⟩
    by_cases hj : j < ls.length
    · rw [getD_set_ne _ _ _ _ _ hij]
      exact hi
    · rw [List.set_eq_of_length_le (by omega)]
      exact hi

theorem hasNode_groupNodes (lv : List Nat) (hne : lv ≠ []) :
    HasNode (groupNodesByLevel lv.enum
      (maximumD (lv.enum.map Prod.snd) 0)) := by
  cases hlv : lv with
  | nil => exact absurd hlv hne
  | cons l0 rest =>
      rw [groupNodesByLevel]
      have henum : (l0 :: rest).enum = (0, l0) :: rest.enumFrom 1 := by
        rfl
      rw [henum, List.foldl_cons]
      set ml := maximumD (((l0 :: rest).enum).map Prod.snd) 0 with hml
      have hl0 : l0 ≤ ml := by
        refine mem_le_maximumD _ _ ?_
        rw [List.mem_map]
        refine ⟨(0, l0), ?_, rfl⟩
        rw [henum]
        exact List.mem_cons_self _ _
      have hstart : HasNode ((List.replicate (ml + 1) ([] : List Nat)).set l0
          ((List.replicate (ml + 1) ([] : List Nat)).getD l0 [] ++ [0])) := by
        refine ⟨l0, ?_⟩
        rw [getD_set_self _ _ _ _ (by rw [List.length_replicate]; omega)]
        simp
      rw [henum] at hml
      rw [← hml]
      exact foldl_hold HasNode _ (rest.enumFrom 1) _ hstart
        (fun ls p _ hls => hasNode_set_of_ne ls p.2 _ (by simp) hls)

theorem hasNode_reduceCrossings (g : DAGs) (levels : List (List Nat))
    (maxLevel : Nat) (h : HasNode levels) :
    HasNode (reduceCrossings g levels maxLevel) := by
  rw [reduceCrossings]
  refine foldl_hold HasNode _ (List.range 4) levels h ?_
  intro ls _ _ hls
  rw [reduceCrossingsIter]
  refine foldl_hold HasNode _ _ _ ?_ ?_
  · refine foldl_hold HasNode _ _ _ hls ?_
    intro ls' k _ hls'
    exact hasNode_set_of_len _ _ _ (orderByMedianParents_length _ _ _) hls'
  · intro ls' k _ hls'
    exact hasNode_set_of_len _ _ _ (orderByMedianChildren_length _ _ _) hls'

theorem hasNode_assignX (g : DAGs) (levels : List (List Nat)) (maxLevel : Nat)
    (h : HasNode levels) : HasNode (assignXCoordinates g levels maxLevel).2 := by
  rw [assignXCoordinates]
  dsimp only
  refine foldl_hold (fun (acc : List Nat × List (List Nat)) => HasNode acc.2)
    _ (List.range 2) _ h ?_
  intro b a ha hb
  dsimp only
  refine foldl_hold (fun (acc : List Nat × List (List Nat)) => HasNode acc.2)
    _ (List.range maxLevel) b hb ?_
  intro c k hk hc
  dsimp only
  exact hasNode_set_of_len _ _ _ (compactLevel_snd_length _ _ _) hc

theorem calculateLevelsF_some (g : DAGs) (hwf : WF g)
    (hacyc : ¬ HasClosedWalk g) :
    ∃ lv : List Nat, levelLoopF g (g.nodes.length * g.nodes.length + 1)
      (List.replicate g.nodes.length 0) = some lv := by
  have hterm := levelLoopF_term g hwf hacyc
    (g.nodes.length * g.nodes.length + 1) (List.replicate g.nodes.length 0)
    (List.length_replicate _ _)
    (fun i hi hpos => absurd hpos (by rw [getD_replicate _ _ _ _ hi]; simp))
    (by rw [List.sum_replicate]; simp)
  exact Option.isSome_iff_exists.mp hterm

theorem renderVerticalMain_ne_nil (g : DAGs) (levels : List (List Nat))
    (xs levelWidths : List Nat) (mcw ml : Nat) (h : HasNode levels) :
    renderVerticalMain g levels xs levelWidths mcw ml ≠ [] := by
  obtain ⟨i, hi⟩ := h
  have hilt : i < levels.length := by
    by_contra hge
    push_neg at hge
    rw [List.getD, List.get?_eq_none.mpr hge] at hi
    exact hi rfl
  intro hnil
  rw [renderVerticalMain, List.flatten_eq_nil_iff] at hnil
  have hmem : (i, levels.getD i []) ∈ levels.enum := by
    rw [List.mem_enum_iff_getElem?, List.getElem?_eq_getElem hilt,
      getD_eq_getElem _ _ _ hilt]
  have hpi := hnil _ (List.mem_map.mpr ⟨(i, levels.getD i []), hmem, rfl⟩)
  dsimp only at hpi
  rw [if_neg (by
    intro hempty
    rw [List.isEmpty_iff] at hempty
    exact hi hempty)] at hpi
  rw [List.append_eq_nil] at hpi
  have h2 := hpi.1
  rw [renderNodeLine, List.append_eq_nil] at h2
  cases h2.2

theorem renderVerticalF_some (g : DAGs) (hwf : WF g)
    (hacyc : ¬ HasClosedWalk g) (hne : g.nodes ≠ []) :
    ∃ s, renderVerticalF g = some s ∧ s ≠ [] := by
  obtain ⟨sgs, hsgs, h1le, _⟩ := findSubgraphsF_count g hwf hne
  rw [renderVerticalF, hsgs]
  dsimp only
  by_cases hgt : sgs.length > 1
  · rw [if_pos hgt]
    cases sgs with
    | nil => simp at hgt
    | cons sg rest =>
        have hrest : rest ≠ [] := by
          intro hr
          rw [hr] at hgt
          simp at hgt
        obtain ⟨s1, hs1⟩ := renderSubgraphF_some g hwf hacyc sg
        obtain ⟨s2, hs2, hne2⟩ :=
          renderSubgraphsLoopF_some g hwf hacyc rest false
        refine ⟨(if true then [] else ['\n']) ++ s1 ++ s2, ?_, ?_⟩
        · rw [renderSubgraphsLoopF, hs1, hs2]
        · have hs2ne := hne2 rfl hrest
          simp only [if_pos rfl, List.nil_append]
          intro hcon
          rw [List.append_eq_nil] at hcon
          exact hs2ne hcon.2
  · rw [if_neg hgt]
    obtain ⟨lv, hlv⟩ := calculateLevelsF_some g hwf hacyc
    have hcl : calculateLevelsF g = some lv.enum := by
      rw [calculateLevelsF, hlv]
    rw [hcl]
    dsimp only
    refine ⟨_, rfl, ?_⟩
    apply renderVerticalMain_ne_nil
    apply hasNode_assignX
    apply hasNode_reduceCrossings
    apply hasNode_groupNodes
    intro hlvnil
    have hlen := levelLoopF_len g _ _ _ hlv
    rw [hlvnil, List.length_replicate] at hlen
    have : g.nodes.length = 0 := by
      simpa using hlen.symm
    exact hne (List.length_eq_zero.mp this)

theorem isSimpleChainF_some (g : DAGs) (hwf : WF g) (hne : g.nodes ≠ []) :
    ∃ b, isSimpleChainF g = some b := by
  obtain ⟨sgs, hsgs, _, _⟩ := findSubgraphsF_count g hwf hne
  rw [isSimpleChainF]
  have hempty : ¬ (g.nodes.isEmpty = true) := by
    intro h
    exact hne (List.isEmpty_iff.mp h)
  rw [if_neg hempty, hsgs]
  dsimp only
  by_cases hgt : sgs.length > 1
  · rw [if_pos hgt]
    exact ⟨false, rfl⟩
  · rw [if_neg hgt]
    exact ⟨_, rfl⟩

theorem resolveModeF_some (g : DAGs) (hwf : WF g) (hne : g.nodes ≠ []) :
    ∃ m, resolveModeF g = some m := by
  rw [resolveModeF]
  cases hm : g.render_mode with
  | Auto =>
      obtain ⟨b, hb⟩ := isSimpleChainF_some g hwf hne
      rw [hb]
      cases b with
      | true => exact ⟨RenderMode.Horizontal, rfl⟩
      | false => exact ⟨RenderMode.Vertical, rfl⟩
  | Vertical => exact ⟨RenderMode.Vertical, rfl⟩
  | Horizontal => exact ⟨RenderMode.Horizontal, rfl⟩

theorem renderToF_main (g : DAGs) (hwf : WF g) :
    ∃ b s, hasCycleF g = some b ∧ renderToF g = some s ∧ s ≠ [] ∧
      (b = true ↔ HasClosedWalk g) ∧
      (b = true →
        (("⚠️  CYCLE DETECTED - Not a valid DAG\n").data ++ ['\n']) <+: s ∨
        g.nodes.isEmpty = true) := by
  obtain ⟨b, hb, hbiff⟩ := hasCycleF_correct g hwf
  rw [renderToF]
  by_cases hemp : g.nodes.isEmpty = true
  · rw [if_pos hemp]
    exact ⟨b, _, hb, rfl, by decide, hbiff, fun _ => Or.inr hemp⟩
  · have hne : g.nodes ≠ [] := fun h => hemp (by rw [h]; rfl)
    rw [if_neg hemp, hb]
    cases b with
    | true =>
        obtain ⟨s, hs, hpre⟩ := renderCycleF_some g hwf
        refine ⟨true, s, rfl, hs, ?_, hbiff, fun _ => Or.inl hpre⟩
        obtain ⟨t, ht⟩ := hpre
        intro hsnil
        rw [hsnil] at ht
        rw [List.append_eq_nil, List.append_eq_nil] at ht
        cases ht.1.2
    | false =>
        have hacyc : ¬ HasClosedWalk g := by
          intro hcw
          have := hbiff.mpr hcw
          cases this
        obtain ⟨m, hm⟩ := resolveModeF_some g hwf hne
        rw [hm]
        cases m with
        | Horizontal =>
            obtain ⟨s, hs, hsne⟩ := renderHorizontalF_some g hwf
            exact ⟨false, s, rfl, hs, hsne, hbiff, fun h => by cases h⟩
        | Vertical =>
            obtain ⟨s, hs, hsne⟩ := renderVerticalF_some g hwf hacyc hne
            exact ⟨false, s, rfl, hs, hsne, hbiff, fun h => by cases h⟩
        | Auto =>
            obtain ⟨s, hs, hsne⟩ := renderVerticalF_some g hwf hacyc hne
            exact ⟨false, s, rfl, hs, hsne, hbiff, fun h => by cases h⟩

/-! ## Character inventory of the non-cycle renderer -/

/-- Some node label contains capital `Y`. -/
def LabelHasY (g : DAGs) : Prop := ∃ nd ∈ g.nodes, ('Y' : Char) ∈ nd.2

theorem writeUsizeAux_no_Y : ∀ n : Nat, ('Y' : Char) ∉ writeUsizeAux n := by
  intro n
  induction n using Nat.strong_induction_on with
  | _ n ih =>
      rw [writeUsizeAux]
      by_cases h0 : n = 0
      · rw [dif_pos h0]
        simp
      · rw [dif_neg h0]
        intro hmem
        rcases List.mem_append.mp hmem with hm | hm
        · exact ih (n / 10) (Nat.div_lt_self (Nat.pos_of_ne_zero h0)
            (by omega)) hm
        · rw [List.mem_singleton] at hm
          have hd : n % 10 < 10 := Nat.mod_lt _ (by omega)
          set d := n % 10 with hdd
          interval_cases d <;> revert hm <;> decide

theorem writeUsize_no_Y (n : Nat) : ('Y' : Char) ∉ writeUsize n := by
  rw [writeUsize]
  by_cases h0 : n = 0
  · rw [if_pos h0]
    decide
  · rw [if_neg h0]
    exact writeUsizeAux_no_Y n

theorem write_node_Y (g : DAGs) (id : Nat) (label : List Char)
    (h : ('Y' : Char) ∈ g.write_node id label) : ('Y' : Char) ∈ label := by
  rw [DAGs.write_node] at h
  split at h
  · exfalso
    rcases List.mem_cons.mp h with hm | hm
    · cases hm
    · rcases List.mem_append.mp hm with hm2 | hm2
      · exact writeUsize_no_Y id hm2
      · rw [List.mem_singleton] at hm2
        cases hm2
  · rcases List.mem_cons.mp h with hm | hm
    · cases hm
    · rcases List.mem_append.mp hm with hm2 | hm2
      · exact hm2
      · rw [List.mem_singleton] at hm2
        cases hm2

theorem no_Y_map {l : List Nat} {f : Nat → Char} (hf : ∀ i, f i ≠ 'Y') :
    ('Y' : Char) ∉ l.map f := by
  intro h
  obtain ⟨i, _, hc⟩ := List.mem_map.mp h
  exact hf i hc

theorem convergenceLine2Char_ne_Y (tg : List (Nat × List Nat)) (i : Nat) :
    convergenceLine2Char tg i ≠ 'Y' := by
  rw [convergenceLine2Char]
  refine foldl_hold (fun ch => ch ≠ 'Y') _ tg ' ' (by decide) ?_
  intro ch p _ hch
  dsimp only
  split
  · exact hch
  · split
    · decide
    · split
      · decide
      · split
        · decide
        · split
          · decide
          · exact hch

theorem divergenceLine2Char_ne_Y (sg : List (Nat × List Nat)) (i : Nat) :
    divergenceLine2Char sg i ≠ 'Y' := by
  rw [divergenceLine2Char]
  refine foldl_hold (fun ch => ch ≠ 'Y') _ sg ' ' (by decide) ?_
  intro ch p _ hch
  dsimp only
  split
  · exact hch
  · split
    · decide
    · split
      · decide
      · split
        · decide
        · split
          · decide
          · exact hch

theorem mcChar_ne_Y (tg : List (Nat × List (Nat × Nat × Nat))) (i : Nat) :
    mcChar tg i ≠ 'Y' := by
  rw [mcChar]
  refine foldl_hold (fun ch => ch ≠ 'Y') _ tg ' ' (by decide) ?_
  intro ch p _ hch
  dsimp only
  split
  · exact hch
  · split
    · decide
    · split
      · decide
      · split
        · decide
        · split
          · split
            · decide
            · exact hch
          · exact hch

theorem mdChar_ne_Y (sg : List (Nat × List (Nat × Nat × Nat)))
    (minPos i : Nat) : mdChar sg minPos i ≠ 'Y' := by
  rw [mdChar]
  split
  · decide
  · refine foldl_hold (fun ch => ch ≠ 'Y') _ sg ' ' (by decide) ?_
    intro ch p _ hch
    dsimp only
    split
    · exact hch
    · split
      · decide
      · split
        · decide
        · split
          · decide
          · split
            · split
              · decide
              · exact hch
            · exact hch

theorem three_lines_no_Y {l1 l2 l3 : List Char}
    (h1 : ('Y' : Char) ∉ l1) (h2 : ('Y' : Char) ∉ l2)
    (h3 : ('Y' : Char) ∉ l3) :
    ('Y' : Char) ∉ l1 ++ ['\n'] ++ l2 ++ ['\n'] ++ l3 ++ ['\n'] := by
  intro h
  rcases List.mem_append.mp h with h' | h'
  · rcases List.mem_append.mp h' with h'' | h''
    · rcases List.mem_append.mp h'' with h3' | h3'
      · rcases List.mem_append.mp h3' with h4 | h4
        · rcases List.mem_append.mp h4 with h5 | h5
          · exact h1 h5
          · rw [List.mem_singleton] at h5; cases h5
        · exact h2 h4
      · rw [List.mem_singleton] at h3'; cases h3'
    · exact h3 h''
  · rw [List.mem_singleton] at h'; cases h'

theorem two_lines_no_Y {l1 l2 : List Char}
    (h1 : ('Y' : Char) ∉ l1) (h2 : ('Y' : Char) ∉ l2) :
    ('Y' : Char) ∉ l1 ++ ['\n'] ++ l2 ++ ['\n'] := by
  intro h
  rcases List.mem_append.mp h with h' | h'
  · rcases List.mem_append.mp h' with h'' | h''
    · rcases List.mem_append.mp h'' with h3 | h3
      · exact h1 h3
      · rw [List.mem_singleton] at h3; cases h3
    · exact h2 h''
  · rw [List.mem_singleton] at h'; cases h'

theorem drawConvergenceManhattan_no_Y (tg : List (Nat × List Nat))
    (minPos maxPos : Nat) :
    ('Y' : Char) ∉ drawConvergenceManhattan tg minPos maxPos := by
  rw [drawConvergenceManhattan]
  exact three_lines_no_Y
    (no_Y_map (fun i => by split <;> decide))
    (no_Y_map (fun i => convergenceLine2Char_ne_Y tg i))
    (no_Y_map (fun i => by split <;> decide))

theorem drawDivergenceManhattan_no_Y (sg : List (Nat × List Nat))
    (minPos maxPos : Nat) :
    ('Y' : Char) ∉ drawDivergenceManhattan sg minPos maxPos := by
  rw [drawDivergenceManhattan]
  exact three_lines_no_Y
    (no_Y_map (fun i => by split <;> decide))
    (no_Y_map (fun i => divergenceLine2Char_ne_Y sg i))
    (no_Y_map (fun i => by split <;> decide))

theorem drawSimpleManhattan_no_Y (conns : List (Nat × Nat))
    (minPos maxPos : Nat) :
    ('Y' : Char) ∉ drawSimpleManhattan conns minPos maxPos := by
  rw [drawSimpleManhattan]
  exact two_lines_no_Y
    (no_Y_map (fun i => by split <;> decide))
    (no_Y_map (fun i => by split <;> decide))

theorem drawConnectionsSugiyama_no_Y (g : DAGs) (cur nxt : List Nat)
    (xs : List Nat) (cm co no : Nat) :
    ('Y' : Char) ∉ drawConnectionsSugiyama g cur nxt xs cm co no := by
  rw [drawConnectionsSugiyama]
  split
  · simp
  · dsimp only
    split
    · simp
    · split
      · exact drawConvergenceManhattan_no_Y _ _ _
      · split
        · exact drawDivergenceManhattan_no_Y _ _ _
        · exact drawSimpleManhattan_no_Y _ _ _

theorem drawMultipleConvergences_no_Y
    (tg : List (Nat × List (Nat × Nat × Nat))) :
    ('Y' : Char) ∉ drawMultipleConvergences tg := by
  rw [drawMultipleConvergences]
  exact three_lines_no_Y
    (no_Y_map (fun i => by split <;> decide))
    (no_Y_map (fun i => mcChar_ne_Y tg i))
    (no_Y_map (fun i => by split <;> decide))

theorem drawMultipleDivergences_no_Y
    (sg : List (Nat × List (Nat × Nat × Nat))) :
    ('Y' : Char) ∉ drawMultipleDivergences sg := by
  rw [drawMultipleDivergences]
  exact three_lines_no_Y
    (no_Y_map (fun i => by split <;> (try split) <;> decide))
    (no_Y_map (fun i => mdChar_ne_Y sg _ i))
    (no_Y_map (fun i => by split <;> (try split) <;> decide))

theorem drawSimpleVerticals_no_Y (conns : List (Nat × Nat × Nat)) :
    ('Y' : Char) ∉ drawSimpleVerticals conns := by
  rw [drawSimpleVerticals]
  exact two_lines_no_Y
    (no_Y_map (fun i => by split <;> decide))
    (no_Y_map (fun i => by split <;> decide))

theorem drawVerticalConnections_no_Y (g : DAGs) (cur nxt : List Nat) :
    ('Y' : Char) ∉ drawVerticalConnections g cur nxt := by
  rw [drawVerticalConnections]
  split
  · simp
  · dsimp only
    split
    · simp
    · split
      · exact drawMultipleConvergences_no_Y _
      · split
        · exact drawMultipleDivergences_no_Y _
        · exact drawSimpleVerticals_no_Y _

theorem getD_mem_or_default {α : Type} (l : List α) (i : Nat) (d : α) :
    l.getD i d ∈ l ∨ l.getD i d = d := by
  by_cases hi : i < l.length
  · rw [getD_eq_getElem _ _ _ hi]
    exact Or.inl (List.getElem_mem hi)
  · right
    rw [List.getD, List.get?_eq_none.mpr (by omega)]
    rfl

theorem write_node_getD_Y (g : DAGs) (idx : Nat)
    (h : ('Y' : Char) ∈ g.write_node (g.nodes.getD idx (0, [])).1
      (g.nodes.getD idx (0, [])).2) : LabelHasY g := by
  have hlab := write_node_Y _ _ _ h
  rcases getD_mem_or_default g.nodes idx (0, []) with hm | hd
  · exact ⟨_, hm, hlab⟩
  · rw [hd] at hlab
    cases hlab

theorem renderNodeLine_Y (g : DAGs) (ln : List Nat) (xs : List Nat)
    (minX off : Nat) (h : ('Y' : Char) ∈ renderNodeLine g ln xs minX off) :
    LabelHasY g := by
  rw [renderNodeLine] at h
  rcases List.mem_append.mp h with h' | h'
  · refine foldl_hold
      (fun (acc : List Char × Nat) => ('Y' : Char) ∈ acc.1 → LabelHasY g)
      _ ln ([], 0) (fun hm => absurd hm (List.not_mem_nil _)) ?_ h'
    intro acc idx _ hacc hmem
    dsimp only at hmem
    rcases List.mem_append.mp hmem with h2 | h2
    · rcases List.mem_append.mp h2 with h3 | h3
      · exact hacc h3
      · exfalso
        have := List.eq_of_mem_replicate h3
        cases this
    · exact write_node_getD_Y g idx h2
  · rw [List.mem_singleton] at h'
    cases h'

theorem hwalkF_Y (g : DAGs) :
    ∀ (fuel : Nat) (visited : List Nat) (cur : Nat) (s : List Char),
      hwalkF g fuel visited cur = some s → ('Y' : Char) ∈ s →
      LabelHasY g := by
  intro fuel
  induction fuel with
  | zero => intro visited cur s heq; cases heq
  | succ n ih =>
      intro visited cur s heq hY
      rw [hwalkF] at heq
      dsimp only at heq
      have hnode : ∀ hm : ('Y' : Char) ∈
          (match g.nodes.find? (fun nd => nd.1 = cur) with
          | some (id, label) => g.write_node id label
          | none => []), LabelHasY g := by
        intro hm
        cases hfind : g.nodes.find? (fun nd => nd.1 = cur) with
        | none =>
            rw [hfind] at hm
            cases hm
        | some nd =>
            obtain ⟨id, label⟩ := nd
            rw [hfind] at hm
            have hmem := List.mem_of_find?_eq_some hfind
            exact ⟨(id, label), hmem, write_node_Y g id label hm⟩
      cases hch : g.get_children cur with
      | nil =>
          rw [hch] at heq
          dsimp only at heq
          injection heq with hs
          rw [← hs] at hY
          exact hnode hY
      | cons c tail =>
          rw [hch] at heq
          dsimp only at heq
          by_cases hcont : (visited ++ [cur]).contains c = true
          · rw [if_pos hcont] at heq
            injection heq with hs
            rw [← hs] at hY
            rcases List.mem_append.mp hY with h' | h'
            · exact hnode h'
            · exfalso
              revert h'
              decide
          · rw [if_neg hcont] at heq
            cases hrec : hwalkF g n (visited ++ [cur]) c with
            | none =>
                rw [hrec] at heq
                cases heq
            | some rest =>
                rw [hrec] at heq
                dsimp only at heq
                injection heq with hs
                rw [← hs] at hY
                rcases List.mem_append.mp hY with h' | h'
                · rcases List.mem_append.mp h' with h2 | h2
                  · exact hnode h2
                  · exfalso
                    revert h2
                    decide
                · exact ih (visited ++ [cur]) c rest hrec h'

theorem renderHorizontalF_Y (g : DAGs) (s : List Char)
    (heq : renderHorizontalF g = some s) (hY : ('Y' : Char) ∈ s) :
    LabelHasY g := by
  rw [renderHorizontalF] at heq
  cases hr : g.nodes.filter (fun nd => (g.get_parents nd.1).isEmpty) with
  | nil =>
      rw [hr] at heq
      dsimp only at heq
      injection heq with hs
      rw [← hs] at hY
      exfalso
      revert hY
      decide
  | cons root rest =>
      rw [hr] at heq
      dsimp only at heq
      cases hw : hwalkF g (g.nodes.length + 1) [] root.1 with
      | none =>
          rw [hw] at heq
          cases heq
      | some w =>
          rw [hw] at heq
          dsimp only at heq
          injection heq with hs
          rw [← hs] at hY
          rcases List.mem_append.mp hY with h' | h'
          · exact hwalkF_Y g _ _ _ _ hw h'
          · exfalso
            revert h'
            decide

theorem renderVerticalMain_Y (g : DAGs) (levels : List (List Nat))
    (xs levelWidths : List Nat) (mcw ml : Nat)
    (hY : ('Y' : Char) ∈ renderVerticalMain g levels xs levelWidths mcw ml) :
    LabelHasY g := by
  rw [renderVerticalMain] at hY
  obtain ⟨piece, hpmem, hpy⟩ := List.mem_flatten.mp hY
  obtain ⟨p, _, hp⟩ := List.mem_map.mp hpmem
  rw [← hp] at hpy
  dsimp only at hpy
  split at hpy
  · cases hpy
  · rcases List.mem_append.mp hpy with h' | h'
    · exact renderNodeLine_Y g _ _ _ _ h'
    · split at h'
      · exact absurd h' (drawConnectionsSugiyama_no_Y _ _ _ _ _ _ _)
      · cases h'

theorem renderSubgraphVertical_Y (g : DAGs) (levels : List (List Nat))
    (ml : Nat)
    (hY : ('Y' : Char) ∈ renderSubgraphVertical g levels ml) :
    LabelHasY g := by
  rw [renderSubgraphVertical] at hY
  obtain ⟨piece, hpmem, hpy⟩ := List.mem_flatten.mp hY
  obtain ⟨p, _, hp⟩ := List.mem_map.mp hpmem
  rw [← hp] at hpy
  dsimp only at hpy
  split at hpy
  · cases hpy
  · rcases List.mem_append.mp hpy with h' | h'
    · rcases List.mem_append.mp h' with h2 | h2
      · obtain ⟨piece2, hq, hpy2⟩ := List.mem_flatten.mp h2
        obtain ⟨q, _, hq2⟩ := List.mem_map.mp hq
        rw [← hq2] at hpy2
        rcases List.mem_append.mp hpy2 with h3 | h3
        · exact write_node_getD_Y g q.2 h3
        · exfalso
          split at h3
          · revert h3
            decide
          · cases h3
      · rw [List.mem_singleton] at h2
        cases h2
    · split at h'
      · exact absurd h' (drawVerticalConnections_no_Y _ _ _)
      · cases h'

theorem renderSubgraphF_Y (g : DAGs) (sg : List Nat) (s : List Char)
    (heq : renderSubgraphF g sg = some s) (hY : ('Y' : Char) ∈ s) :
    LabelHasY g := by
  rw [renderSubgraphF] at heq
  cases hld : calculateLevelsForSubgraphF g sg with
  | none => rw [hld] at heq; cases heq
  | some ld =>
      rw [hld] at heq
      dsimp only at heq
      split at heq
      · cases hr : sg.filter (fun idx =>
            (g.get_parents (g.nodes.getD idx (0, [])).1).isEmpty) with
        | nil =>
            rw [hr] at heq
            dsimp only at heq
            injection heq with hs
            rw [← hs] at hY
            cases hY
        | cons rootIdx rest =>
            rw [hr] at heq
            dsimp only at heq
            cases hw : hwalkF g (g.nodes.length + 1) []
                (g.nodes.getD rootIdx (0, [])).1 with
            | none => rw [hw] at heq; cases heq
            | some w =>
                rw [hw] at heq
                dsimp only at heq
                injection heq with hs
                rw [← hs] at hY
                rcases List.mem_append.mp hY with h' | h'
                · exact hwalkF_Y g _ _ _ _ hw h'
                · rw [List.mem_singleton] at h'
                  cases h'
      · injection heq with hs
        rw [← hs] at hY
        exact renderSubgraphVertical_Y g _ _ hY

theorem renderSubgraphsLoopF_Y (g : DAGs) :
    ∀ (sgs : List (List Nat)) (isFirst : Bool) (s : List Char),
      renderSubgraphsLoopF g sgs isFirst = some s → ('Y' : Char) ∈ s →
      LabelHasY g := by
  intro sgs
  induction sgs with
  | nil =>
      intro isFirst s heq hY
      injection heq with hs
      rw [← hs] at hY
      cases hY
  | cons sg rest ih =>
      intro isFirst s heq hY
      rw [renderSubgraphsLoopF] at heq
      cases h1 : renderSubgraphF g sg with
      | none => rw [h1] at heq; cases heq
      | some s1 =>
          rw [h1] at heq
          dsimp only at heq
          cases h2 : renderSubgraphsLoopF g rest false with
          | none => rw [h2] at heq; cases heq
          | some s2 =>
              rw [h2] at heq
              dsimp only at heq
              injection heq with hs
              rw [← hs] at hY
              rcases List.mem_append.mp hY with h' | h'
              · rcases List.mem_append.mp h' with h3 | h3
                · exfalso
                  split at h3
                  · cases h3
                  · rw [List.mem_singleton] at h3
                    cases h3
                · exact renderSubgraphF_Y g sg s1 h1 h3
              · exact ih false s2 h2 h'

theorem renderVerticalF_Y (g : DAGs) (s : List Char)
    (heq : renderVerticalF g = some s) (hY : ('Y' : Char) ∈ s) :
    LabelHasY g := by
  rw [renderVerticalF] at heq
  cases hsgs : findSubgraphsF g with
  | none => rw [hsgs] at heq; cases heq
  | some sgs =>
      rw [hsgs] at heq
      dsimp only at heq
      split at heq
      · exact renderSubgraphsLoopF_Y g sgs true s heq hY
      · cases hcl : calculateLevelsF g with
        | none => rw [hcl] at heq; cases heq
        | some ld =>
            rw [hcl] at heq
            dsimp only at heq
            injection heq with hs
            rw [← hs] at hY
            exact renderVerticalMain_Y g _ _ _ _ _ hY

theorem not_infix_of_no_Y {s : List Char} (h : ('Y' : Char) ∉ s) :
    ¬ (("CYCLE DETECTED").data <:+: s) := by
  intro hinf
  exact h (hinf.sublist.subset (by decide))

theorem renderToF_no_marker (g : DAGs) (hwf : WF g) (s : List Char)
    (hb : hasCycleF g = some false) (heq : renderToF g = some s)
    (hlab : ¬ LabelHasY g) : ¬ (("CYCLE DETECTED").data <:+: s) := by
  refine not_infix_of_no_Y ?_
  intro hY
  apply hlab
  rw [renderToF] at heq
  split at heq
  · injection heq with hs
    rw [← hs] at hY
    exact absurd hY (by decide)
  · rw [hb] at heq
    cases hm : resolveModeF g with
    | none => rw [hm] at heq; cases heq
    | some mode =>
        rw [hm] at heq
        cases mode with
        | Horizontal => exact renderHorizontalF_Y g s heq hY
        | Vertical => exact renderVerticalF_Y g s heq hY
        | Auto => exact renderVerticalF_Y g s heq hY

/-- C1: for every well-formed graph, however constructed — cyclic,
with self-loops, disconnected, with auto-created placeholders,
duplicate edges or empty labels — `render_to` (and `render`, which
delegates to it) terminates within the modelled fuel bounds and
produces some non-empty text output. -/
theorem c1_render_total (g : DAGs) (hwf : WF g) :
    ∃ s, renderToF g = some s ∧ renderF g = some s ∧ s ≠ [] := by
  obtain ⟨b, s, hb, hs, hne, _, _⟩ := renderToF_main g hwf
  exact ⟨s, hs, hs, hne⟩

/-- Witness for C1 at a concrete input (a self-loop on an auto-created
placeholder node). -/
theorem c1_witness :
    WF (DAGs.new.add_edge 1 1) ∧
    (∃ s, renderToF (DAGs.new.add_edge 1 1) = some s ∧
      renderF (DAGs.new.add_edge 1 1) = some s ∧ s ≠ []) :=
  ⟨by decide, c1_render_total (DAGs.new.add_edge 1 1) (by decide)⟩

/-- C2 (amended): `has_cycle` decides the existence of a closed walk in
the edge set, and — provided no node label contains the capital letter
`Y` (in particular no label embeds the cycle marker) — the rendered
output of a non-empty graph contains the `CYCLE DETECTED` marker
exactly when `has_cycle` is true. -/
theorem c2_amended (g : DAGs) (hwf : WF g)
    (hlab : ∀ nd ∈ g.nodes, ('Y' : Char) ∉ nd.2) :
    ∃ b s, hasCycleF g = some b ∧ renderToF g = some s ∧
      (b = true ↔ HasClosedWalk g) ∧
      (g.nodes ≠ [] → ((("CYCLE DETECTED").data <:+: s) ↔ b = true)) := by
  obtain ⟨b, s, hb, hs, _, hbiff, hmark⟩ := renderToF_main g hwf
  refine ⟨b, s, hb, hs, hbiff, ?_⟩
  intro hne
  constructor
  · intro hinf
    cases hbv : b with
    | true => rfl
    | false =>
        exfalso
        rw [hbv] at hb
        refine renderToF_no_marker g hwf s hb hs ?_ hinf
        rintro ⟨nd, hnd, hy⟩
        exact hlab nd hnd hy
  · intro hbt
    rcases hmark hbt with hpre | hempty
    · refine List.IsInfix.trans ?_ hpre.isInfix
      decide
    · exact absurd (List.isEmpty_iff.mp hempty) hne

/-- A single node labelled exactly `CYCLE DETECTED`. -/
def gC2 : DAGs := DAGs.new.add_node 1 ("CYCLE DETECTED").data

/-- Counterexample to C2 as stated: `gC2` is acyclic and `has_cycle`
is false, yet its rendered output contains the `CYCLE DETECTED`
marker, because the label itself carries it. -/
theorem c2_counterexample :
    hasCycleF gC2 = some false ∧
    ¬ HasClosedWalk gC2 ∧
    gC2.nodes ≠ [] ∧
    renderToF gC2 = some ("[CYCLE DETECTED]\n").data ∧
    (("CYCLE DETECTED").data <:+: ("[CYCLE DETECTED]\n").data) := by
  refine ⟨by decide, ?_, by decide, by decide, by decide⟩
  rintro ⟨x, hx⟩
  obtain ⟨c, hc, _⟩ := (Relation.TransGen.head'_iff).mp hx
  have hc' : (x, c) ∈ gC2.edges := hc
  have hedges : gC2.edges = [] := by decide
  rw [hedges] at hc'
  cases hc'

/-- Witness for C2 (amended) at a concrete input. -/
theorem c2_witness :
    (WF gC4 ∧ ∀ nd ∈ gC4.nodes, ('Y' : Char) ∉ nd.2) ∧
    (∃ b s, hasCycleF gC4 = some b ∧ renderToF gC4 = some s ∧
      (b = true ↔ HasClosedWalk gC4) ∧
      (gC4.nodes ≠ [] →
        ((("CYCLE DETECTED").data <:+: s) ↔ b = true))) :=
  ⟨⟨by decide, by decide⟩, c2_amended gC4 (by decide) (by decide)⟩

/-- Witness for C5 (amended) at a concrete input. -/
theorem c5_witness :
    ((([(1, ['A']), (2, [])] : List (Nat × List Char)).map Prod.fst).Nodup) ∧
    (DAGs.from_edges [(1, ['A']), (2, [])] [(1, 2), (2, 3)] =
      fromEdgesIncr [(1, ['A']), (2, [])] [(1, 2), (2, 3)] ∧
    renderToF (DAGs.from_edges [(1, ['A']), (2, [])] [(1, 2), (2, 3)]) =
      renderToF (fromEdgesIncr [(1, ['A']), (2, [])] [(1, 2), (2, 3)])) :=
  ⟨by decide, c5_amended [(1, ['A']), (2, [])] [(1, 2), (2, 3)] (by decide)⟩

end AsciiDag
